import Mathlib

/-!
# UnLynx: deterministic tagging, shuffle proofs, the ring and the tree

A shallow embedding of the parts of `lca1/unlynx` that the specification's
claims talk about: the deterministic tag, the collective (tree) aggregation,
the verification of shuffle proofs, the wire format of the aggregation
messages and the shuffling+DDT ring.

The cryptographic group comes from the external `kyber` library: `kyber.Scalar`
is the exponent field of a prime-order group and `kyber.Point` is that group.
Both are taken as parameters: `S` is a field, `P` an additive commutative group
and `Module S P` supplies `Point().Mul(s, p)` as `s • p`, `Point().Add` as `+`
and `Point().Sub` as `-`.
-/

namespace UnLynx

/-! ## Data model -/

/-- CipherText of `libunlynx`: the pair `(K, C)` of points. -/
structure CipherText (P : Type) where
  K : P
  C : P
deriving DecidableEq

/-- CipherVector of `libunlynx`: a slice of ciphertexts. -/
abbrev CipherVector (P : Type) := List (CipherText P)

section Tagging

variable {S P : Type} [Field S] [AddCommGroup P] [Module S P]

/-! ## `lib/deterministic_tag/deterministic_tag.go` -/

/-- DeterministicTag (lines 31-51): the cycle round of the distributed
deterministic tagging on one ciphertext. -/
def DeterministicTag (ct : CipherText P) (priv secretContrib : S) : CipherText P :=
  -- ctNew.K = Mul(secretContrib, ct.K)
  let newK := secretContrib • ct.K
  -- contrib := Mul(private, ct.K)
  let contrib := priv • ct.K
  -- ctNew.C = Sub(ct.C, contrib); ctNew.C = Mul(secretContrib, ctNew.C)
  let newC := ct.C - contrib
  { K := newK, C := secretContrib • newC }

/-- The tag chain: `DeterministicTag` applied once per node, in the order of
the list of node private keys, every node using the same session secret. -/
def tagChain (keys : List S) (secretContrib : S) (ct : CipherText P) : CipherText P :=
  keys.foldl (fun c k => DeterministicTag c k secretContrib) ct

end Tagging

/-! ## Ciphertext algebra (`lib/crypto.go`, `lib/structs.go`)

These files are not part of the sources at hand; only their tests and callers
are. The operations below follow the specification. -/

section Algebra

variable {S P : Type} [Field S] [AddCommGroup P] [Module S P]

/-- Modelled from the spec: ElGamal-style encryption (`lib/crypto.go`, absent).
A ciphertext is the pair `(K, C)` where `K` is the ephemeral component and `C`
carries the masked message: for base point `B`, public key `pub`, randomness
`r` and message point `M` it is `(r·B, M + r·pub)`. -/
def encryptPoint (B pub : P) (r : S) (M : P) : CipherText P :=
  { K := r • B, C := M + r • pub }

/-- Modelled from the spec: `encryptInt(pub, v)` (`EncryptInt` of
`lib/crypto.go`, absent): the integer `v` is encoded as the point `v·B` and
encrypted; `r` is the fresh randomness of the call. -/
def EncryptInt (B pub : P) (r : S) (v : Int) : CipherText P :=
  encryptPoint B pub r ((v : S) • B)

/-- Modelled from the spec: `EncryptIntVector` (`lib/crypto.go`, absent), the
vectorized `encryptInt`; the call for position `i` draws the randomness
`rs i`. -/
def EncryptIntVector (B pub : P) (rs : Nat → S) : List Int → CipherVector P
  | [] => []
  | v :: vs => EncryptInt B pub (rs 0) v :: EncryptIntVector B pub (fun i => rs (i + 1)) vs

/-- Modelled from the spec: `add(a,b)→CipherText` (`CipherText.Add` of
`lib/crypto.go`, absent): pointwise group addition of `(K, K')` and
`(C, C')`. -/
def CipherText.Add (c1 c2 : CipherText P) : CipherText P :=
  { K := c1.K + c2.K, C := c1.C + c2.C }

/-- Modelled from the spec: the vectorized `add` (`CipherVector.Add` of
`lib/crypto.go`, absent): component-wise over two vectors of equal length.
The spec makes unequal lengths a programming error of the caller (who must pad
first); every use below is on vectors of equal length. -/
def CipherVector.Add (cv1 cv2 : CipherVector P) : CipherVector P :=
  List.zipWith CipherText.Add cv1 cv2

/-- Modelled from the spec: the message point that the private key `priv`
recovers from an ElGamal-style ciphertext `(K, C)`, namely `C − priv·K` (the
first half of `decryptInt`; `lib/crypto.go`, absent). -/
def decryptPoint (priv : S) (ct : CipherText P) : P :=
  ct.C - priv • ct.K

/-- Modelled from the spec: the discrete logarithm by brute force over a
bounded small integer domain (`lib/crypto.go`, absent): the first `m` among
`0, 1, …, bound − 1` with `m·B = M`, and no value when there is none. -/
def discreteLog (S : Type) {P : Type} [Field S] [AddCommGroup P] [Module S P] [DecidableEq P]
    (B : P) (bound : Nat) (M : P) : Option Int :=
  ((List.range bound).find? (fun (m : Nat) => decide (((m : Int) : S) • B = M))).map Int.ofNat

/-- Modelled from the spec: `decryptInt(priv, ct)` (`DecryptInt` of
`lib/crypto.go`, absent): the discrete logarithm of the decrypted point. -/
def DecryptInt [DecidableEq P] (B : P) (bound : Nat) (priv : S) (ct : CipherText P) :
    Option Int :=
  discreteLog S B bound (decryptPoint priv ct)

/-- Modelled from the spec: `DecryptIntVector` (`lib/crypto.go`, absent), the
vectorized `decryptInt`. -/
def DecryptIntVector [DecidableEq P] (B : P) (bound : Nat) (priv : S) (cv : CipherVector P) :
    List (Option Int) :=
  cv.map (DecryptInt B bound priv)

/-- FilteredResponse of `libunlynx`: one client record after filtering. -/
structure FilteredResponse (P : Type) where
  GroupByEnc : CipherVector P
  AggregatingAttributes : CipherVector P
deriving DecidableEq

/-- Modelled from the spec: `FilteredResponse.Add` (`lib/structs.go`, absent),
the homomorphic sum of two records: `AggregatingAttributes` are added
column-wise. The spec does not say what becomes of `GroupByEnc`;
`TestAddClientResponse` only needs it to decrypt to the operands' common
grouping, and the first operand's is kept here. -/
def FilteredResponse.Add (cr1 cr2 : FilteredResponse P) : FilteredResponse P :=
  { GroupByEnc := cr1.GroupByEnc
    AggregatingAttributes := CipherVector.Add cr1.AggregatingAttributes cr2.AggregatingAttributes }

end Algebra

/-! ## `protocols/collective_aggregation_protocol.go` -/

/-- GroupingKey of `libunlynx`: a Go string. -/
abbrev GroupingKey := String

/-- EMPTYKEY (lines 26-27): the default key when the `SimpleData` array is
used. -/
def EMPTYKEY : GroupingKey := ""

/-- FilteredResponseDet of `libunlynx`: a FilteredResponse with its
deterministic tag. -/
structure FilteredResponseDet (P : Type) where
  DetTagGroupBy : GroupingKey
  Fr : FilteredResponse P
deriving DecidableEq

/-- The Go type `map[libunlynx.GroupingKey]libunlynx.FilteredResponse`: a finite
map with one entry per key. `m[k]` is `AList.lookup k m` and `m[k] = v` is
`AList.insert k v m`. -/
abbrev GroupedMap (P : Type) := AList (fun _ : GroupingKey => FilteredResponse P)

/-- The Go type `map[libunlynx.GroupingKey][]libunlynx.CipherVector` of
`cvMap`. -/
abbrev CvMap (P : Type) := AList (fun _ : GroupingKey => List (CipherVector P))

/-- The Go type `[]byte`. -/
abbrev Bytes := List UInt8

/-- How a call ends when it does not return normally: with an error value, or
with a runtime panic (a store into a nil map, a nil function value called, an
index past the end, `make` with a negative length). -/
inductive Failure where
  | error (msg : String)
  | panic
deriving DecidableEq

/-- The value of a Go `int` expression whose exact value is `x`: arithmetic on
the 64-bit `int` wraps around. -/
def goInt (x : Int) : Int :=
  (x + 2 ^ 63) % 2 ^ 64 - 2 ^ 63

/-! ### The wire format of `ChildAggregatedDataMessage` -/

/-- What the conversion of a `ChildAggregatedDataMessage` uses from `lib`
(`lib/crypto.go` and `lib/structs.go`, absent). Lengths are Go `int`s. -/
structure WireEnv (P : Type) where
  /-- The size in bytes of a ciphertext, `libunlynx.CipherTextByteSize()`. -/
  CipherTextByteSize : Int
  /-- The method `FilteredResponseDet.ToBytes`: the bytes of an element and its
  three lengths (`gacbLength`, `aabLength`, `dtbLength`), or an error. -/
  ToBytes : FilteredResponseDet P → Except String (Bytes × Int × Int × Int)
  /-- The method `FilteredResponseDet.FromBytes` on an empty element: the
  element read from the bytes with the three lengths, or an error. -/
  FromBytes : Bytes → Int → Int → Int → Except String (FilteredResponseDet P)

/-- ChildAggregatedDataMessage (lines 50-53): one node's aggregated data. -/
structure ChildAggregatedDataMessage (P : Type) where
  ChildData : List (FilteredResponseDet P)
deriving DecidableEq

section Wire

variable {P : Type}

/-- The values of a list of results when none is an error, and the first error
otherwise (what `EndParallelize` reports). -/
def collectErrors {α : Type} : List (Except String α) → Except String (List α)
  | [] => .ok []
  | .error e :: _ => .error e
  | .ok a :: rest =>
    match collectErrors rest with
    | .ok as => .ok (a :: as)
    | .error e => .error e

/-- ChildAggregatedDataMessage.ToBytes (lines 337-375). Every element is
converted and the bytes are concatenated in order; the three lengths returned
are those of the element whose goroutine stored them last, the one at index
`lastWriter` modulo the number of elements (all zero for no element). -/
def ChildAggregatedDataMessage.ToBytes (w : WireEnv P) (lastWriter : Nat)
    (sm : ChildAggregatedDataMessage P) : Except String (Bytes × Int × Int × Int) :=
  match collectErrors (sm.ChildData.map w.ToBytes) with
  | .error e => .error e
  | .ok bb =>
    let lengths : Int × Int × Int :=
      match bb[lastWriter % bb.length]? with
      | some aux => aux.2
      | none => (0, 0, 0)
    .ok ((bb.map (fun aux => aux.1)).flatten, lengths)

/-- Lines 389-392: the slices `data[i*elementLength : i*elementLength+elementLength]`
for `i` below `nbrChildData`. -/
def elementSlices (data : Bytes) (elementLength nbrChildData : Nat) : List Bytes :=
  (List.range nbrChildData).map (fun i => (data.drop (i * elementLength)).take elementLength)

/-- ChildAggregatedDataMessage.FromBytes (lines 377-398) on an empty message:
the `ChildData` it ends with, or how it fails. The element length is computed
in Go's `int`, and `make` panics on a negative number of elements. -/
def ChildAggregatedDataMessage.FromBytes (w : WireEnv P) (data : Bytes)
    (gacbLength aabLength dtbLength : Int) : Except Failure (List (FilteredResponseDet P)) :=
  let cipherTextSize := w.CipherTextByteSize
  let elementLength :=
    goInt (gacbLength * cipherTextSize + aabLength * cipherTextSize + dtbLength)
  if elementLength ≠ 0 ∧ data.length > 0 then
    let nbrChildData : Int := Int.tdiv (data.length : Int) elementLength
    if nbrChildData < 0 then
      .error Failure.panic
    else
      match collectErrors
          ((elementSlices data elementLength.toNat nbrChildData.toNat).map
            (fun v => w.FromBytes v gacbLength aabLength dtbLength)) with
      | .ok childData => .ok childData
      | .error e => .error (Failure.error e)
  else
    .ok []

end Wire

/-- What a node running the protocol gets from outside its own code: the
group's base point and the roster's key, the Go runtime's choices, the
conversions of `lib` and what the network (the external `onet` library)
delivers. -/
structure Env (S P : Type) where
  /-- The base point, `libunlynx.SuiTe.Point().Base()`. -/
  Base : P
  /-- The roster's aggregate public key, `p.Roster().Aggregate`. -/
  Aggregate : P
  /-- The node's name, `p.ServerIdentity().String()`. -/
  ServerIdentity : String
  /-- The fresh randomness of the node's successive encryptions. -/
  rnd : Nat → S
  /-- The order in which a `range` over the grouped map visits its entries. -/
  rangeGrouped : GroupedMap P → List (Sigma (fun _ : GroupingKey => FilteredResponse P))
  /-- The order in which a `range` over `cvMap` visits its entries. -/
  rangeCv : CvMap P → List (Sigma (fun _ : GroupingKey => List (CipherVector P)))
  /-- The method `FilteredResponseDet.FormatAggregationProofs` (`lib/structs.go`,
  absent), which adds a bucket to `cvMap`. -/
  FormatAggregationProofs : FilteredResponseDet P → CvMap P → CvMap P
  /-- The conversions of `lib` that the wire format of the messages uses. -/
  wire : WireEnv P
  /-- In `ChildAggregatedDataMessage.ToBytes`, the index (modulo the number of
  elements) of the element whose goroutine stores its lengths last. -/
  lastWriter : Nat
  /-- Whether the `DataReferenceMessage` arrives before `TIMEOUT`. -/
  dataReference : Bool
  /-- The error of `SendToChildren`, if it fails. -/
  sendToChildrenErr : Option String
  /-- What `LengthNodeChannel` delivers: the three lengths of the message of
  every child. -/
  lengthMessages : List (Int × Int × Int)
  /-- What `ChildDataChannel` delivers: the bytes of the message of every
  child. -/
  dataMessages : List Bytes
  /-- The error of `SendToParent` for the length message, if it fails. -/
  sendLengthErr : Option String
  /-- The error of `SendToParent` for the data message, if it fails. -/
  sendDataErr : Option String

/-- A message handed to the network: the announcement, the three lengths of a
`CADBLengthMessage`, or the bytes of a `ChildAggregatedDataBytesMessage`. -/
inductive Message (P : Type) where
  | DataReferenceToChildren
  | CADBLengthToParent (gacbLength aabLength dtbLength : Int)
  | ChildAggregatedDataToParent (data : Bytes)
deriving DecidableEq

/-- CollectiveAggregationProtocol (lines 91-111): the state of a protocol
instance. `GroupedData` is a pointer to a map: nil, or a map that is itself
the nil map or a map with its entries. `Pr` is the type of the proofs the
proof function returns. -/
structure CollectiveAggregationProtocol (P Pr : Type) where
  IsRoot : Bool
  IsLeaf : Bool
  GroupedData : Option (Option (GroupedMap P))
  SimpleData : Option (List (CipherText P))
  Proofs : Bool
  ProofFunc : Option (List (CipherVector P) → CipherVector P → Pr)

section Aggregation

variable {S P : Type} [Field S] [AddCommGroup P] [Module S P]

/-- Lines 241-244: `encZeros`, a vector of `n` encryptions of zero under the
roster's aggregate key, the `e`-th one with randomness `rnd e`. -/
def encZeros (B aggregate : P) (rnd : Nat → S) (n : Nat) : CipherVector P :=
  (List.range n).map (fun e => EncryptInt B aggregate (rnd e) 0)

/-- Lines 240-250: the two `AggregatingAttributes` after the padding of the
shorter one, as the pair (local, child). -/
def padAttributes (B aggregate : P) (rnd : Nat → S) (localAA aggrAA : CipherVector P) :
    CipherVector P × CipherVector P :=
  if localAA.length ≠ aggrAA.length then
    let zeros := encZeros B aggregate rnd
      (Int.natAbs ((localAA.length : Int) - (aggrAA.length : Int)))
    if localAA.length > aggrAA.length then
      (localAA, aggrAA ++ zeros)
    else
      (localAA ++ zeros, aggrAA)
  else
    (localAA, aggrAA)

/-- The randomness left after the padding of lines 240-250 has drawn its
encryptions of zero. -/
def rndAfterPad (rnd : Nat → S) (localAA aggrAA : CipherVector P) : Nat → S :=
  if localAA.length ≠ aggrAA.length then
    fun i => rnd (i + Int.natAbs ((localAA.length : Int) - (aggrAA.length : Int)))
  else
    rnd

/-- The state that the merge loop of `ascendingAggregationPhase` updates. -/
structure AggrState (S P : Type) where
  GroupedData : GroupedMap P
  cvMap : CvMap P
  rnd : Nat → S

/-- Lines 232-259, one iteration of the loop over `ChildData`: merge the
child's bucket `aggr` into the local map. -/
def mergeAggr (B aggregate : P) (proofs : Bool)
    (fmt : FilteredResponseDet P → CvMap P → CvMap P)
    (st : AggrState S P) (aggr : FilteredResponseDet P) : AggrState S P :=
  -- localAggr, ok := (*p.GroupedData)[aggr.DetTagGroupBy]
  let found := st.GroupedData.lookup aggr.DetTagGroupBy
  let cvMap := if proofs then fmt aggr st.cvMap else st.cvMap
  match found with
  | some localAggr =>
    let padded := padAttributes B aggregate st.rnd localAggr.AggregatingAttributes
      aggr.Fr.AggregatingAttributes
    let cv := CipherVector.Add padded.1 padded.2
    { GroupedData := st.GroupedData.insert aggr.DetTagGroupBy
        { localAggr with AggregatingAttributes := cv }
      cvMap := cvMap
      rnd := rndAfterPad st.rnd localAggr.AggregatingAttributes aggr.Fr.AggregatingAttributes }
  | none =>
    { GroupedData := st.GroupedData.insert aggr.DetTagGroupBy aggr.Fr
      cvMap := cvMap
      rnd := st.rnd }

/-- Lines 232-259: the loop over the `ChildData` of one child. -/
def mergeChildData (B aggregate : P) (proofs : Bool)
    (fmt : FilteredResponseDet P → CvMap P → CvMap P)
    (st : AggrState S P) (childData : List (FilteredResponseDet P)) : AggrState S P :=
  childData.foldl (mergeAggr B aggregate proofs fmt) st

/-- Lines 223-265: the loop over the lengths received, from the index `i` on.
The index `datas[i]` panics past the end of the data received, `FromBytes`
ends the phase with its error or panics, and the store of line 258 panics for
the first bucket of a child when the map behind `p.GroupedData` is the nil
map (`nilMap`). -/
def mergeChildren (w : WireEnv P) (B aggregate : P) (proofs : Bool)
    (fmt : FilteredResponseDet P → CvMap P → CvMap P) (nilMap : Bool) (datas : List Bytes) :
    Nat → List (Int × Int × Int) → AggrState S P → Except Failure (AggrState S P)
  | _, [], st => .ok st
  | i, v :: rest, st =>
    match datas[i]? with
    | none => .error Failure.panic
    | some data =>
      match ChildAggregatedDataMessage.FromBytes w data v.1 v.2.1 v.2.2 with
      | .error f => .error f
      | .ok childData =>
        if nilMap && !childData.isEmpty then
          .error Failure.panic
        else
          mergeChildren w B aggregate proofs fmt nilMap datas (i + 1) rest
            (mergeChildData B aggregate proofs fmt st childData)

/-- Lines 271-277: `detAggrResponses`, the node's map as a list, in the order
of the `range` over the map. -/
def detAggrResponses
    (range : GroupedMap P → List (Sigma (fun _ : GroupingKey => FilteredResponse P)))
    (gd : GroupedMap P) : List (FilteredResponseDet P) :=
  (range gd).map (fun kv => { DetTagGroupBy := kv.1, Fr := kv.2 })

/-- What `ascendingAggregationPhase` leaves behind: the messages it sent, the
state it reached and its return value. -/
structure PhaseResult (S P : Type) where
  sent : List (Message P)
  state : AggrState S P
  result : Except Failure (GroupedMap P)

/-- Lines 270-301: a non-root node converts its merged map to bytes, reads
the bytes back (line 290, for the error only) and sends the lengths and the
bytes to its parent. -/
def sendUp (env : Env S P) (st : AggrState S P) : PhaseResult S P :=
  let responses := detAggrResponses env.rangeGrouped st.GroupedData
  match ChildAggregatedDataMessage.ToBytes env.wire env.lastWriter
      { ChildData := responses } with
  | .error e => { sent := [], state := st, result := .error (Failure.error e) }
  | .ok (data, gacbLength, aabLength, dtbLength) =>
    match ChildAggregatedDataMessage.FromBytes env.wire data gacbLength aabLength
        dtbLength with
    | .error f => { sent := [], state := st, result := .error f }
    | .ok _ =>
      match env.sendLengthErr with
      | some e =>
        { sent := [], state := st
          result := .error (Failure.error ("error sending <CADBLengthMessage>: " ++ e)) }
      | none =>
        match env.sendDataErr with
        | some e =>
          { sent := [Message.CADBLengthToParent gacbLength aabLength dtbLength], state := st
            result := .error
              (Failure.error ("error sending <ChildAggregatedDataMessage>: " ++ e)) }
        | none =>
          { sent := [Message.CADBLengthToParent gacbLength aabLength dtbLength,
              Message.ChildAggregatedDataToParent data]
            state := st
            result := .ok st.GroupedData }

/-- ascendingAggregationPhase (lines 209-304), on the map `gd` behind the
pointer that `checkData` has left in `p.GroupedData` (none is the nil map,
which reads as the empty map). At a node that is not a leaf the two channels
have delivered the messages of the children. -/
def ascendingAggregationPhase (env : Env S P) (isRoot isLeaf proofs : Bool)
    (gd : Option (GroupedMap P)) (cvMap : CvMap P) : PhaseResult S P :=
  let st0 : AggrState S P := { GroupedData := gd.getD ∅, cvMap := cvMap, rnd := env.rnd }
  let merged : Except Failure (AggrState S P) :=
    if !isLeaf then
      mergeChildren env.wire env.Base env.Aggregate proofs env.FormatAggregationProofs
        gd.isNone env.dataMessages 0 env.lengthMessages st0
    else
      .ok st0
  match merged with
  | .error f => { sent := [], state := st0, result := .error f }
  | .ok st =>
    if !isRoot then
      sendUp env st
    else
      { sent := [], state := st, result := .ok st.GroupedData }

/-- Lines 321-326: the slice made with the length of `SimpleData` (every slot
the zero value `zero`) after the loop has stored the `i`-th element of
`SimpleData` at index `i`. -/
def copySimpleData (zero : CipherText P) (simpleData : List (CipherText P)) :
    List (CipherText P) :=
  simpleData.enum.foldl (fun acc iv => acc.set iv.1 iv.2)
    (List.replicate simpleData.length zero)

/-- checkData (lines 306-332): set up the data of the aggregation; returns the
error, or the updated instance. -/
def checkData {Pr : Type} (p : CollectiveAggregationProtocol P Pr) :
    Except String (CollectiveAggregationProtocol P Pr) :=
  match p.GroupedData, p.SimpleData with
  | none, none => .error "no data reference is provided"
  | some _, some _ => .error "two data references are given in the struct"
  | some _, none => .ok p
  | none, some simpleData =>
    let result : GroupedMap P := ∅
    let result :=
      if simpleData.length > 0 then
        result.insert EMPTYKEY
          { GroupByEnc := []
            AggregatingAttributes := copySimpleData (CipherText.mk 0 0) simpleData }
      else
        result
    .ok { p with GroupedData := some (some result), SimpleData := none }

/-- aggregationAnnouncementPhase (lines 196-207): forward the announcement down
the tree; the messages sent and the error, if any. -/
def aggregationAnnouncementPhase (env : Env S P) : List (Message P) × Option String :=
  if env.dataReference then
    match env.sendToChildrenErr with
    | some e => ([], some ("error sending <DataReferenceMessage>: " ++ e))
    | none => ([Message.DataReferenceToChildren], none)
  else
    ([], some (env.ServerIdentity ++ " didn't get the <dataReferenceMessage> on time"))

/-- Lines 162-169: `cvMap` before the local aggregation. -/
def formatLocal (env : Env S P) (proofs : Bool) (gd : GroupedMap P) : CvMap P :=
  if proofs then
    (env.rangeGrouped gd).foldl
      (fun cvMap kv => env.FormatAggregationProofs { DetTagGroupBy := kv.1, Fr := kv.2 } cvMap) ∅
  else
    ∅

/-- Lines 180-185: the two arguments of the proof function. -/
def proofArguments (env : Env S P) (cvMap : CvMap P) (aggregatedData : GroupedMap P) :
    List (CipherVector P) × CipherVector P :=
  (env.rangeCv cvMap).foldl
    (fun acc kv =>
      (acc.1 ++ kv.2,
       acc.2 ++ (match aggregatedData.lookup kv.1 with
                 | some fr => fr.AggregatingAttributes
                 | none => [])))
    ([], [])

/-- What a run of `Dispatch` leaves behind: the messages sent, the map put on
the feedback channel, the proof the proof function returned, and how the call
ended. -/
structure DispatchResult (P Pr : Type) where
  sent : List (Message P)
  feedback : Option (GroupedMap P)
  proof : Option Pr
  outcome : Except Failure Unit

/-- Dispatch (lines 146-194). -/
def Dispatch {Pr : Type} (env : Env S P) (p : CollectiveAggregationProtocol P Pr) :
    DispatchResult P Pr :=
  match checkData p with
  | .error e => { sent := [], feedback := none, proof := none, outcome := .error (.error e) }
  | .ok p =>
    match p.GroupedData with
    | none => { sent := [], feedback := none, proof := none, outcome := .error .panic }
    | some gd =>
      -- `gd` is the map behind the pointer; a nil map reads as the empty map
      -- 1. Aggregation announcement phase
      let announce : List (Message P) × Option String :=
        if !p.IsRoot then aggregationAnnouncementPhase env else ([], none)
      match announce.2 with
      | some e =>
        { sent := announce.1, feedback := none, proof := none, outcome := .error (.error e) }
      | none =>
        -- 3. Proof generation (a) - before local aggregation
        let cvMap := formatLocal env p.Proofs (gd.getD ∅)
        -- 2. Ascending aggregation phase
        let phase := ascendingAggregationPhase env p.IsRoot p.IsLeaf p.Proofs gd cvMap
        match phase.result with
        | .error f =>
          { sent := announce.1 ++ phase.sent, feedback := none, proof := none
            outcome := .error f }
        | .ok aggregatedData =>
          -- 3. Proof generation (b) - after local aggregation
          if p.Proofs then
            let args := proofArguments env phase.state.cvMap aggregatedData
            match p.ProofFunc with
            | none =>
              { sent := announce.1 ++ phase.sent, feedback := none, proof := none
                outcome := .error .panic }
            | some f =>
              { sent := announce.1 ++ phase.sent
                feedback := if p.IsRoot then some aggregatedData else none
                proof := some (f args.1 args.2)
                outcome := .ok () }
          else
            { sent := announce.1 ++ phase.sent
              feedback := if p.IsRoot then some aggregatedData else none
              proof := none
              outcome := .ok () }

/-! ### A round over a whole tree -/

/-- A tree of protocol instances: every node holds its local grouped map and
its own source of randomness, and has a list of children. -/
inductive AggTree (S P : Type) where
  | node (GroupedData : GroupedMap P) (rnd : Nat → S) (children : List (AggTree S P))

mutual
/-- The merge of the lists as they are built: the map that lines 223-265 of
`ascendingAggregationPhase` leave at a node when every list of a child is
merged as the child built it. It is the reference that `treePhase`, which
passes every list through `ToBytes` and `FromBytes`, is compared with. -/
def collectiveAggregation (env : Env S P) (proofs : Bool) : AggTree S P → GroupedMap P
  | .node gd rnd cs =>
    (List.foldl (mergeChildData env.Base env.Aggregate proofs env.FormatAggregationProofs)
      { GroupedData := gd, cvMap := formatLocal env proofs gd, rnd := rnd }
      (treeContributions env proofs cs)).GroupedData
/-- The lists that the children of a node build of their merged maps (lines
271-277), in the order of the children. -/
def treeContributions (env : Env S P) (proofs : Bool) :
    List (AggTree S P) → List (List (FilteredResponseDet P))
  | [] => []
  | c :: cs =>
    detAggrResponses env.rangeGrouped (collectiveAggregation env proofs c)
      :: treeContributions env proofs cs
end

/-- The lengths and the bytes that a child has sent to its parent, when it has
sent both. -/
def sentToParent : List (Message P) → Option ((Int × Int × Int) × Bytes)
  | [Message.CADBLengthToParent gacbLength aabLength dtbLength,
      Message.ChildAggregatedDataToParent data] =>
    some ((gacbLength, aabLength, dtbLength), data)
  | _ => none

mutual
/-- A round of the tree: `ascendingAggregationPhase` at a node of the tree (a
node without children is a leaf), with the messages that its children have
sent. A node waits for the messages of all its children (the receives of
lines 215 and 219 have no timeout): there is no result when a child does not
send both of its messages. Both channels deliver the messages in the order
of the children. -/
def treePhase (env : Env S P) (proofs : Bool) : AggTree S P → Bool → Option (PhaseResult S P)
  | .node gd rnd cs, isRoot =>
    match childrenMessages env proofs cs with
    | none => none
    | some msgs =>
      some (ascendingAggregationPhase
        { env with rnd := rnd, lengthMessages := msgs.1, dataMessages := msgs.2 }
        isRoot cs.isEmpty proofs (some gd) (formatLocal env proofs gd))
/-- The messages that the children of a node send to it in a round, in the
order of the children: the lengths and the bytes. -/
def childrenMessages (env : Env S P) (proofs : Bool) :
    List (AggTree S P) → Option (List (Int × Int × Int) × List Bytes)
  | [] => some ([], [])
  | c :: cs =>
    match treePhase env proofs c false, childrenMessages env proofs cs with
    | some r, some msgs =>
      match sentToParent r.sent with
      | some m => some (m.1 :: msgs.1, m.2 :: msgs.2)
      | none => none
    | _, _ => none
end

/-- Whether a parent reads the list `l` back as it is: `FromBytes`, on the
bytes and the lengths that `ToBytes` makes of `l`, ends with `l`. -/
def readsBack [DecidableEq P] (w : WireEnv P) (lastWriter : Nat)
    (l : List (FilteredResponseDet P)) : Bool :=
  match ChildAggregatedDataMessage.ToBytes w lastWriter { ChildData := l } with
  | .error _ => false
  | .ok m =>
    match ChildAggregatedDataMessage.FromBytes w m.1 m.2.1 m.2.2.1 m.2.2.2 with
    | .error _ => false
    | .ok l' => decide (l' = l)

mutual
/-- Whether every node of the tree below its root builds a list that its
parent reads back as it is. -/
def wireFaithful [DecidableEq P] (env : Env S P) (proofs : Bool) : AggTree S P → Bool
  | .node _ _ cs => childrenFaithful env proofs cs
/-- Whether every node of a list of trees builds a list that its parent reads
back as it is. -/
def childrenFaithful [DecidableEq P] (env : Env S P) (proofs : Bool) :
    List (AggTree S P) → Bool
  | [] => true
  | c :: cs =>
    readsBack env.wire env.lastWriter
        (detAggrResponses env.rangeGrouped (collectiveAggregation env proofs c))
      && wireFaithful env proofs c && childrenFaithful env proofs cs
end

mutual
/-- The local maps of all the nodes of a tree. -/
def AggTree.nodes : AggTree S P → List (GroupedMap P)
  | .node gd _ cs => gd :: nodesOfList cs
/-- The local maps of all the nodes of a list of trees. -/
def nodesOfList : List (AggTree S P) → List (GroupedMap P)
  | [] => []
  | c :: cs => c.nodes ++ nodesOfList cs
end

/-- The plaintext points of the `AggregatingAttributes` of a record, under the
private key `sk`. -/
def decryptVector (sk : S) (fr : FilteredResponse P) : List P :=
  fr.AggregatingAttributes.map (decryptPoint sk)

/-- The column-wise sum of two vectors (of points, or of integers); beyond the
length of the shorter one the longer one's entries are kept. -/
def padSum {α : Type} [Add α] : List α → List α → List α
  | [], ys => ys
  | x :: xs, [] => x :: xs
  | x :: xs, y :: ys => (x + y) :: padSum xs ys

/-- The sum of two optional vectors: an absent one counts for nothing. -/
def optSum {α : Type} [Add α] : Option (List α) → Option (List α) → Option (List α)
  | none, b => b
  | some x, none => some x
  | some x, some y => some (padSum x y)

/-- The column-wise sum of a list of vectors; there is none when the list is
empty. -/
def columnSum {α : Type} [Add α] : List (List α) → Option (List α)
  | [] => none
  | v :: vs => some (vs.foldl padSum v)

/-- The plaintext vectors of the records that the nodes of a tree hold under
the key `g`. -/
def recordsUnder (sk : S) (g : GroupingKey) (maps : List (GroupedMap P)) : List (List P) :=
  maps.filterMap (fun m => (m.lookup g).map (decryptVector sk))

end Aggregation

/-! ## `lib/shuffle/shuffle_proofs.go` -/

/-- PublishedShufflingProof (lines 17-24): all the parts of a shuffle proof. -/
structure PublishedShufflingProof (P : Type) where
  OriginalList : List (CipherVector P)
  ShuffledList : List (CipherVector P)
  G : P
  H : P
  HashProof : Bytes
deriving DecidableEq

/-- PublishedShufflingListProof (lines 37-40): a list of shuffle proofs. -/
structure PublishedShufflingListProof (P : Type) where
  Pslp : List (PublishedShufflingProof P)
deriving DecidableEq

/-- What the shuffle proofs use from outside this file: the challenge vector of
`lib` and the proof check of the external `kyber` library. -/
structure ShuffleEnv (S P : Type) where
  /-- The method `CipherVector.CipherVectorTag` (`lib/crypto.go`, absent), which
  derives the public challenge vector `e` from a ciphertext vector and a seed
  point. -/
  CipherVectorTag : CipherVector P → P → List S
  /-- Whether `proof.HashVerify` with the verifier `shuffleKyber.Verifier(suite,
  g, h, x, y, xbar, ybar)` accepts the transcript, that is returns no error. -/
  HashVerify : P → P → List P → List P → List P → List P → Bytes → Bool

section Shuffle

variable {S P : Type} [Field S] [AddCommGroup P] [Module S P]

/-- Modelled from the spec: `NewCipherText` (`lib/crypto.go`, absent), a fresh
ciphertext: the neutral element of the homomorphic addition. -/
def NewCipherText : CipherText P :=
  { K := 0, C := 0 }

/-- Modelled from the spec: `scalarMultiply(c, s)→CipherText`
(`MulCipherTextbyScalar` of `lib/crypto.go`, absent): scalar multiplication
scales both components. -/
def MulCipherTextbyScalar (c : CipherText P) (s : S) : CipherText P :=
  { K := s • c.K, C := s • c.C }

/-- compressCipherVector (lines 161-177): a slice of ciphertexts into one
ciphertext. There is no value when it panics with "e is not the right
size!". -/
def compressCipherVector (ciphervector : CipherVector P) (e : List S) :
    Option (CipherText P) :=
  if e.length ≠ ciphervector.length then
    none
  else
    some ((ciphervector.zip e).foldl
      (fun ciphertext ce => CipherText.Add ciphertext (MulCipherTextbyScalar ce.1 ce.2))
      NewCipherText)

/-- compressListCipherVector (lines 179-196): the compression of every vector
of a list, as the list of the `K` points and the list of the `C` points. There
is no value when a compression panics. -/
def compressListCipherVector :
    List (CipherVector P) → List S → Option (List P × List P)
  | [], _ => some ([], [])
  | v :: rest, e =>
    match compressCipherVector v e, compressListCipherVector rest e with
    | some tmp, some (xK, xC) => some (tmp.K :: xK, tmp.C :: xC)
    | _, _ => none

/-- ShuffleProofVerification (lines 109-135): verifies a shuffle proof. There
is no value when the call panics: on `psp.OriginalList[0]` for an empty list,
or in a compression. -/
def ShuffleProofVerification (env : ShuffleEnv S P) (psp : PublishedShufflingProof P)
    (seed : P) : Option Bool :=
  match psp.OriginalList with
  | [] => none
  | first :: _ =>
    let e := env.CipherVectorTag first seed
    match compressListCipherVector psp.OriginalList e,
        compressListCipherVector psp.ShuffledList e with
    | some (x, y), some (xbar, ybar) =>
      -- err := proof.HashVerify(...); false if err != nil
      some (env.HashVerify psp.G psp.H x y xbar ybar psp.HashProof)
    | _, _ => none

/-- The results of the verifications that ran, when none of them panicked. -/
def collectResults : List (Option Bool) → Option (List Bool)
  | [] => some []
  | none :: _ => none
  | some b :: rest => (collectResults rest).map (fun bs => b :: bs)

/-- The number of binary digits of `n`, counted in at most `fuel` halvings
(`fuel = n` is always enough). -/
def bitLength : Nat → Nat → Nat
  | 0, _ => 0
  | fuel + 1, n => if n = 0 then 0 else bitLength fuel (n / 2) + 1

/-- The integer nearest to `num / den`; of two nearest ones, the even one. -/
def roundHalfEven (num den : Nat) : Nat :=
  let f := num / den
  let r := num % den
  if 2 * r < den then f else if den < 2 * r then f + 1 else if f % 2 = 0 then f else f + 1

/-- A finite value of the Go type `float64`: the number `mant · 2^exp`. The
infinities and NaN are not among the values, and magnitudes are taken to stay
below the overflow threshold `2^1024`. -/
structure Float64 where
  mant : Int
  exp : Int
deriving DecidableEq

/-- The number that a `float64` stands for. -/
def Float64.toRat (x : Float64) : ℚ :=
  (x.mant : ℚ) * (2 : ℚ) ^ x.exp

/-- The `float64` nearest to the number `m · 2^e` (IEEE 754, round to nearest,
ties to even): 53 significant binary digits, and no digit below `2^-1074`. -/
def Float64.round (m e : Int) : Float64 :=
  let a := m.natAbs
  let z := max (e + (bitLength a a : Int) - 53) (-1074)
  if z ≤ e then { mant := m, exp := e }
  else { mant := m.sign * (roundHalfEven a (2 ^ (z - e).toNat) : Int), exp := z }

/-- The conversion `float64(n)` of a Go `int`. -/
def Float64.ofInt (n : Int) : Float64 :=
  Float64.round n 0

/-- The product `x * y` of two `float64` values: the exact product, rounded. -/
def Float64.mul (x y : Float64) : Float64 :=
  Float64.round (x.mant * y.mant) (x.exp + y.exp)

/-- The conversion `int(math.Ceil(x))`: the least integer not below `x`. -/
def Float64.ceil (x : Float64) : Int :=
  if 0 ≤ x.exp then x.mant * 2 ^ x.exp.toNat else -((-x.mant) / 2 ^ (-x.exp).toNat)

/-- ShuffleListProofVerification (lines 137-156): verifies a list of shuffle
proofs. The number of proofs to verify is computed in `float64`, as line 139
does: `int(math.Ceil(percent * float64(len(listProofs.Pslp))))`. There is no
value when the call panics: a negative number of proofs to verify, an index
past the end of the list, or a verification that panics. -/
def ShuffleListProofVerification (env : ShuffleEnv S P)
    (listProofs : PublishedShufflingListProof P) (seed : P) (percent : Float64) :
    Option Bool :=
  let nbrProofsToVerify : Int :=
    Float64.ceil (Float64.mul percent (Float64.ofInt (listProofs.Pslp.length : Int)))
  if nbrProofsToVerify < 0 then
    none
  else if listProofs.Pslp.length < nbrProofsToVerify.toNat then
    none
  else
    let results := collectResults
      ((listProofs.Pslp.take nbrProofsToVerify.toNat).map
        (fun v => ShuffleProofVerification env v seed))
    results.map (fun rs => rs.foldl (fun finalResult v => finalResult && v) true)

end Shuffle


/-! ## Start of the collective aggregation -/

section AggregationStart

variable {S P Pr : Type}

/-- CollectiveAggregationProtocol.Start (lines 137-144), called at the root:
the messages sent (the call of `SendToChildren`) and the error, if any. It
does not read the data of the instance. -/
def CollectiveAggregationProtocol.Start (env : Env S P)
    (_p : CollectiveAggregationProtocol P Pr) : List (Message P) × Option String :=
  match env.sendToChildrenErr with
  | some e => ([], some ("error sending <DataReferenceMessage>: " ++ e))
  | none => ([Message.DataReferenceToChildren], none)

end AggregationStart

/-! ## `lib/deterministic_tag/deterministic_tag.go`: the sequence -/

section TagSequence

variable {S P : Type} [Field S] [AddCommGroup P] [Module S P]

/-- The values that `i` takes in a loop `for i := 0; i < n; i += vp`, from the
value `i` on, with `fuel` bounding the number of iterations. There is no value
when the fuel runs out, as it does for `vp = 0` and `n > 0`, where the loop
does not end. -/
def chunkStarts (vp n : Nat) : Nat → Nat → Option (List Nat)
  | 0, _ => none
  | fuel + 1, i =>
    if i < n then (chunkStarts vp n fuel (i + vp)).map (fun rest => i :: rest) else some []

/-- Lines 18-23 of `DeterministicTagSequence`: the goroutine of the chunk that
starts at `i` stores the tags of the ciphertexts `cv[i+j]` for `j` below the
chunk size and `j+i` below the length. -/
def tagChunk (vp : Nat) (cv : CipherVector P) (priv secretContrib : S) (i : Nat)
    (cvNew : CipherVector P) : CipherVector P :=
  (List.range vp).foldl
    (fun acc j =>
      -- the loop runs while `j + i < len(cv)`, that is while `cv[i+j]` exists
      match cv[i + j]? with
      | some ct => acc.set (i + j) (DeterministicTag ct priv secretContrib)
      | none => acc)
    cvNew

/-- DeterministicTagSequence (lines 10-29) with the chunk size `vp`
(`libunlynx.VPARALLELIZE`). There is no value when the loop over the chunks
does not end. -/
def DeterministicTagSequence (vp : Nat) (cv : CipherVector P) (priv secretContrib : S) :
    Option (CipherVector P) :=
  (chunkStarts vp cv.length (cv.length + 1) 0).map
    (fun starts =>
      starts.foldl (fun cvNew i => tagChunk vp cv priv secretContrib i cvNew)
        (List.replicate cv.length NewCipherText))

end TagSequence

/-! ## `protocols/shuffling+ddt_protocol.go` -/

/-- What a node of the ring gets from outside the protocol's code: its keys
and identity, what the network delivers, and the functions of `lib` that are
not at hand. -/
structure RingEnv (S P : Type) where
  /-- The base point, `libunlynx.SuiTe.Point().Base()`. -/
  Base : P
  /-- The roster's aggregate public key, `p.Tree().Roster.Aggregate`. -/
  Aggregate : P
  /-- The node's name, `p.ServerIdentity().String()`. -/
  ServerIdentity : String
  /-- The node's private key, `p.Private()`. -/
  Private : S
  /-- The node's public key, `p.Public()`. -/
  Public : P
  /-- The chunk size `libunlynx.VPARALLELIZE`. -/
  VPARALLELIZE : Nat
  /-- The `CVLengths` of the length header, when it arrives before `TIMEOUT`. -/
  lengthMessage : Option Bytes
  /-- The `Data` and the `ShuffKey` of the payload, when it arrives before
  `TIMEOUT`. -/
  dataMessage : Option (Bytes × Bytes)
  /-- The function `libunlynx.FromBytesToArrayCipherVector`. -/
  FromBytesToArrayCipherVector : Bytes → Bytes → Except String (List (CipherVector P))
  /-- The function `libunlynx.FromBytesToAbstractPoints`. -/
  FromBytesToAbstractPoints : Bytes → Except String (List P)
  /-- The function `libunlynx.ArrayCipherVectorToBytes`: the data and the
  lengths. -/
  ArrayCipherVectorToBytes : List (CipherVector P) → Except String (Bytes × Bytes)
  /-- The function `libunlynx.AbstractPointsToBytes`. -/
  AbstractPointsToBytes : List P → Except String Bytes
  /-- The function `libunlynxshuffle.ShuffleSequence` with the random choices of
  this run: the shuffled data, the permutation and the blinding factors. -/
  ShuffleSequence : List (CipherVector P) → P → P → Option (List (CipherVector P × List S)) →
    List (CipherVector P) × List Nat × List (List S)
  /-- The error of `libunlynxshuffle.ShuffleProofCreation`, if it fails. -/
  ShuffleProofCreation : List (CipherVector P) → List (CipherVector P) → P → P →
    List (List S) → List Nat → Option String
  /-- The error of `libunlynxdetertag.DeterministicTagAdditionProofCreation`, if
  it fails. -/
  DeterministicTagAdditionProofCreation : P → S → P → P → Option String
  /-- The error of `libunlynxdetertag.DeterministicTagCrListProofCreation`, if it
  fails. -/
  DeterministicTagCrListProofCreation : CipherVector P → CipherVector P → P → S → S →
    Option String
  /-- The error of `sendToNext` for the length header, if it fails. -/
  sendLengthErr : Option String
  /-- The error of `sendToNext` for the payload, if it fails. -/
  sendDataErr : Option String

/-- A message sent to the next node in the circuit. -/
inductive RingMessage where
  | ShufflingPlusDDTBytesLength (CVLengths : Bytes)
  | ShufflingPlusDDTBytesMessage (Data : Bytes) (ShuffKey : Bytes)
deriving DecidableEq

/-- ShufflingPlusDDTProtocol (lines 66-85): the state of a protocol instance. -/
structure ShufflingPlusDDTProtocol (S P : Type) where
  IsRoot : Bool
  TargetData : Option (List (CipherVector P))
  SurveySecretKey : Option S
  Precomputed : Option (List (CipherVector P × List S))
  Proofs : Bool

/-- What a run of `Dispatch` of the ring leaves behind: the messages sent to
the next node, the tags put on the feedback channel, the key the shuffle ran
under (none when no shuffle ran) and how the call ended (none when it does not
return). -/
structure RingResult (P : Type) where
  sent : List RingMessage
  feedback : Option (List (List P))
  shuffleKey : Option P
  outcome : Option (Except Failure Unit)

section Ring

variable {S P : Type} [Field S] [AddCommGroup P] [Module S P]

/-- ShufflingPlusDDTMessage.FromBytes (lines 326-340): the data and the
shuffling key. `dataP[0]` panics on an empty list of points. -/
def ShufflingPlusDDTMessage.FromBytes (env : RingEnv S P) (data shuffKey cvLengthsByte : Bytes) :
    Except Failure (List (CipherVector P) × P) :=
  match env.FromBytesToArrayCipherVector data cvLengthsByte with
  | .error e => .error (Failure.error e)
  | .ok d =>
    match env.FromBytesToAbstractPoints shuffKey with
    | .error e => .error (Failure.error e)
    | .ok [] => .error Failure.panic
    | .ok (key :: _) => .ok (d, key)

/-- Lines 204-216: the addition of the secret to every ciphertext of one
vector, up to the first proof that fails. -/
def addSecretVector (env : RingEnv S P) (proofs : Bool) (secret : S) (toAdd : P) :
    CipherVector P → Except String (CipherVector P)
  | [] => .ok []
  | ct :: rest =>
    let r := ct.C + toAdd
    match (if proofs then env.DeterministicTagAdditionProofCreation ct.C secret toAdd r
           else none) with
    | some tmpErr => .error tmpErr
    | none =>
      match addSecretVector env proofs secret toAdd rest with
      | .ok rest' => .ok ({ ct with C := r } :: rest')
      | .error e => .error e

/-- Lines 199-219: step 2 on the chunks of the shuffled data. Of the chunks
that meet a failing proof, the error of the first one is the one kept. There
is no value when the loop over the chunks does not end. -/
def additionStep (env : RingEnv S P) (proofs : Bool) (secret : S) (toAdd : P)
    (shuffledData : List (CipherVector P)) : Option (Except String (List (CipherVector P))) :=
  (chunkStarts env.VPARALLELIZE shuffledData.length (shuffledData.length + 1) 0).map
    (fun starts =>
      match collectErrors
          (starts.map (fun i =>
            collectErrors (((shuffledData.drop i).take env.VPARALLELIZE).map
              (addSecretVector env proofs secret toAdd)))) with
      | .ok chunks => .ok chunks.flatten
      | .error e => .error e)

/-- The Go builtin `copy(dst, src)`: the contents of `dst` afterwards. -/
def goCopy {α : Type} (dst src : List α) : List α :=
  src.take dst.length ++ dst.drop src.length

/-- Lines 237-250: the goroutine of one chunk in step 3. Each vector is
replaced by its tags; at the first proof that fails the goroutine stores the
error and returns, leaving that vector and the rest of the chunk as they are.
There is no value when a tag sequence does not end. -/
def tagChunkVectors (env : RingEnv S P) (proofs : Bool) (secret : S) :
    List (CipherVector P) → Option (List (CipherVector P) × Option String)
  | [] => some ([], none)
  | vBef :: rest =>
    match DeterministicTagSequence env.VPARALLELIZE vBef env.Private secret with
    | none => none
    | some vAft =>
      match (if proofs then
              env.DeterministicTagCrListProofCreation vBef vAft env.Public secret env.Private
             else none) with
      | some tmpErr => some (vBef :: rest, some tmpErr)
      | none =>
        match tagChunkVectors env proofs secret rest with
        | none => none
        | some (rest', err) => some (goCopy vBef vAft :: rest', err)

/-- The chunks of step 3 one after the other: the data they leave and the
error stored last. -/
def tagChunks (env : RingEnv S P) (proofs : Bool) (secret : S) :
    List (List (CipherVector P)) → Option (List (CipherVector P) × Option String)
  | [] => some ([], none)
  | chunk :: rest =>
    match tagChunkVectors env proofs secret chunk, tagChunks env proofs secret rest with
    | some (chunk', err), some (rest', err') =>
      some (chunk' ++ rest', match err' with | some e => some e | none => err)
    | _, _ => none

/-- Lines 231-253: step 3 on the chunks of the data: the data afterwards and
the value of the variable `err`. There is no value when a loop does not
end. -/
def taggingStep (env : RingEnv S P) (proofs : Bool) (secret : S)
    (shuffledData : List (CipherVector P)) :
    Option (List (CipherVector P) × Option String) :=
  match chunkStarts env.VPARALLELIZE shuffledData.length (shuffledData.length + 1) 0 with
  | none => none
  | some starts =>
    tagChunks env proofs secret
      (starts.map (fun i => (shuffledData.drop i).take env.VPARALLELIZE))

/-- Line 292: the shuffling key that a node forwards, the key it received minus
its own public key. -/
def forwardKey (shuffKey pub : P) : P :=
  shuffKey - pub

/-- Lines 275-304, for a node that is not the root: the data and the key are
sent to the next node. -/
def forwardToNext (env : RingEnv S P) (shuffKey : P) (shuffledData : List (CipherVector P)) :
    List RingMessage × Except Failure Unit :=
  match env.ArrayCipherVectorToBytes shuffledData with
  | .error e => ([], .error (Failure.error e))
  | .ok (data, cvBytesLengths) =>
    match env.AbstractPointsToBytes [forwardKey shuffKey env.Public] with
    | .error e => ([], .error (Failure.error e))
    | .ok keyBytes =>
      match env.sendLengthErr with
      | some e => ([], .error (Failure.error e))
      | none =>
        match env.sendDataErr with
        | some e =>
          ([RingMessage.ShufflingPlusDDTBytesLength cvBytesLengths], .error (Failure.error e))
        | none =>
          ([RingMessage.ShufflingPlusDDTBytesLength cvBytesLengths,
            RingMessage.ShufflingPlusDDTBytesMessage data keyBytes], .ok ())

/-- Lines 258-270, at the root: the tags of the result, one slot for each
vector of `TargetData`. The dereference of a nil `TargetData` and the index of
a slot past the end panic. -/
def prepareResult (targetData : Option (List (CipherVector P)))
    (shuffledData : List (CipherVector P)) : Except Failure (List (List P)) :=
  match targetData with
  | none => .error Failure.panic
  | some target =>
    if target.length < shuffledData.length then
      .error Failure.panic
    else
      .ok (shuffledData.map (fun v => v.map (fun el => el.C))
            ++ List.replicate (target.length - shuffledData.length) [])

/-- Lines 193-307 of `Dispatch`: what follows the shuffle and its proof. -/
def afterShuffle (env : RingEnv S P) (p : ShufflingPlusDDTProtocol S P) (shuffKey : P)
    (shuffledData : List (CipherVector P)) : RingResult P :=
  match p.SurveySecretKey with
  | none =>
    { sent := [], feedback := none, shuffleKey := some shuffKey
      outcome := some (.error Failure.panic) }
  | some secret =>
    -- STEP 2: Addition of secret
    let toAdd := secret • env.Base
    match additionStep env p.Proofs secret toAdd shuffledData with
    | none => { sent := [], feedback := none, shuffleKey := some shuffKey, outcome := none }
    | some (.error e) =>
      { sent := [], feedback := none, shuffleKey := some shuffKey
        outcome := some (.error (Failure.error e)) }
    | some (.ok added) =>
      -- STEP 3: Partial Decryption; the error it stores is not read afterwards
      match taggingStep env p.Proofs secret added with
      | none => { sent := [], feedback := none, shuffleKey := some shuffKey, outcome := none }
      | some (tagged, _err) =>
        if p.IsRoot then
          match prepareResult p.TargetData tagged with
          | .error f =>
            { sent := [], feedback := none, shuffleKey := some shuffKey
              outcome := some (.error f) }
          | .ok taggedData =>
            { sent := [], feedback := some taggedData, shuffleKey := some shuffKey
              outcome := some (.ok ()) }
        else
          -- STEP 4: Send to next node
          let sent := forwardToNext env shuffKey tagged
          { sent := sent.1, feedback := none, shuffleKey := some shuffKey
            outcome := some sent.2 }

/-- ShufflingPlusDDTProtocol.Dispatch (lines 152-307). -/
def ShufflingPlusDDTProtocol.Dispatch (env : RingEnv S P) (p : ShufflingPlusDDTProtocol S P) :
    RingResult P :=
  match env.lengthMessage with
  | none =>
    { sent := [], feedback := none, shuffleKey := none
      outcome := some (.error (Failure.error (env.ServerIdentity
        ++ " didn't get the <shufflingPlusDDTBytesMessageLength> on time"))) }
  | some cvLengths =>
    match env.dataMessage with
    | none =>
      { sent := [], feedback := none, shuffleKey := none
        outcome := some (.error (Failure.error (env.ServerIdentity
          ++ " didn't get the <spDDTbs> on time"))) }
    | some (data, shuffKeyBytes) =>
      match ShufflingPlusDDTMessage.FromBytes env data shuffKeyBytes cvLengths with
      | .error f =>
        { sent := [], feedback := none, shuffleKey := none, outcome := some (.error f) }
      | .ok (smData, smShuffKey) =>
        -- STEP 1: Shuffling of the data
        let shuffled := env.ShuffleSequence smData env.Base smShuffKey p.Precomputed
        match (if p.Proofs then
                env.ShuffleProofCreation smData shuffled.1 env.Base smShuffKey shuffled.2.2
                  shuffled.2.1
               else none) with
        | some e =>
          { sent := [], feedback := none, shuffleKey := some smShuffKey
            outcome := some (.error (Failure.error e)) }
        | none => afterShuffle env p smShuffKey shuffled.1

/-- ShufflingPlusDDTProtocol.Start (lines 113-150), called at the root: the
messages sent to the next node and the error, if any. -/
def ShufflingPlusDDTProtocol.Start (env : RingEnv S P) (p : ShufflingPlusDDTProtocol S P) :
    List RingMessage × Option String :=
  match p.TargetData with
  | none => ([], some "no data is given")
  | some shuffleTarget =>
    match env.ArrayCipherVectorToBytes shuffleTarget with
    | .error e => ([], some e)
    | .ok (data, cvLengthsByte) =>
      match env.AbstractPointsToBytes [env.Aggregate] with
      | .error e => ([], some e)
      | .ok keyBytes =>
        match env.sendLengthErr with
        | some e => ([], some e)
        | none =>
          match env.sendDataErr with
          | some e => ([RingMessage.ShufflingPlusDDTBytesLength cvLengthsByte], some e)
          | none =>
            ([RingMessage.ShufflingPlusDDTBytesLength cvLengthsByte,
              RingMessage.ShufflingPlusDDTBytesMessage data keyBytes], none)

/-- The shuffling keys along the ring: the key that the root seeds and, after
each node of `pubs` in turn, the key that node forwards. -/
def ringKeys (seed : P) : List P → List P
  | [] => [seed]
  | pub :: rest => seed :: ringKeys (forwardKey seed pub) rest

/-- The length header among the messages that a node sent, if any. -/
def sentLength (msgs : List RingMessage) : Option Bytes :=
  msgs.findSome? (fun m =>
    match m with
    | .ShufflingPlusDDTBytesLength cvLengths => some cvLengths
    | .ShufflingPlusDDTBytesMessage _ _ => none)

/-- The payload among the messages that a node sent, if any. -/
def sentData (msgs : List RingMessage) : Option (Bytes × Bytes) :=
  msgs.findSome? (fun m =>
    match m with
    | .ShufflingPlusDDTBytesLength _ => none
    | .ShufflingPlusDDTBytesMessage data shuffKey => some (data, shuffKey))

/-- The environment of a node to which the messages `msgs` of the previous
node in the circuit are delivered; a message that was not sent never
arrives. -/
def deliver (env : RingEnv S P) (msgs : List RingMessage) : RingEnv S P :=
  { env with lengthMessage := sentLength msgs, dataMessage := sentData msgs }

/-- A round of the ring: the messages `msgs` go to the first node of the list,
whose messages go to the second one, and so on (the root comes last); the
result of `Dispatch` at every node. -/
def runRing (msgs : List RingMessage) :
    List (RingEnv S P × ShufflingPlusDDTProtocol S P) → List (RingResult P)
  | [] => []
  | node :: rest =>
    let result := ShufflingPlusDDTProtocol.Dispatch (deliver node.1 msgs) node.2
    result :: runRing result.sent rest

end Ring

/-! ## `lib/shuffle/shuffle_proofs.go`: the compression of the blinding factors -/

section Compression

variable {S : Type} [Field S]

/-- Lines 227-230 of `compressBeta`: the entry `betaCompressed[i]` after the
first `j` iterations of the goroutine of the row `beta[i]`. There is no value
when `beta[i][j]` or `e[j]` is indexed past the end. -/
def compressBetaRow (row e : List S) : Nat → Option S
  | 0 => some 0
  | j + 1 =>
    match compressBetaRow row e j, row[j]?, e[j]? with
    | some acc, some b, some ej => some (acc + b * ej)
    | _, _, _ => none

/-- Lines 222-233 of `compressBeta`: the entries of the rows, each
compressed over `NQ` columns. -/
def compressBetaRows (NQ : Nat) (e : List S) : List (List S) → Option (List S)
  | [] => some []
  | row :: rest =>
    match compressBetaRow row e NQ, compressBetaRows NQ e rest with
    | some b, some bs => some (b :: bs)
    | _, _ => none

/-- compressBeta (lines 216-236): shuffling compression of a matrix of
scalars. There is no value when the call panics: on `beta[0]` for an empty
matrix, or on an index past the end of a row or of `e`. -/
def compressBeta (beta : List (List S)) (e : List S) : Option (List S) :=
  match beta with
  | [] => none
  | first :: _ => compressBetaRows first.length e beta

end Compression

/-! ## `protocols/shuffling+ddt_protocol.go`: the circuit -/

section Circuit

variable {N : Type} [DecidableEq N]

/-- Lines 104-109 of `NewShufflingPlusDDTProtocol`: the loop over the node
list from the index `i` on, `rest` being the nodes still to come. The first
node that is `Equal` to this node decides, and there is no next node when
none is. -/
def chooseNextNode (nodeList : List N) (self : N) : Nat → List N → Option N
  | _, [] => none
  | i, node :: rest =>
    if self = node then nodeList[(i + 1) % nodeList.length]?
    else chooseNextNode nodeList self (i + 1) rest

/-- The field `nextNodeInCircuit` that `NewShufflingPlusDDTProtocol` (lines
102-110) sets at the node `self` of a tree with the node list `nodeList`
(`n.Tree().List()`); nodes are compared with `TreeNode.Equal`. -/
def nextNodeInCircuit (nodeList : List N) (self : N) : Option N :=
  chooseNextNode nodeList self 0 nodeList

/-- The node that holds the data after `k` hops of `sendToNext` (lines
309-316), starting from the node `start`. -/
def circuit (nodeList : List N) (start : N) : Nat → Option N
  | 0 => some start
  | k + 1 => (circuit nodeList start k).bind (nextNodeInCircuit nodeList)

end Circuit

/-! ## `services/data/handle_data.go`: the groups -/

/-- Lines 51-59 of `AllPossibleGroups`: one iteration of the loop, for the
value `i` of the loop variable, on the slice `group` and the package variable
`Groups`; `call` is the recursive call at the next position. The element is
appended to `group`, the call is made, and the element is removed again. -/
def groupsLoopBody (call : List Int → List (List Int) → Option (List (List Int)))
    (state : List Int × List (List Int)) (i : Nat) : Option (List Int × List (List Int)) :=
  let group := state.1 ++ [(i : Int)]
  match call group state.2 with
  | none => none
  | some Groups => some (group.dropLast, Groups)

/-- AllPossibleGroups (lines 41-61): generates all possible groups given the
numbers of different groups of the grouping attributes. The package variable
`Groups` is passed in and its new value is returned; `fuel` bounds the depth
of the recursion. There is no value when the fuel runs out or when
`numType[pos]` is indexed past the end. -/
def AllPossibleGroups (numType : List Int) :
    Nat → List Int → Nat → List (List Int) → Option (List (List Int))
  | 0, _, _, _ => none
  | fuel + 1, group, pos, Groups =>
    if pos = numType.length then
      -- tmp is a copy of group
      some (Groups ++ [group])
    else
      match numType[pos]? with
      | none => none
      | some t =>
        ((List.range t.toNat).foldlM
          (groupsLoopBody (fun g G => AllPossibleGroups numType fuel g (pos + 1) G))
          (group, Groups)).map (fun state => state.2)

/-- The tuples `(g_0, …, g_{n−1})` with `0 ≤ g_i < numType[i]`, in
lexicographic order: the groups that the comment of `AllPossibleGroups`
describes (`numType: 1,2 -> Groups: [0,0], [0,1]`). -/
def groupTuples : List Int → List (List Int)
  | [] => [[]]
  | t :: rest =>
    (List.range t.toNat).flatMap (fun i => (groupTuples rest).map (fun g => (i : Int) :: g))

/-! ## `services/data/handle_data.go`: the comparison of clear responses -/

/-- The Go type `map[string]int64` of the attributes of a clear response: the
nil map, or a map with its entries. -/
abbrev ClearMap := Option (AList (fun _ : String => Int))

/-- The Go builtin `len` on a map; the nil map has length 0. -/
def ClearMap.len : ClearMap → Nat
  | none => 0
  | some m => m.entries.length

/-- The function `reflect.DeepEqual` on two maps: both nil or both non-nil, of
the same length, and with equal values under the same keys. -/
def DeepEqual : ClearMap → ClearMap → Bool
  | none, none => true
  | some a, some b =>
    a.entries.length == b.entries.length
      && a.entries.all (fun e => b.lookup e.1 == some e.2)
  | _, _ => false

/-- DpClearResponse of `lib` (`lib/structs.go`, absent), with the six attribute
maps that `handle_data.go` reads and writes. -/
structure DpClearResponse where
  WhereClear : ClearMap
  WhereEnc : ClearMap
  GroupByClear : ClearMap
  GroupByEnc : ClearMap
  AggregatingAttributesClear : ClearMap
  AggregatingAttributesEnc : ClearMap
deriving DecidableEq

/-- The condition of lines 285-290 of `CompareClearResponses` on the elements
`i` of `x` and `j` of `y`. -/
def responsesAgree (i j : DpClearResponse) : Bool :=
  (DeepEqual i.GroupByClear j.GroupByClear
      || (i.GroupByClear.len == 0 && j.GroupByClear.len == 0))
    && (DeepEqual i.GroupByEnc j.GroupByEnc
      || (i.GroupByEnc.len == 0 && j.GroupByEnc.len == 0))
    && (DeepEqual i.WhereClear j.WhereClear
      || (i.WhereClear.len == 0 && j.WhereClear.len == 0))
    && (DeepEqual i.WhereEnc j.WhereEnc
      || (i.WhereEnc.len == 0 && j.WhereEnc.len == 0))
    && (DeepEqual i.AggregatingAttributesClear j.AggregatingAttributesClear
      || (i.AggregatingAttributesClear.len == 0 && j.AggregatingAttributesClear.len == 0))
    && (DeepEqual i.AggregatingAttributesEnc j.AggregatingAttributesEnc
      || (i.AggregatingAttributesEnc.len == 0 && j.AggregatingAttributesEnc.len == 0))

/-- Lines 283-295 of `CompareClearResponses`: the variable `test` after the
loop over `y` for the element `i`; it is false before the loop, and the first
element that agrees sets it and ends the loop. -/
def compareInner (i : DpClearResponse) : List DpClearResponse → Bool
  | [] => false
  | j :: rest => if responsesAgree i j then true else compareInner i rest

/-- Lines 282-300 of `CompareClearResponses`: the variable `test` after the
loop over the elements of `x` still to come; the first element that leaves it
false ends the loop. -/
def compareOuter (y : List DpClearResponse) : Bool → List DpClearResponse → Bool
  | test, [] => test
  | _, i :: rest =>
    let test := compareInner i y
    if !test then test else compareOuter y test rest

/-- CompareClearResponses (lines 279-303): `var test bool` starts as false. -/
def CompareClearResponses (x y : List DpClearResponse) : Bool :=
  compareOuter y false x

/-! ## The wire format of `FilteredResponse` (`lib/structs.go`, `lib/crypto.go`) -/

/-- The fixed-size binary encoding of points, from the external `kyber`
library (`MarshalBinary`, `UnmarshalBinary` and the size of a marshalled
point). -/
structure PointCodec (P : Type) where
  /-- The number of bytes of an encoded point. -/
  pointSize : Nat
  /-- The bytes of a point. -/
  marshal : P → Bytes
  /-- The point read from its bytes, when they are the bytes of a point. -/
  unmarshal : Bytes → Option P

section FilteredResponseWire

variable {P : Type}

/-- Modelled from the spec: the bytes of a ciphertext (`CipherText.ToBytes` of
`lib/crypto.go`, absent): the fixed-size encodings of its two points, `K` then
`C`, concatenated. -/
def CipherText.ToBytes (codec : PointCodec P) (c : CipherText P) : Bytes :=
  codec.marshal c.K ++ codec.marshal c.C

/-- Modelled from the spec: the ciphertext read from its bytes
(`CipherText.FromBytes` of `lib/crypto.go`, absent): the first `pointSize`
bytes are `K` and the next `pointSize` bytes are `C`. -/
def CipherText.FromBytes (codec : PointCodec P) (data : Bytes) : Option (CipherText P) :=
  match codec.unmarshal (data.take codec.pointSize),
      codec.unmarshal ((data.drop codec.pointSize).take codec.pointSize) with
  | some K, some C => some { K := K, C := C }
  | _, _ => none

/-- Modelled from the spec: `toBytes(v)` (`CipherVector.ToBytes` of
`lib/crypto.go`, absent): the encodings of the ciphertexts concatenated in
order, so that the byte length is the element count times the size of a
ciphertext, together with the element count. -/
def CipherVector.ToBytes (codec : PointCodec P) (cv : CipherVector P) : Bytes × Nat :=
  ((cv.map (CipherText.ToBytes codec)).flatten, cv.length)

/-- Modelled from the spec: `fromBytes` (`CipherVector.FromBytes` of
`lib/crypto.go`, absent): `length` ciphertexts read from consecutive slices of
the size of a ciphertext. -/
def CipherVector.FromBytes (codec : PointCodec P) : Bytes → Nat → Option (CipherVector P)
  | _, 0 => some []
  | data, length + 1 =>
    match CipherText.FromBytes codec (data.take (2 * codec.pointSize)),
        CipherVector.FromBytes codec (data.drop (2 * codec.pointSize)) length with
    | some c, some rest => some (c :: rest)
    | _, _ => none

/-- Modelled from the spec: `FilteredResponse.ToBytes` (`lib/structs.go`,
absent): the bytes of `AggregatingAttributes` followed by those of
`GroupByEnc`, with the length of `GroupByEnc` and the length of
`AggregatingAttributes`, in the order in which `TestFilteredResponseConverter`
receives them. -/
def FilteredResponse.ToBytes (codec : PointCodec P) (cv : FilteredResponse P) :
    Bytes × Nat × Nat :=
  let aab := CipherVector.ToBytes codec cv.AggregatingAttributes
  let pgaeb := CipherVector.ToBytes codec cv.GroupByEnc
  (aab.1 ++ pgaeb.1, pgaeb.2, aab.2)

/-- Modelled from the spec: `FilteredResponse.FromBytes` (`lib/structs.go`,
absent) on an empty `FilteredResponse`: the first `aabLength` ciphertexts of
the data are `AggregatingAttributes` and the next `pgaebLength` ones are
`GroupByEnc`. -/
def FilteredResponse.FromBytes (codec : PointCodec P) (data : Bytes)
    (aabLength pgaebLength : Nat) : Option (FilteredResponse P) :=
  let aabByteLength := aabLength * (2 * codec.pointSize)
  let pgaebByteLength := pgaebLength * (2 * codec.pointSize)
  match CipherVector.FromBytes codec (data.take aabByteLength) aabLength,
      CipherVector.FromBytes codec ((data.drop aabByteLength).take pgaebByteLength)
        pgaebLength with
  | some aab, some pgaeb => some { GroupByEnc := pgaeb, AggregatingAttributes := aab }
  | _, _ => none

end FilteredResponseWire

/-! ## `services/data/handle_data.go`: the test data file

The file is kept as the list of its lines: each `Fprintln`, and each
`Fprint(writer, "\n")`, ends a line, and `scanner.Scan` yields the lines one by
one. Lines are ASCII text and an id holds no line break. -/

/-- The Go type `map[string][]lib.DpClearResponse` of the test data. -/
abbrev TestData := AList (fun _ : String => List DpClearResponse)

/-- What the functions of the test data file use from outside their own code:
three functions of `lib` (`lib/tools.go`, absent) and the Go runtime's
choice of the order of a `range` over a map. -/
structure DataEnv where
  /-- The function `lib.ConvertDataToMap(data, first, start)`. -/
  ConvertDataToMap : List Int → String → Int → ClearMap
  /-- The function `lib.ConvertMapToData(data, first, start)`. -/
  ConvertMapToData : ClearMap → String → Int → List Int
  /-- The function `lib.StringToInt64Array(line)`. -/
  StringToInt64Array : String → List Int
  /-- The order in which a `range` over the test data visits its entries. -/
  rangeTestData : TestData → List (Sigma (fun _ : String => List DpClearResponse))

/-- The six slices of which `GenerateData` (lines 109-141) builds one entry:
`grp[:numGroupsClear]`, `grp[numGroupsClear:…]`, and the same for `where` and
`aggr`. -/
structure GeneratedSlices where
  grpClear : List Int
  grpEnc : List Int
  whereClear : List Int
  whereEnc : List Int
  aggrClear : List Int
  aggrEnc : List Int

/-- Lines 134-141 of `GenerateData`: the entry built from the six slices; the
keys of an encrypted map start at the number of the clear attributes. -/
def generatedEntry (env : DataEnv) (r : GeneratedSlices) : DpClearResponse :=
  { GroupByClear := env.ConvertDataToMap r.grpClear "g" 0
    GroupByEnc := env.ConvertDataToMap r.grpEnc "g" r.grpClear.length
    WhereClear := env.ConvertDataToMap r.whereClear "w" 0
    WhereEnc := env.ConvertDataToMap r.whereEnc "w" r.whereClear.length
    AggregatingAttributesClear := env.ConvertDataToMap r.aggrClear "s" 0
    AggregatingAttributesEnc := env.ConvertDataToMap r.aggrEnc "s" r.aggrClear.length }

/-- flushInt64Data (lines 149-158): the line that it writes, every value
formatted with `%v` and followed by a space. -/
def flushInt64Data (slice : List Int) : String :=
  slice.foldl (fun line g => line ++ (toString g ++ " ")) ""

/-- Lines 175-182 of `WriteDataToFile`: the six lines of one entry. -/
def entryLines (env : DataEnv) (entry : DpClearResponse) : List String :=
  [flushInt64Data (env.ConvertMapToData entry.GroupByClear "g" 0),
   flushInt64Data (env.ConvertMapToData entry.GroupByEnc "g" entry.GroupByClear.len),
   flushInt64Data (env.ConvertMapToData entry.WhereClear "w" 0),
   flushInt64Data (env.ConvertMapToData entry.WhereEnc "w" entry.WhereClear.len),
   flushInt64Data (env.ConvertMapToData entry.AggregatingAttributesClear "s" 0),
   flushInt64Data (env.ConvertMapToData entry.AggregatingAttributesEnc "s"
     entry.AggregatingAttributesClear.len)]

/-- WriteDataToFile (lines 160-184): the lines of the file it writes. For every
id, in the order of the `range`, the line `#id` and then the lines of its
entries. -/
def WriteDataToFile (env : DataEnv) (testData : TestData) : List String :=
  (env.rangeTestData testData).flatMap
    (fun kv => ("#" ++ kv.1) :: kv.2.flatMap (entryLines env))

/-- The slice `line[:max(0, len(line)-1)]` of `ReadDataFromFile`: the line
without its last character. -/
def withoutLast (line : String) : String :=
  String.mk line.data.dropLast

/-- The calls `scanner.Scan()` and `scanner.Text()` inside the loop of
`ReadDataFromFile`: the next line and the lines after it; at the end of the
file the text is empty. -/
def scanText : List String → String × List String
  | [] => ("", [])
  | line :: rest => (line, rest)

/-- The variables of the loop of `ReadDataFromFile` (lines 188-199). -/
structure ReadState where
  testData : TestData
  id : String
  dataIn : Bool
  container : List DpClearResponse

/-- Lines 202-245 of `ReadDataFromFile`: the loop over the lines still to be
scanned; `fuel` bounds the number of iterations, and there is no value when
it runs out. -/
def readLoop (env : DataEnv) : Nat → List String → ReadState → Option ReadState
  | 0, _, _ => none
  | _ + 1, [], st => some st
  | fuel + 1, line :: rest, st =>
    if line.data.head? = some '#' then
      let st1 : ReadState :=
        if st.dataIn then
          { st with testData := st.testData.insert st.id st.container, container := [] }
        else
          { st with dataIn := true }
      readLoop env fuel rest { st1 with id := String.mk (line.data.drop 1) }
    else
      let grpClear := env.StringToInt64Array (withoutLast line)
      let s2 := scanText rest
      let grpEnc := env.StringToInt64Array (withoutLast s2.1)
      let s3 := scanText s2.2
      let whereClear := env.StringToInt64Array (withoutLast s3.1)
      let s4 := scanText s3.2
      let whereEnc := env.StringToInt64Array (withoutLast s4.1)
      let s5 := scanText s4.2
      let aggrClear := env.StringToInt64Array (withoutLast s5.1)
      let s6 := scanText s5.2
      let aggrEnc := env.StringToInt64Array (withoutLast s6.1)
      readLoop env fuel s6.2
        { st with
          container := st.container ++
            [{ GroupByClear := env.ConvertDataToMap grpClear "g" 0
               GroupByEnc := env.ConvertDataToMap grpEnc "g" grpClear.length
               WhereClear := env.ConvertDataToMap whereClear "w" 0
               WhereEnc := env.ConvertDataToMap whereEnc "w" whereClear.length
               AggregatingAttributesClear := env.ConvertDataToMap aggrClear "s" 0
               AggregatingAttributesEnc := env.ConvertDataToMap aggrEnc "s" aggrClear.length }] }

/-- ReadDataFromFile (lines 186-254) on the lines of the file: the loop, and
then the store `testData[id] = container` of line 246. There is no value when
the loop runs out of fuel. -/
def ReadDataFromFile (env : DataEnv) (file : List String) : Option TestData :=
  (readLoop env (file.length + 1) file
      { testData := ∅, id := "", dataIn := false, container := [] }).map
    (fun st => st.testData.insert st.id st.container)

/-- What the tests of `lib` state of the three functions, on one slice `x`
written with the prefix `first` from the key number `start`:
`ConvertMapToData` reads `x` back from the map that `ConvertDataToMap` makes of
it (`TestConvertDataToMap`), that map has one key for each element, and
`StringToInt64Array` reads `x` back from its line without the last space
(`TestInt64ArrayToString`). -/
def helpersInvert (env : DataEnv) (x : List Int) (first : String) (start : Int) : Prop :=
  env.ConvertMapToData (env.ConvertDataToMap x first start) first start = x
    ∧ (env.ConvertDataToMap x first start).len = x.length
    ∧ env.StringToInt64Array (withoutLast (flushInt64Data x)) = x

/-- The three functions of `lib` invert each other on the six slices of an
entry. -/
def slicesInvert (env : DataEnv) (r : GeneratedSlices) : Prop :=
  helpersInvert env r.grpClear "g" 0
    ∧ helpersInvert env r.grpEnc "g" r.grpClear.length
    ∧ helpersInvert env r.whereClear "w" 0
    ∧ helpersInvert env r.whereEnc "w" r.whereClear.length
    ∧ helpersInvert env r.aggrClear "s" 0
    ∧ helpersInvert env r.aggrEnc "s" r.aggrClear.length


/-! ## A small concrete group

The integers modulo 11, as scalars and as points (base point `1`), to evaluate
the definitions on concrete inputs. -/

instance fact_prime_eleven : Fact (Nat.Prime 11) := ⟨by norm_num⟩

/-- The bytes of a vector of ciphertexts over the integers modulo 11: two
bytes for each ciphertext, its `K` and its `C`. -/
def exampleVectorBytes (cv : CipherVector (ZMod 11)) : Bytes :=
  (cv.map (fun ct => [UInt8.ofNat ct.K.val, UInt8.ofNat ct.C.val])).flatten

/-- The vector of ciphertexts read from an even number of bytes. -/
def exampleVectorFromBytes : Bytes → CipherVector (ZMod 11)
  | k :: c :: rest =>
    CipherText.mk (k.toNat : ZMod 11) (c.toNat : ZMod 11) :: exampleVectorFromBytes rest
  | _ => []

/-- A wire format over the integers modulo 11: a ciphertext takes two bytes, a
key one byte for each character; an element is its `GroupByEnc`, its
`AggregatingAttributes` and its key, one after the other. -/
def exampleWire : WireEnv (ZMod 11) :=
  { CipherTextByteSize := 2
    ToBytes := fun x =>
      .ok (exampleVectorBytes x.Fr.GroupByEnc ++ exampleVectorBytes x.Fr.AggregatingAttributes
            ++ x.DetTagGroupBy.toList.map (fun c => UInt8.ofNat c.toNat),
          (x.Fr.GroupByEnc.length : Int), (x.Fr.AggregatingAttributes.length : Int),
          (x.DetTagGroupBy.length : Int))
    FromBytes := fun v gacbLength aabLength dtbLength =>
      if (v.length : Int) ≠ gacbLength * 2 + aabLength * 2 + dtbLength then
        .error "wrong length"
      else
        .ok { DetTagGroupBy :=
                String.mk (((v.drop (gacbLength.toNat * 2)).drop (aabLength.toNat * 2)).map
                  (fun b => Char.ofNat b.toNat))
              Fr := { GroupByEnc := exampleVectorFromBytes (v.take (gacbLength.toNat * 2))
                      AggregatingAttributes :=
                        exampleVectorFromBytes
                          ((v.drop (gacbLength.toNat * 2)).take (aabLength.toNat * 2)) } } }

/-- A failure-free environment over the integers modulo 11: base point `1`,
roster key `3·1`, maps ranged over in the order of their entries, the wire
format `exampleWire`, and no message delivered yet. -/
def exampleEnv : Env (ZMod 11) (ZMod 11) :=
  { Base := 1
    Aggregate := (3 : ZMod 11) • (1 : ZMod 11)
    ServerIdentity := "node"
    rnd := fun i => (i : ZMod 11)
    rangeGrouped := fun m => m.entries
    rangeCv := fun m => m.entries
    FormatAggregationProofs := fun _ cvMap => cvMap
    wire := exampleWire
    lastWriter := 0
    dataReference := true
    sendToChildrenErr := none
    lengthMessages := []
    dataMessages := []
    sendLengthErr := none
    sendDataErr := none }

/-- A grouped map with one bucket, under `g`, holding the encryptions of the
integers `vals` under the roster key of `exampleEnv`. -/
def exampleBucket (g : GroupingKey) (vals : List Int) : GroupedMap (ZMod 11) :=
  AList.singleton g
    { GroupByEnc := []
      AggregatingAttributes :=
        EncryptIntVector exampleEnv.Base exampleEnv.Aggregate (fun i => (i + 2 : ZMod 11)) vals }

/-- A leaf of the example tree holding `[v]` under the empty key. -/
def exampleLeaf (v : Int) : AggTree (ZMod 11) (ZMod 11) :=
  .node (exampleBucket "" [v]) (fun i => (i : ZMod 11)) []

/-- The children of the root of the example tree. With the root the tree has
ten nodes, numbered level by level (the children of node `i` are the nodes
`2i+1` and `2i+2`); as in `TestSumCipherProtocol` the nodes 0, 1, 2, 5 and 9
contribute a `1` and the others a `0`, all under the empty key. -/
def exampleChildren : List (AggTree (ZMod 11) (ZMod 11)) :=
  [ .node (exampleBucket "" [1]) (fun i => (2 * i : ZMod 11))
      [ .node (exampleBucket "" [0]) (fun _ => (5 : ZMod 11))
          [exampleLeaf 0, exampleLeaf 0],
        .node (exampleBucket "" [0]) (fun i => (i + 3 : ZMod 11))
          [exampleLeaf 1] ],
    .node (exampleBucket "" [1]) (fun i => (i : ZMod 11))
      [exampleLeaf 1, exampleLeaf 0] ]

/-- The example tree: the root contributes a `1` under the empty key and has
the children `exampleChildren`. -/
def exampleTree : AggTree (ZMod 11) (ZMod 11) :=
  .node (exampleBucket "" [1]) (fun i => (i : ZMod 11)) exampleChildren

/-- A tree of two nodes whose buckets do not all have the same shape: the root
holds `[4]` under the key `b`, its child `[1, 2]` under `a` and `[3]` under
`b`. -/
def exampleUnevenTree : AggTree (ZMod 11) (ZMod 11) :=
  .node (exampleBucket "b" [4]) (fun i => (i : ZMod 11))
    [ .node
        ((exampleBucket "b" [3]).insert "a"
          { GroupByEnc := []
            AggregatingAttributes :=
              EncryptIntVector exampleEnv.Base exampleEnv.Aggregate (fun i => (i + 2 : ZMod 11))
                [1, 2] })
        (fun i => (i : ZMod 11)) [] ]

/-- A local bucket of three attributes. -/
def exampleLocal : FilteredResponse (ZMod 11) :=
  { GroupByEnc := []
    AggregatingAttributes :=
      EncryptIntVector exampleEnv.Base exampleEnv.Aggregate (fun i => (i + 2 : ZMod 11))
        [1, 2, 3] }

/-- A merge state whose map has the bucket `exampleLocal` under `g`. -/
def exampleState : AggrState (ZMod 11) (ZMod 11) :=
  { GroupedData := AList.singleton "g" exampleLocal
    cvMap := ∅
    rnd := fun i => (i + 1 : ZMod 11) }

/-- A child's bucket of five attributes under `g`. -/
def exampleAggr : FilteredResponseDet (ZMod 11) :=
  { DetTagGroupBy := "g"
    Fr := { GroupByEnc := []
            AggregatingAttributes :=
              EncryptIntVector exampleEnv.Base exampleEnv.Aggregate (fun _ => (4 : ZMod 11))
                [1, 1, 1, 5, 6] } }

/-- A root that is also a leaf, with an empty grouped map, the Proofs flag on
and the proof function `pf`. -/
def exampleInstance (pf : Option (List (CipherVector (ZMod 11)) → CipherVector (ZMod 11) → Unit)) :
    CollectiveAggregationProtocol (ZMod 11) Unit :=
  { IsRoot := true
    IsLeaf := true
    GroupedData := some (some ∅)
    SimpleData := none
    Proofs := true
    ProofFunc := pf }

/-- A root with children whose `GroupedData` points to the nil map, with the
Proofs flag off and no proof function. -/
def exampleNilMapRoot : CollectiveAggregationProtocol (ZMod 11) Unit :=
  { IsRoot := true
    IsLeaf := false
    GroupedData := some none
    SimpleData := none
    Proofs := false
    ProofFunc := none }

/-- A root with children whose grouped map is empty, with the Proofs flag off
and no proof function. -/
def exampleEmptyRoot : CollectiveAggregationProtocol (ZMod 11) Unit :=
  { exampleNilMapRoot with GroupedData := some (some ∅) }

/-- A shuffle environment over the integers modulo 11: the challenge vector
has one entry per column, each the seed, and the proof check accepts every
transcript. -/
def exampleShuffleEnv : ShuffleEnv (ZMod 11) (ZMod 11) :=
  { CipherVectorTag := fun cv seed => cv.map (fun _ => seed)
    HashVerify := fun _ _ _ _ _ _ _ => true }

/-- A published proof whose original list is empty. -/
def exampleEmptyProof : PublishedShufflingProof (ZMod 11) :=
  { OriginalList := [], ShuffledList := [], G := 1, H := 3, HashProof := [] }

/-- A published proof whose second original vector is shorter than the first
one. -/
def exampleRaggedProof : PublishedShufflingProof (ZMod 11) :=
  { OriginalList := [[CipherText.mk 1 2, CipherText.mk 3 4], [CipherText.mk 5 6]]
    ShuffledList := [[CipherText.mk 5 6, CipherText.mk 7 8], [CipherText.mk 1 2]]
    G := 1, H := 3, HashProof := [] }

/-- A published proof whose vectors all have two columns. -/
def exampleProof : PublishedShufflingProof (ZMod 11) :=
  { OriginalList := [[CipherText.mk 1 2, CipherText.mk 3 4], [CipherText.mk 5 6, CipherText.mk 7 8]]
    ShuffledList := [[CipherText.mk 5 7, CipherText.mk 7 9], [CipherText.mk 1 3, CipherText.mk 3 5]]
    G := 1, H := 3, HashProof := [] }

/-- A shuffle environment over the integers modulo 11 whose proof check
accepts the empty transcript only. -/
def exampleCheckingShuffleEnv : ShuffleEnv (ZMod 11) (ZMod 11) :=
  { CipherVectorTag := fun cv seed => cv.map (fun _ => seed)
    HashVerify := fun _ _ _ _ _ _ prf => prf.isEmpty }

/-- A published proof with a transcript that the checking environment
rejects. -/
def exampleRejectedProof : PublishedShufflingProof (ZMod 11) :=
  { exampleProof with HashProof := [0] }

/-- The `float64` nearest to one tenth, `0.1000000000000000055…`: what the Go
literal `0.1` denotes. -/
def exampleTenth : Float64 :=
  { mant := 3602879701896397, exp := -55 }

/-- The `float64` nearest to two thirds, `0.66666666666666663…`. -/
def exampleTwoThirds : Float64 :=
  { mant := 6004799503160661, exp := -53 }

/-- A bucket under the key `a` with one attribute. -/
def exampleElementA : FilteredResponseDet (ZMod 11) :=
  { DetTagGroupBy := "a"
    Fr := { GroupByEnc := [], AggregatingAttributes := [CipherText.mk 1 2] } }

/-- A bucket under the key `b` with two attributes. -/
def exampleElementB : FilteredResponseDet (ZMod 11) :=
  { DetTagGroupBy := "b"
    Fr := { GroupByEnc := []
            AggregatingAttributes := [CipherText.mk 3 4, CipherText.mk 5 6] } }

/-- A bucket under the key `c` with one attribute. -/
def exampleElementC : FilteredResponseDet (ZMod 11) :=
  { DetTagGroupBy := "c"
    Fr := { GroupByEnc := [], AggregatingAttributes := [CipherText.mk 7 8] } }

/-- A bucket with no attribute under the empty key. -/
def exampleElementEmpty : FilteredResponseDet (ZMod 11) :=
  { DetTagGroupBy := "", Fr := { GroupByEnc := [], AggregatingAttributes := [] } }

/-- A node of the ring over the integers modulo 11, with private key `4`, to
which the header and the payload arrive: the payload decodes to three vectors of
two ciphertexts and to the shuffling key `7`, the shuffle reverses the list,
and the proofs of step 2 and of step 3 fail with the errors `addErr` and
`crErr`, if any. -/
def exampleRingEnv (addErr crErr : Option String) : RingEnv (ZMod 11) (ZMod 11) :=
  { Base := 1
    Aggregate := 7
    ServerIdentity := "node1"
    Private := 4
    Public := (4 : ZMod 11) • (1 : ZMod 11)
    VPARALLELIZE := 2
    lengthMessage := some [6]
    dataMessage := some ([1, 2, 3, 4, 5, 6, 7, 8, 9, 10, 0, 1], [7])
    FromBytesToArrayCipherVector := fun _ _ =>
      .ok [[CipherText.mk 1 2, CipherText.mk 3 4], [CipherText.mk 5 6, CipherText.mk 7 8],
           [CipherText.mk 9 10, CipherText.mk 0 1]]
    FromBytesToAbstractPoints := fun b => .ok (b.map (fun x => (x.toNat : ZMod 11)))
    ArrayCipherVectorToBytes := fun d => .ok ((d.map exampleVectorBytes).flatten, [6])
    AbstractPointsToBytes := fun ps => .ok (ps.map (fun x => UInt8.ofNat x.val))
    ShuffleSequence := fun d _ _ _ => (d.reverse, [2, 1, 0], [])
    ShuffleProofCreation := fun _ _ _ _ _ _ => none
    DeterministicTagAdditionProofCreation := fun _ _ _ _ => addErr
    DeterministicTagCrListProofCreation := fun _ _ _ _ _ => crErr
    sendLengthErr := none
    sendDataErr := none }

/-- An instance of the ring protocol with the survey secret `3` and the Proofs
flag on. -/
def exampleRingInstance (isRoot : Bool) : ShufflingPlusDDTProtocol (ZMod 11) (ZMod 11) :=
  { IsRoot := isRoot
    TargetData := some [[], [], []]
    SurveySecretKey := some 3
    Precomputed := none
    Proofs := true }

/-- A root with children that has no data reference at all. -/
def exampleBadRoot : CollectiveAggregationProtocol (ZMod 11) Unit :=
  { IsRoot := true
    IsLeaf := false
    GroupedData := none
    SimpleData := none
    Proofs := false
    ProofFunc := none }

/-- A node of the example ring with the private key `priv` and the public key
`priv·1`; no proof fails. -/
def exampleRingNode (priv : ZMod 11) : RingEnv (ZMod 11) (ZMod 11) :=
  { exampleRingEnv none none with Private := priv, Public := priv • (1 : ZMod 11) }

/-- The example ring in the order of the circuit: two nodes with the private
keys `2` and `4`, then the root with the private key `1`; the roster's
aggregate key `7` is the sum of the three public keys. -/
def exampleRing :
    List (RingEnv (ZMod 11) (ZMod 11) × ShufflingPlusDDTProtocol (ZMod 11) (ZMod 11)) :=
  [(exampleRingNode 2, exampleRingInstance false),
   (exampleRingNode 4, exampleRingInstance false),
   (exampleRingNode 1, exampleRingInstance true)]

/-- A vector of three ciphertexts over the integers modulo 11. -/
def exampleVector : CipherVector (ZMod 11) :=
  [CipherText.mk 1 2, CipherText.mk 3 4, CipherText.mk 5 6]

/-- A matrix of blinding factors with two rows of three scalars. -/
def exampleBeta : List (List (ZMod 11)) :=
  [[1, 2, 3], [4, 5, 6]]

/-- A challenge vector of three scalars. -/
def exampleChallenge : List (ZMod 11) :=
  [2, 3, 5]

/-- The node list of a tree of four nodes, the root first. -/
def exampleNodeList : List String :=
  ["root", "node1", "node2", "node3"]

/-- Two vectors of encryptions under the shuffling key `7` (base point `1`):
of the points `5` and `6` with the randomness `2` and `3`, and of the point `0`
with the randomness `9`. -/
def exampleEncrypted : List (CipherVector (ZMod 11)) :=
  [[encryptPoint (1 : ZMod 11) (7 : ZMod 11) (2 : ZMod 11) (5 : ZMod 11),
    encryptPoint (1 : ZMod 11) (7 : ZMod 11) (3 : ZMod 11) (6 : ZMod 11)],
   [encryptPoint (1 : ZMod 11) (7 : ZMod 11) (9 : ZMod 11) (0 : ZMod 11)]]

/-- A clear response with the grouping attribute `g0 = 1` in clear and the
aggregating attribute `s0 = v` in clear; its other maps are empty. -/
def exampleClearResponse (v : Int) : DpClearResponse :=
  { WhereClear := some ∅
    WhereEnc := some ∅
    GroupByClear := some (AList.singleton "g0" 1)
    GroupByEnc := some ∅
    AggregatingAttributesClear := some (AList.singleton "s0" v)
    AggregatingAttributesEnc := some ∅ }

/-- The encoding of the integers modulo 11 in one byte. -/
def exampleCodec : PointCodec (ZMod 11) :=
  { pointSize := 1
    marshal := fun p => [UInt8.ofNat p.val]
    unmarshal := fun b =>
      match b with
      | [x] => some (x.toNat : ZMod 11)
      | _ => none }

/-- The `FilteredResponse` of `TestFilteredResponseConverter` with values below
11: the grouping attribute `1` and the aggregating attributes `0, 1, 3, 10, 10`
encrypted under the public key `3·1`. -/
def exampleFilteredResponse : FilteredResponse (ZMod 11) :=
  { GroupByEnc :=
      EncryptIntVector (1 : ZMod 11) ((3 : ZMod 11) • (1 : ZMod 11))
        (fun i => ((i + 2 : Nat) : ZMod 11)) [1]
    AggregatingAttributes :=
      EncryptIntVector (1 : ZMod 11) ((3 : ZMod 11) • (1 : ZMod 11))
        (fun i => ((i + 5 : Nat) : ZMod 11)) [0, 1, 3, 10, 10] }

/-- A map with the keys `first ++ start`, `first ++ (start + 1)`, … for the
elements of a slice. -/
def exampleConvertDataToMap (data : List Int) (first : String) (start : Int) : ClearMap :=
  some ((data.zip (List.range data.length)).foldl
    (fun m p => m.insert (first ++ toString (start + (p.2 : Int))) p.1) ∅)

/-- The values of a map under the keys `first ++ start`, `first ++ (start + 1)`,
… in this order. -/
def exampleConvertMapToData (data : ClearMap) (first : String) (start : Int) : List Int :=
  (List.range data.len).map
    (fun i => ((data.bind (fun m => m.lookup (first ++ toString (start + (i : Int))))).getD 0))

/-- The integers of a line of decimal numbers separated by spaces: `cur` is the
number being read, with its sign, and `acc` holds the numbers read. -/
def exampleParse : List Char → Option (Bool × Nat) → List Int → List Int
  | [], none, acc => acc
  | [], some (neg, n), acc => acc ++ [if neg then -(n : Int) else (n : Int)]
  | c :: cs, cur, acc =>
    if c = ' ' then
      match cur with
      | none => exampleParse cs none acc
      | some (neg, n) => exampleParse cs none (acc ++ [if neg then -(n : Int) else (n : Int)])
    else if c = '-' then
      exampleParse cs (some (true, 0)) acc
    else
      match cur with
      | none => exampleParse cs (some (false, c.toNat - 48)) acc
      | some (neg, n) => exampleParse cs (some (neg, 10 * n + (c.toNat - 48))) acc

/-- The functions of `lib` for the examples; a `range` visits the entries of
the test data in their order. -/
def exampleDataEnv : DataEnv :=
  { ConvertDataToMap := exampleConvertDataToMap
    ConvertMapToData := exampleConvertMapToData
    StringToInt64Array := fun line => exampleParse line.data none []
    rangeTestData := fun d => d.entries }

/-- The slices of an entry with two encrypted grouping attributes, an encrypted
where attribute and two aggregating attributes, one of them in clear. -/
def exampleSlices (g : Int) : GeneratedSlices :=
  { grpClear := [], grpEnc := [g, 12], whereClear := [], whereEnc := [1]
    aggrClear := [-3], aggrEnc := [0] }

/-- Test data of two data providers, with two entries and with one entry. -/
def exampleTestData : TestData :=
  (AList.singleton "1" [generatedEntry exampleDataEnv (exampleSlices 4)]).insert "0"
    [generatedEntry exampleDataEnv (exampleSlices 0),
     generatedEntry exampleDataEnv (exampleSlices 1)]


/-! ## Theorems -/

section TaggingTheorems

variable {S P : Type} [Field S] [AddCommGroup P] [Module S P]

/-- C1: for every ciphertext `(K, C)`, node private key `k` and session secret
`s`, `DeterministicTag((K, C), k, s)` is the ciphertext `(s·K, s·(C − k·K))`. -/
theorem deterministicTag_eq (K C : P) (k s : S) :
    DeterministicTag (CipherText.mk K C) k s = CipherText.mk (s • K) (s • (C - k • K)) := by
  rfl

/-- One more node at the end of the chain is one more `DeterministicTag`. -/
theorem tagChain_append_singleton (keys : List S) (k s : S) (ct : CipherText P) :
    tagChain (keys ++ [k]) s ct = DeterministicTag (tagChain keys s ct) k s := by
  simp [tagChain, List.foldl_append]

/-- Closed form of the chain, by induction on the nodes from the last one. -/
theorem tagChain_closed (keys : List S) (s : S) (K C : P) :
    tagChain keys s (CipherText.mk K C)
      = CipherText.mk (s ^ keys.length • K) (s ^ keys.length • (C - keys.sum • K)) := by
  induction keys using List.reverseRecOn with
  | nil => simp [tagChain]
  | append_singleton ks k ih =>
    rw [tagChain_append_singleton, ih]
    simp only [DeterministicTag, List.length_append, List.length_singleton, List.sum_append,
      List.sum_singleton, CipherText.mk.injEq]
    constructor
    · rw [pow_succ, mul_comm, mul_smul]
    · rw [pow_succ, add_smul, smul_comm k (s ^ ks.length) K, ← smul_sub, sub_sub,
        mul_comm, mul_smul]

/-- The final `C` point of the chain on an encryption of `M` under the
collective key of the nodes. -/
theorem tagChain_encryptPoint_C (keys : List S) (s r : S) (B M : P) :
    (tagChain keys s (encryptPoint B (keys.sum • B) r M)).C = s ^ keys.length • M := by
  simp only [encryptPoint, tagChain_closed]
  congr 1
  rw [smul_comm r keys.sum B]
  abel

/-- C2: for every number `N` of nodes (the length of `keys`), applying
`DeterministicTag` once per node in sequence to `(K, C)` yields
`(s^N·K, s^N·(C − (k_1+…+k_N)·K))`; and when `(K, C)` is the ElGamal encryption
`(r·B, M + r·(k_1+…+k_N)·B)` of the point `M` under the collective key, the
final `C` component is `s^N·M`, whatever the randomness `r`. -/
theorem tagChain_spec (keys : List S) (s : S) :
    (∀ K C : P, tagChain keys s (CipherText.mk K C)
        = CipherText.mk (s ^ keys.length • K) (s ^ keys.length • (C - keys.sum • K)))
    ∧ (∀ (B M : P) (r : S),
        (tagChain keys s (CipherText.mk (r • B) (M + r • (keys.sum • B)))).C
          = s ^ keys.length • M) :=
  ⟨fun K C => tagChain_closed keys s K C, fun B M r => tagChain_encryptPoint_C keys s r B M⟩

/-- C3, as stated, fails when the session secret is zero: with one node (key
`1`), session secret `0` and base point `1` over the integers modulo 11, the
encryptions of the different plaintext points `1` and `2` get the same
final `C` point. -/
theorem tagChain_zero_secret_collides :
    (1 : ZMod 11) ≠ 2 ∧
    (tagChain [(1 : ZMod 11)] 0 (encryptPoint (1 : ZMod 11) (List.sum [(1 : ZMod 11)] • (1 : ZMod 11)) (3 : ZMod 11) 1)).C
      = (tagChain [(1 : ZMod 11)] 0
          (encryptPoint (1 : ZMod 11) (List.sum [(1 : ZMod 11)] • (1 : ZMod 11)) (5 : ZMod 11) 2)).C := by
  refine ⟨by decide, ?_⟩
  rw [tagChain_encryptPoint_C, tagChain_encryptPoint_C]
  simp

/-- C3 (amended): for two ciphertexts encrypted with independent randomness
`r₁`, `r₂` under the collective key of the nodes, the tag chain with the same
non-zero session secret and the same node keys yields the same final `C` point
when the plaintext points are equal and different final `C` points when they
differ. -/
theorem tagChain_deterministic (keys : List S) (s r₁ r₂ : S) (B M₁ M₂ : P) (hs : s ≠ 0) :
    (M₁ = M₂ →
      (tagChain keys s (encryptPoint B (keys.sum • B) r₁ M₁)).C
        = (tagChain keys s (encryptPoint B (keys.sum • B) r₂ M₂)).C)
    ∧ (M₁ ≠ M₂ →
      (tagChain keys s (encryptPoint B (keys.sum • B) r₁ M₁)).C
        ≠ (tagChain keys s (encryptPoint B (keys.sum • B) r₂ M₂)).C) := by
  rw [tagChain_encryptPoint_C, tagChain_encryptPoint_C]
  refine ⟨fun h => by rw [h], fun h hc => h ?_⟩
  exact smul_right_injective P (pow_ne_zero _ hs) hc

/-- Witness of C3 (amended) over the integers modulo 11: two nodes, session
secret `3`. -/
theorem tagChain_deterministic_witness :
    ((3 : ZMod 11) ≠ 0) ∧
    (((4 : ZMod 11) = 4 →
      (tagChain [(2 : ZMod 11), 6] 3 (encryptPoint (1 : ZMod 11) (List.sum [(2 : ZMod 11), 6] • (1 : ZMod 11)) (1 : ZMod 11) 4)).C
        = (tagChain [(2 : ZMod 11), 6] 3
            (encryptPoint (1 : ZMod 11) (List.sum [(2 : ZMod 11), 6] • (1 : ZMod 11)) (5 : ZMod 11) 4)).C)
    ∧ ((4 : ZMod 11) ≠ 4 →
      (tagChain [(2 : ZMod 11), 6] 3 (encryptPoint (1 : ZMod 11) (List.sum [(2 : ZMod 11), 6] • (1 : ZMod 11)) (1 : ZMod 11) 4)).C
        ≠ (tagChain [(2 : ZMod 11), 6] 3
            (encryptPoint (1 : ZMod 11) (List.sum [(2 : ZMod 11), 6] • (1 : ZMod 11)) (5 : ZMod 11) 4)).C)) :=
  ⟨by decide, tagChain_deterministic [(2 : ZMod 11), 6] (3 : ZMod 11) 1 5 (1 : ZMod 11) 4 4 (by decide)⟩

end TaggingTheorems

section AlgebraTheorems

variable {S P : Type} [Field S] [AddCommGroup P] [Module S P]

/-- Decryption is additive: the point recovered from a homomorphic sum is the
sum of the recovered points. -/
theorem decryptPoint_Add (sk : S) (c1 c2 : CipherText P) :
    decryptPoint sk (CipherText.Add c1 c2) = decryptPoint sk c1 + decryptPoint sk c2 := by
  simp only [decryptPoint, CipherText.Add, smul_add]
  abel

/-- Decrypting an encryption under the matching public key gives back the
message point. -/
theorem decryptPoint_encryptPoint (B : P) (sk r : S) (M : P) :
    decryptPoint sk (encryptPoint B (sk • B) r M) = M := by
  simp only [decryptPoint, encryptPoint, smul_comm r sk B]
  abel

/-- An encryption of zero under the matching public key decrypts to the zero
point. -/
theorem decryptPoint_EncryptInt_zero (B : P) (sk r : S) :
    decryptPoint sk (EncryptInt B (sk • B) r 0) = 0 := by
  simp [EncryptInt, decryptPoint_encryptPoint]

/-- A search that has exactly one hit in the list returns it. -/
theorem find?_unique {α : Type} (p : α → Bool) (l : List α) (k : α) (hk : k ∈ l)
    (hp : p k = true) (huniq : ∀ j ∈ l, p j = true → j = k) : l.find? p = some k := by
  induction l with
  | nil => simp at hk
  | cons a l ih =>
    by_cases ha : p a = true
    · have hak : a = k := huniq a (List.mem_cons_self a l) ha
      subst hak
      simp [List.find?, ha]
    · have hne : k ≠ a := fun h => ha (h ▸ hp)
      have hk2 : k ∈ l := by
        rcases List.mem_cons.1 hk with h | h
        · exact absurd h hne
        · exact h
      simp only [List.find?, Bool.not_eq_true] at ha ⊢
      rw [ha]
      exact ih hk2 (fun j hj hpj => huniq j (List.mem_cons_of_mem a hj) hpj)

/-- The brute-force logarithm finds `x` from `x·B` whenever `x` is in the
search domain and the encoding is injective on the domain. -/
theorem discreteLog_encode [DecidableEq P] (B : P) (bound : Nat)
    (hinj : ∀ m : Nat, m < bound → ∀ n : Nat, n < bound → ((m : Int) : S) • B = ((n : Int) : S) • B → m = n)
    (x : Int) (h0 : 0 ≤ x) (hlt : x < (bound : Int)) :
    discreteLog S B bound ((x : S) • B) = some x := by
  obtain ⟨n, rfl⟩ := Int.eq_ofNat_of_zero_le h0
  have hn : n < bound := by exact_mod_cast hlt
  unfold discreteLog
  rw [find?_unique _ _ n (List.mem_range.2 hn) (by simp)]
  · rfl
  · intro j hj hpj
    exact hinj j (List.mem_range.1 hj) n hn (by simpa using hpj)

/-- Decrypting the component-wise sum of two encrypted vectors, by induction on
the vectors. -/
theorem DecryptIntVector_Add [DecidableEq P] (B : P) (bound : Nat) (sk : S)
    (hinj : ∀ m : Nat, m < bound → ∀ n : Nat, n < bound → ((m : Int) : S) • B = ((n : Int) : S) • B → m = n)
    (a b : List Int) (ra rb : Nat → S)
    (hrange : ∀ x ∈ List.zipWith (fun (u v : Int) => u + v) a b, 0 ≤ x ∧ x < (bound : Int)) :
    DecryptIntVector B bound sk
        (CipherVector.Add (EncryptIntVector B (sk • B) ra a) (EncryptIntVector B (sk • B) rb b))
      = (List.zipWith (fun (u v : Int) => u + v) a b).map some := by
  induction a generalizing b ra rb with
  | nil => simp [EncryptIntVector, CipherVector.Add, DecryptIntVector]
  | cons x xs ih =>
    cases b with
    | nil => simp [EncryptIntVector, CipherVector.Add, DecryptIntVector]
    | cons y ys =>
      have hxy := hrange (x + y) (by simp)
      have htl : ∀ z ∈ List.zipWith (fun (u v : Int) => u + v) xs ys, 0 ≤ z ∧ z < (bound : Int) :=
        fun z hz => hrange z (by simp only [List.zipWith_cons_cons]; exact List.mem_cons_of_mem _ hz)
      have ih2 := ih ys (fun i => ra (i + 1)) (fun i => rb (i + 1)) htl
      simp only [DecryptIntVector, CipherVector.Add] at ih2
      simp only [EncryptIntVector, CipherVector.Add, DecryptIntVector, List.zipWith_cons_cons,
        List.map_cons, ih2, List.cons.injEq, and_true]
      simp only [DecryptInt, decryptPoint_Add, EncryptInt, decryptPoint_encryptPoint]
      rw [← add_smul, ← Int.cast_add]
      exact discreteLog_encode B bound hinj (x + y) hxy.1 hxy.2

/-- C4: for all integer vectors `a` and `b` of equal length whose sums lie in
the decryptable range `0 ≤ a_i + b_i < bound` (on which the encoding
`m ↦ m·B` is injective) and every key pair `(sk, sk·B)`, decrypting with `sk`
the homomorphic sum (`FilteredResponse.Add`) of an encryption of `a` and an
encryption of `b` under `sk·B` gives the component-wise sum `a + b`, whatever
the randomness of the two encryptions. -/
theorem FilteredResponse_Add_decrypt [DecidableEq P] (B : P) (bound : Nat) (sk : S)
    (a b : List Int) (ra rb : Nat → S) (g1 g2 : CipherVector P)
    (hlen : a.length = b.length)
    (hinj : ∀ m : Nat, m < bound → ∀ n : Nat, n < bound → ((m : Int) : S) • B = ((n : Int) : S) • B → m = n)
    (hrange : ∀ x ∈ List.zipWith (fun (u v : Int) => u + v) a b, 0 ≤ x ∧ x < (bound : Int)) :
    DecryptIntVector B bound sk
        (FilteredResponse.Add
          { GroupByEnc := g1, AggregatingAttributes := EncryptIntVector B (sk • B) ra a }
          { GroupByEnc := g2, AggregatingAttributes := EncryptIntVector B (sk • B) rb b }
        ).AggregatingAttributes
      = (List.zipWith (fun (u v : Int) => u + v) a b).map some
    ∧ (List.zipWith (fun (u v : Int) => u + v) a b).length = a.length := by
  refine ⟨DecryptIntVector_Add B bound sk hinj a b ra rb hrange, ?_⟩
  simp [hlen]

/-- Witness of C4: the vectors of `TestAddClientResponse` cut to the range of
the integers modulo 11, `a = b = [0, 1, 2, 3, 4]`, key pair `(3, 3·1)`. -/
theorem FilteredResponse_Add_decrypt_witness :
    ([0, 1, 2, 3, 4] : List Int).length = ([0, 1, 2, 3, 4] : List Int).length
    ∧ (∀ m : Nat, m < 11 → ∀ n : Nat, n < 11 →
        ((m : Int) : ZMod 11) • (1 : ZMod 11) = ((n : Int) : ZMod 11) • (1 : ZMod 11) → m = n)
    ∧ (∀ x ∈ List.zipWith (fun (u v : Int) => u + v) [0, 1, 2, 3, 4] [0, 1, 2, 3, 4], 0 ≤ x ∧ x < ((11 : Nat) : Int))
    ∧ DecryptIntVector (1 : ZMod 11) 11 (3 : ZMod 11)
        (FilteredResponse.Add
          { GroupByEnc := [],
            AggregatingAttributes :=
              EncryptIntVector (1 : ZMod 11) ((3 : ZMod 11) • (1 : ZMod 11)) (fun i => (i : ZMod 11))
                [0, 1, 2, 3, 4] }
          { GroupByEnc := [],
            AggregatingAttributes :=
              EncryptIntVector (1 : ZMod 11) ((3 : ZMod 11) • (1 : ZMod 11)) (fun _ => (5 : ZMod 11))
                [0, 1, 2, 3, 4] }
        ).AggregatingAttributes
      = [some 0, some 2, some 4, some 6, some 8] :=
  ⟨rfl, by decide, by decide,
    (FilteredResponse_Add_decrypt (1 : ZMod 11) 11 (3 : ZMod 11) [0, 1, 2, 3, 4] [0, 1, 2, 3, 4]
      (fun i => (i : ZMod 11)) (fun _ => (5 : ZMod 11)) [] [] rfl (by decide) (by decide)).1⟩

end AlgebraTheorems

section AggregationTheorems

variable {S P : Type} [Field S] [AddCommGroup P] [Module S P]

/-! ### Column-wise sums of plaintext vectors -/

theorem padSum_nil_right {α : Type} [Add α] (xs : List α) : padSum xs [] = xs := by
  cases xs <;> rfl

theorem padSum_assoc {α : Type} [AddSemigroup α] (xs ys zs : List α) :
    padSum (padSum xs ys) zs = padSum xs (padSum ys zs) := by
  induction xs generalizing ys zs with
  | nil => simp [padSum]
  | cons x xs ih =>
    cases ys with
    | nil => simp [padSum]
    | cons y ys =>
      cases zs with
      | nil => simp [padSum]
      | cons z zs => simp [padSum, ih, add_assoc]

theorem length_padSum {α : Type} [Add α] (xs ys : List α) :
    (padSum xs ys).length = max xs.length ys.length := by
  induction xs generalizing ys with
  | nil => simp [padSum]
  | cons x xs ih =>
    cases ys with
    | nil => simp [padSum]
    | cons y ys => simp [padSum, ih, Nat.succ_max_succ]

theorem optSum_none_right {α : Type} [Add α] (a : Option (List α)) : optSum a none = a := by
  cases a <;> rfl

theorem optSum_assoc {α : Type} [AddSemigroup α] (a b c : Option (List α)) :
    optSum (optSum a b) c = optSum a (optSum b c) := by
  cases a <;> cases b <;> cases c <;> simp [optSum, padSum_assoc]

theorem foldl_padSum {α : Type} [AddSemigroup α] (x w : List α) (ws : List (List α)) :
    ws.foldl padSum (padSum x w) = padSum x (ws.foldl padSum w) := by
  induction ws generalizing w with
  | nil => rfl
  | cons v vs ih => simp only [List.foldl_cons, padSum_assoc, ih]

theorem columnSum_append {α : Type} [AddSemigroup α] (a b : List (List α)) :
    columnSum (a ++ b) = optSum (columnSum a) (columnSum b) := by
  cases a with
  | nil => simp [columnSum, optSum]
  | cons v vs =>
    cases b with
    | nil => simp [columnSum, optSum]
    | cons w ws =>
      simp only [List.cons_append, columnSum, List.foldl_append, List.foldl_cons, optSum,
        foldl_padSum]

/-- A map that preserves sums preserves column-wise sums. -/
theorem map_padSum {α β : Type} [Add α] [Add β] (f : α → β)
    (hf : ∀ x y, f (x + y) = f x + f y) (xs ys : List α) :
    (padSum xs ys).map f = padSum (xs.map f) (ys.map f) := by
  induction xs generalizing ys with
  | nil => simp [padSum]
  | cons x xs ih =>
    cases ys with
    | nil => simp [padSum]
    | cons y ys => simp [padSum, ih, hf]

theorem map_foldl_padSum {α β : Type} [Add α] [Add β] (f : α → β)
    (hf : ∀ x y, f (x + y) = f x + f y) (v : List α) (vs : List (List α)) :
    (vs.foldl padSum v).map f = (vs.map (List.map f)).foldl padSum (v.map f) := by
  induction vs generalizing v with
  | nil => rfl
  | cons w ws ih => simp only [List.foldl_cons, List.map_cons, ih, map_padSum f hf]

theorem columnSum_map {α β : Type} [Add α] [Add β] (f : α → β)
    (hf : ∀ x y, f (x + y) = f x + f y) (vs : List (List α)) :
    columnSum (vs.map (List.map f)) = (columnSum vs).map (List.map f) := by
  cases vs with
  | nil => rfl
  | cons v vs => simp only [List.map_cons, columnSum, Option.map_some', map_foldl_padSum f hf]

/-! ### The padding of lines 240-250 -/

theorem length_encZeros (B aggregate : P) (rnd : Nat → S) (n : Nat) :
    (encZeros B aggregate rnd n).length = n := by
  simp [encZeros]

theorem decryptPoint_encZeros (B : P) (sk : S) (rnd : Nat → S) (n : Nat) :
    ∀ z ∈ encZeros B (sk • B) rnd n, decryptPoint sk z = 0 := by
  intro z hz
  simp only [encZeros, List.mem_map] at hz
  obtain ⟨e, _, rfl⟩ := hz
  exact decryptPoint_EncryptInt_zero B sk (rnd e)

theorem decrypt_zipWith_zeros_left (sk : S) (zs ys : CipherVector P)
    (hz : ∀ z ∈ zs, decryptPoint sk z = 0) (hlen : zs.length = ys.length) :
    (List.zipWith CipherText.Add zs ys).map (decryptPoint sk) = ys.map (decryptPoint sk) := by
  induction zs generalizing ys with
  | nil =>
    cases ys with
    | nil => rfl
    | cons y ys => simp at hlen
  | cons z zs ih =>
    cases ys with
    | nil => simp at hlen
    | cons y ys =>
      simp only [List.zipWith_cons_cons, List.map_cons, decryptPoint_Add,
        hz z (List.mem_cons_self z zs), zero_add]
      rw [ih ys (fun w hw => hz w (List.mem_cons_of_mem z hw)) (by simpa using hlen)]

theorem decrypt_zipWith_zeros_right (sk : S) (xs zs : CipherVector P)
    (hz : ∀ z ∈ zs, decryptPoint sk z = 0) (hlen : zs.length = xs.length) :
    (List.zipWith CipherText.Add xs zs).map (decryptPoint sk) = xs.map (decryptPoint sk) := by
  induction zs generalizing xs with
  | nil =>
    cases xs with
    | nil => rfl
    | cons y ys => simp at hlen
  | cons z zs ih =>
    cases xs with
    | nil => simp at hlen
    | cons x xs =>
      simp only [List.zipWith_cons_cons, List.map_cons, decryptPoint_Add,
        hz z (List.mem_cons_self z zs), add_zero]
      rw [ih xs (fun w hw => hz w (List.mem_cons_of_mem z hw)) (by simpa using hlen)]

/-- Padding the first vector with ciphertexts that decrypt to zero. -/
theorem decrypt_Add_pad_left (sk : S) (xs ys zs : CipherVector P)
    (hz : ∀ z ∈ zs, decryptPoint sk z = 0) (hlen : xs.length + zs.length = ys.length) :
    (CipherVector.Add (xs ++ zs) ys).map (decryptPoint sk)
      = padSum (xs.map (decryptPoint sk)) (ys.map (decryptPoint sk)) := by
  induction xs generalizing ys with
  | nil =>
    simp only [List.nil_append, List.map_nil, padSum, CipherVector.Add]
    exact decrypt_zipWith_zeros_left sk zs ys hz (by simpa using hlen)
  | cons x xs ih =>
    cases ys with
    | nil => simp at hlen
    | cons y ys =>
      have h := ih ys (by simp only [List.length_cons] at hlen; omega)
      simp only [CipherVector.Add] at h
      simp only [CipherVector.Add, List.cons_append, List.zipWith_cons_cons, List.map_cons,
        padSum, decryptPoint_Add, h]

/-- Padding the second vector with ciphertexts that decrypt to zero. -/
theorem decrypt_Add_pad_right (sk : S) (xs ys zs : CipherVector P)
    (hz : ∀ z ∈ zs, decryptPoint sk z = 0) (hlen : ys.length + zs.length = xs.length) :
    (CipherVector.Add xs (ys ++ zs)).map (decryptPoint sk)
      = padSum (xs.map (decryptPoint sk)) (ys.map (decryptPoint sk)) := by
  induction ys generalizing xs with
  | nil =>
    simp only [List.nil_append, List.map_nil, padSum_nil_right, CipherVector.Add]
    exact decrypt_zipWith_zeros_right sk xs zs hz (by simpa using hlen)
  | cons y ys ih =>
    cases xs with
    | nil => simp at hlen
    | cons x xs =>
      have h := ih xs (by simp only [List.length_cons] at hlen; omega)
      simp only [CipherVector.Add] at h
      simp only [CipherVector.Add, List.cons_append, List.zipWith_cons_cons, List.map_cons,
        padSum, decryptPoint_Add, h]

/-- The sum of the padded vectors decrypts to the column-wise sum of the two
plaintext vectors. -/
theorem decrypt_padAttributes (B : P) (sk : S) (rnd : Nat → S) (la a : CipherVector P) :
    (CipherVector.Add (padAttributes B (sk • B) rnd la a).1
        (padAttributes B (sk • B) rnd la a).2).map (decryptPoint sk)
      = padSum (la.map (decryptPoint sk)) (a.map (decryptPoint sk)) := by
  unfold padAttributes
  by_cases hne : la.length ≠ a.length
  · rw [if_pos hne]
    by_cases hgt : la.length > a.length
    · simp only [if_pos hgt]
      exact decrypt_Add_pad_right sk la a _ (decryptPoint_encZeros B sk rnd _)
        (by rw [length_encZeros]; omega)
    · simp only [if_neg hgt]
      exact decrypt_Add_pad_left sk la a _ (decryptPoint_encZeros B sk rnd _)
        (by rw [length_encZeros]; omega)
  · rw [if_neg hne]
    have h := decrypt_Add_pad_left sk la a [] (by simp) (by simpa using hne)
    simpa using h

/-! ### One iteration of the merge loop -/

/-- The bucket that one iteration of the merge loop stores under the child's
key. -/
theorem mergeAggr_lookup_self (B aggregate : P) (proofs : Bool)
    (fmt : FilteredResponseDet P → CvMap P → CvMap P) (st : AggrState S P)
    (aggr : FilteredResponseDet P) :
    (mergeAggr B aggregate proofs fmt st aggr).GroupedData.lookup aggr.DetTagGroupBy
      = some (match st.GroupedData.lookup aggr.DetTagGroupBy with
          | some localAggr =>
            { localAggr with
              AggregatingAttributes :=
                CipherVector.Add
                  (padAttributes B aggregate st.rnd localAggr.AggregatingAttributes
                    aggr.Fr.AggregatingAttributes).1
                  (padAttributes B aggregate st.rnd localAggr.AggregatingAttributes
                    aggr.Fr.AggregatingAttributes).2 }
          | none => aggr.Fr) := by
  unfold mergeAggr
  cases h : st.GroupedData.lookup aggr.DetTagGroupBy <;> simp [AList.lookup_insert]

/-- One iteration of the merge loop leaves the other buckets alone. -/
theorem mergeAggr_lookup_ne (B aggregate : P) (proofs : Bool)
    (fmt : FilteredResponseDet P → CvMap P → CvMap P) (st : AggrState S P)
    (aggr : FilteredResponseDet P) (g : GroupingKey) (hg : g ≠ aggr.DetTagGroupBy) :
    (mergeAggr B aggregate proofs fmt st aggr).GroupedData.lookup g
      = st.GroupedData.lookup g := by
  unfold mergeAggr
  cases h : st.GroupedData.lookup aggr.DetTagGroupBy <;> simp [AList.lookup_insert_ne hg]

/-- The keys after one iteration of the merge loop. -/
theorem mergeAggr_mem (B aggregate : P) (proofs : Bool)
    (fmt : FilteredResponseDet P → CvMap P → CvMap P) (st : AggrState S P)
    (aggr : FilteredResponseDet P) (g : GroupingKey) :
    g ∈ (mergeAggr B aggregate proofs fmt st aggr).GroupedData
      ↔ g = aggr.DetTagGroupBy ∨ g ∈ st.GroupedData := by
  unfold mergeAggr
  cases h : st.GroupedData.lookup aggr.DetTagGroupBy <;> simp [AList.mem_insert]

/-- The plaintext vector under `g` after one iteration of the merge loop. -/
theorem mergeAggr_decrypt (B : P) (sk : S) (proofs : Bool)
    (fmt : FilteredResponseDet P → CvMap P → CvMap P) (st : AggrState S P)
    (aggr : FilteredResponseDet P) (g : GroupingKey) :
    ((mergeAggr B (sk • B) proofs fmt st aggr).GroupedData.lookup g).map (decryptVector sk)
      = if g = aggr.DetTagGroupBy then
          optSum ((st.GroupedData.lookup g).map (decryptVector sk))
            (some (decryptVector sk aggr.Fr))
        else (st.GroupedData.lookup g).map (decryptVector sk) := by
  by_cases hg : g = aggr.DetTagGroupBy
  · subst hg
    rw [if_pos rfl, mergeAggr_lookup_self]
    cases h : st.GroupedData.lookup aggr.DetTagGroupBy with
    | none => simp [optSum]
    | some la =>
      simp only [Option.map_some', optSum, decryptVector, decrypt_padAttributes]
  · rw [if_neg hg, mergeAggr_lookup_ne _ _ _ _ _ _ _ hg]

/-! ### The merge of one child's contribution -/

/-- The plaintext vectors after the merge of a contribution that lists every
key once: under each key, the local vector plus the child's. -/
theorem mergeChildData_decrypt (B : P) (sk : S) (proofs : Bool)
    (fmt : FilteredResponseDet P → CvMap P → CvMap P)
    (l : List (Sigma (fun _ : GroupingKey => FilteredResponse P))) (hnd : l.NodupKeys)
    (st : AggrState S P) (g : GroupingKey) :
    ((mergeChildData B (sk • B) proofs fmt st
        (l.map (fun kv => { DetTagGroupBy := kv.1, Fr := kv.2 }))).GroupedData.lookup g).map
        (decryptVector sk)
      = optSum ((st.GroupedData.lookup g).map (decryptVector sk))
          ((l.dlookup g).map (decryptVector sk)) := by
  induction l generalizing st with
  | nil => simp [mergeChildData, optSum_none_right]
  | cons kv l ih =>
    obtain ⟨k, fr⟩ := kv
    rw [List.nodupKeys_cons] at hnd
    have hstep := ih hnd.2 (mergeAggr B (sk • B) proofs fmt st { DetTagGroupBy := k, Fr := fr })
    simp only [mergeChildData, List.map_cons, List.foldl_cons] at hstep ⊢
    rw [hstep, mergeAggr_decrypt]
    by_cases hg : g = k
    · subst hg
      have hnone : List.dlookup g l = none := List.dlookup_eq_none.2 hnd.1
      simp [hnone, optSum_none_right]
    · simp [hg, List.dlookup_cons_ne l ⟨k, fr⟩ hg]

/-- The merge of what a child made of its map `m`: under each key, the local
plaintext vector plus the one of `m`. -/
theorem mergeChildData_detAggrResponses (B : P) (sk : S) (proofs : Bool)
    (fmt : FilteredResponseDet P → CvMap P → CvMap P)
    (range : GroupedMap P → List (Sigma (fun _ : GroupingKey => FilteredResponse P)))
    (hrange : ∀ m, (range m).Perm m.entries) (m : GroupedMap P)
    (st : AggrState S P) (g : GroupingKey) :
    ((mergeChildData B (sk • B) proofs fmt st (detAggrResponses range m)).GroupedData.lookup g).map
        (decryptVector sk)
      = optSum ((st.GroupedData.lookup g).map (decryptVector sk))
          ((m.lookup g).map (decryptVector sk)) := by
  have hnd : (range m).NodupKeys := (List.perm_nodupKeys (hrange m)).2 m.nodupKeys
  unfold detAggrResponses
  rw [mergeChildData_decrypt B sk proofs fmt (range m) hnd]
  rw [List.perm_dlookup g hnd m.nodupKeys (hrange m)]
  rfl

/-! ### The round over a tree -/

mutual
/-- The root's plaintext vector under `g` is the column-wise sum of the
records under `g`. -/
theorem collectiveAggregation_decrypt (env : Env S P) (proofs : Bool) (sk : S)
    (hkey : env.Aggregate = sk • env.Base)
    (hrange : ∀ m, (env.rangeGrouped m).Perm m.entries) (g : GroupingKey) :
    ∀ t : AggTree S P,
      ((collectiveAggregation env proofs t).lookup g).map (decryptVector sk)
        = columnSum (recordsUnder sk g t.nodes)
  | .node gd rnd cs => by
    rw [collectiveAggregation, treeContributions_decrypt env proofs sk hkey hrange g cs]
    simp only [AggTree.nodes, recordsUnder, List.filterMap_cons]
    cases h : gd.lookup g with
    | none => simp [optSum]
    | some fr =>
      simp only [Option.map_some']
      exact (columnSum_append [decryptVector sk fr] _).symm
/-- The plaintext vector under `g` after the merge of the contributions of a
list of subtrees. -/
theorem treeContributions_decrypt (env : Env S P) (proofs : Bool) (sk : S)
    (hkey : env.Aggregate = sk • env.Base)
    (hrange : ∀ m, (env.rangeGrouped m).Perm m.entries) (g : GroupingKey) :
    ∀ (cs : List (AggTree S P)) (st : AggrState S P),
      ((List.foldl (mergeChildData env.Base env.Aggregate proofs env.FormatAggregationProofs)
          st (treeContributions env proofs cs)).GroupedData.lookup g).map (decryptVector sk)
        = optSum ((st.GroupedData.lookup g).map (decryptVector sk))
            (columnSum (recordsUnder sk g (nodesOfList cs)))
  | [], st => by simp [treeContributions, nodesOfList, recordsUnder, columnSum, optSum_none_right]
  | c :: cs, st => by
    simp only [treeContributions, List.foldl_cons, nodesOfList]
    rw [treeContributions_decrypt env proofs sk hkey hrange g cs]
    rw [hkey, mergeChildData_detAggrResponses env.Base sk proofs _ _ hrange]
    rw [collectiveAggregation_decrypt env proofs sk hkey hrange g c]
    simp only [recordsUnder, List.filterMap_append, columnSum_append, optSum_assoc]
end

/-- What `readsBack` checks: `ToBytes` succeeds and `FromBytes` ends with the
list itself. -/
theorem readsBack_eq_true [DecidableEq P] (w : WireEnv P) (lastWriter : Nat)
    (l : List (FilteredResponseDet P)) (h : readsBack w lastWriter l = true) :
    ∃ m : Bytes × Int × Int × Int,
      ChildAggregatedDataMessage.ToBytes w lastWriter { ChildData := l } = .ok m
      ∧ ChildAggregatedDataMessage.FromBytes w m.1 m.2.1 m.2.2.1 m.2.2.2 = .ok l := by
  unfold readsBack at h
  cases hto : ChildAggregatedDataMessage.ToBytes w lastWriter { ChildData := l } with
  | error e => rw [hto] at h; simp at h
  | ok m =>
    rw [hto] at h
    dsimp only at h
    cases hfrom : ChildAggregatedDataMessage.FromBytes w m.1 m.2.1 m.2.2.1 m.2.2.2 with
    | error f => rw [hfrom] at h; simp at h
    | ok l' =>
      rw [hfrom] at h
      simp only [decide_eq_true_eq] at h
      exact ⟨m, rfl, h ▸ hfrom⟩

/-- The loop over the lengths received, when `FromBytes` reads from every
payload the list that stands for it in `ls`: the fold of the merge of each
list. -/
theorem mergeChildren_read (w : WireEnv P) (B aggregate : P) (proofs : Bool)
    (fmt : FilteredResponseDet P → CvMap P → CvMap P)
    (ms : List ((Int × Int × Int) × Bytes)) (ls : List (List (FilteredResponseDet P)))
    (h : List.Forall₂
      (fun m l => ChildAggregatedDataMessage.FromBytes w m.2 m.1.1 m.1.2.1 m.1.2.2 = .ok l)
      ms ls)
    (pre : List Bytes) (st : AggrState S P) :
    mergeChildren w B aggregate proofs fmt false (pre ++ ms.map Prod.snd) pre.length
        (ms.map Prod.fst) st
      = .ok (ls.foldl (mergeChildData B aggregate proofs fmt) st) := by
  induction h generalizing pre st with
  | nil => simp [mergeChildren]
  | @cons m l ms ls hml _ ih =>
    have hget : (pre ++ m.2 :: List.map Prod.snd ms)[pre.length]? = some m.2 := by
      rw [List.getElem?_append_right (le_refl _)]
      simp
    simp only [List.map_cons]
    rw [mergeChildren, hget]
    dsimp only
    rw [hml]
    dsimp only
    have hstep := ih (pre ++ [m.2]) (mergeChildData B aggregate proofs fmt st l)
    simp only [List.append_assoc, List.singleton_append, List.length_append,
      List.length_singleton] at hstep
    simpa using hstep

/-- The phase at a node whose map is not the nil map and to which the channels
deliver payloads that `FromBytes` reads as the lists `ls`: the merge of the
lists, and then the sending at a node that is not the root. -/
theorem ascendingAggregationPhase_read (env : Env S P) (isRoot isLeaf proofs : Bool)
    (gd : GroupedMap P) (cvMap : CvMap P)
    (ms : List ((Int × Int × Int) × Bytes)) (ls : List (List (FilteredResponseDet P)))
    (h : List.Forall₂
      (fun m l =>
        ChildAggregatedDataMessage.FromBytes env.wire m.2 m.1.1 m.1.2.1 m.1.2.2 = .ok l) ms ls)
    (hlengths : env.lengthMessages = ms.map Prod.fst)
    (hdatas : env.dataMessages = ms.map Prod.snd)
    (hleaf : isLeaf = true → ls = []) :
    ascendingAggregationPhase env isRoot isLeaf proofs (some gd) cvMap
      = if !isRoot then
          sendUp env (ls.foldl
            (mergeChildData env.Base env.Aggregate proofs env.FormatAggregationProofs)
            { GroupedData := gd, cvMap := cvMap, rnd := env.rnd })
        else
          { sent := []
            state := ls.foldl
              (mergeChildData env.Base env.Aggregate proofs env.FormatAggregationProofs)
              { GroupedData := gd, cvMap := cvMap, rnd := env.rnd }
            result := .ok (ls.foldl
              (mergeChildData env.Base env.Aggregate proofs env.FormatAggregationProofs)
              { GroupedData := gd, cvMap := cvMap, rnd := env.rnd }).GroupedData } := by
  unfold ascendingAggregationPhase
  cases isLeaf with
  | true =>
    rw [hleaf rfl]
    simp
  | false =>
    have hm := mergeChildren_read env.wire env.Base env.Aggregate proofs
      env.FormatAggregationProofs ms ls h []
      { GroupedData := gd, cvMap := cvMap, rnd := env.rnd }
    simp only [List.nil_append, List.length_nil] at hm
    simp [hlengths, hdatas, hm]

/-- What a node that is not the root sends when its parent reads its list
back: the lengths and the bytes from which `FromBytes` reads the list, and the
node returns its map. -/
theorem sendUp_faithful [DecidableEq P] (env : Env S P) (st : AggrState S P)
    (hlen : env.sendLengthErr = none) (hdata : env.sendDataErr = none)
    (h : readsBack env.wire env.lastWriter
      (detAggrResponses env.rangeGrouped st.GroupedData) = true) :
    (sendUp env st).result = .ok st.GroupedData
    ∧ ∃ m : (Int × Int × Int) × Bytes,
        sentToParent (sendUp env st).sent = some m
        ∧ ChildAggregatedDataMessage.FromBytes env.wire m.2 m.1.1 m.1.2.1 m.1.2.2
          = .ok (detAggrResponses env.rangeGrouped st.GroupedData) := by
  obtain ⟨m, hto, hfrom⟩ := readsBack_eq_true _ _ _ h
  obtain ⟨data, g, a, d⟩ := m
  unfold sendUp
  simp only [hto, hfrom, hlen, hdata]
  refine ⟨?_, ((g, a, d), data), ?_, hfrom⟩ <;> first | rfl | trivial

mutual
/-- The phase at a node of a tree whose nodes all build lists that their
parents read back: the node ends with the merge of the subtree, and a node that
is not the root sends the bytes from which its parent reads its list. -/
theorem treePhase_faithful [DecidableEq P] (env : Env S P) (proofs : Bool)
    (hlen : env.sendLengthErr = none) (hdata : env.sendDataErr = none) :
    ∀ (t : AggTree S P) (isRoot : Bool), wireFaithful env proofs t = true →
      (isRoot = false → readsBack env.wire env.lastWriter
        (detAggrResponses env.rangeGrouped (collectiveAggregation env proofs t)) = true) →
      ∃ r : PhaseResult S P, treePhase env proofs t isRoot = some r
        ∧ r.result = .ok (collectiveAggregation env proofs t)
        ∧ (isRoot = true → r.sent = [])
        ∧ (isRoot = false → ∃ m : (Int × Int × Int) × Bytes,
            sentToParent r.sent = some m
            ∧ ChildAggregatedDataMessage.FromBytes env.wire m.2 m.1.1 m.1.2.1 m.1.2.2
              = .ok (detAggrResponses env.rangeGrouped (collectiveAggregation env proofs t)))
  | .node gd rnd cs, isRoot, hw, hr => by
    rw [wireFaithful] at hw
    obtain ⟨ms, hms, hall⟩ := childrenMessages_faithful env proofs hlen hdata cs hw
    have hleaf : cs.isEmpty = true → treeContributions env proofs cs = [] := by
      intro hc
      cases cs with
      | nil => rw [treeContributions]
      | cons c cs => simp at hc
    have hphase := ascendingAggregationPhase_read
      { env with rnd := rnd, lengthMessages := ms.map Prod.fst, dataMessages := ms.map Prod.snd }
      isRoot cs.isEmpty proofs gd (formatLocal env proofs gd) ms
      (treeContributions env proofs cs) hall rfl rfl hleaf
    refine ⟨_, by rw [treePhase, hms], ?_⟩
    dsimp only at hphase ⊢
    rw [hphase]
    cases isRoot with
    | true =>
      refine ⟨?_, fun _ => ?_, fun hfalse => ?_⟩
      · simp [collectiveAggregation]
      · simp
      · simp at hfalse
    | false =>
      have hrb := hr rfl
      rw [collectiveAggregation] at hrb ⊢
      have hs := sendUp_faithful
        { env with rnd := rnd, lengthMessages := ms.map Prod.fst,
                   dataMessages := ms.map Prod.snd }
        (List.foldl (mergeChildData env.Base env.Aggregate proofs env.FormatAggregationProofs)
          { GroupedData := gd, cvMap := formatLocal env proofs gd, rnd := rnd }
          (treeContributions env proofs cs)) hlen hdata hrb
      refine ⟨?_, fun htrue => ?_, fun _ => ?_⟩
      · simpa using hs.1
      · simp at htrue
      · simpa using hs.2
/-- The messages that the children of a node send when all the nodes below
build lists that their parents read back: from the message of each child the
parent reads the list that the child built. -/
theorem childrenMessages_faithful [DecidableEq P] (env : Env S P) (proofs : Bool)
    (hlen : env.sendLengthErr = none) (hdata : env.sendDataErr = none) :
    ∀ cs : List (AggTree S P), childrenFaithful env proofs cs = true →
      ∃ ms : List ((Int × Int × Int) × Bytes),
        childrenMessages env proofs cs = some (ms.map Prod.fst, ms.map Prod.snd)
        ∧ List.Forall₂
          (fun m l =>
            ChildAggregatedDataMessage.FromBytes env.wire m.2 m.1.1 m.1.2.1 m.1.2.2 = .ok l)
          ms (treeContributions env proofs cs)
  | [], _ => ⟨[], by rw [childrenMessages]; rfl, by rw [treeContributions]; exact List.Forall₂.nil⟩
  | c :: cs, hw => by
    rw [childrenFaithful] at hw
    simp only [Bool.and_eq_true] at hw
    obtain ⟨⟨hrb, hwc⟩, hwcs⟩ := hw
    obtain ⟨r, hr, _, _, hsent⟩ :=
      treePhase_faithful env proofs hlen hdata c false hwc (fun _ => hrb)
    obtain ⟨m, hm, hfrom⟩ := hsent rfl
    obtain ⟨ms, hms, hall⟩ := childrenMessages_faithful env proofs hlen hdata cs hwcs
    refine ⟨m :: ms, ?_, ?_⟩
    · rw [childrenMessages, hr, hms]
      dsimp only
      rw [hm]
      rfl
    · rw [treeContributions]
      exact List.Forall₂.cons hfrom hall
end

theorem columnSum_isSome {α : Type} [Add α] (l : List (List α)) :
    (columnSum l).isSome ↔ l ≠ [] := by
  cases l <;> simp [columnSum]

theorem recordsUnder_ne_nil (sk : S) (g : GroupingKey) (maps : List (GroupedMap P)) :
    recordsUnder sk g maps ≠ [] ↔ ∃ m ∈ maps, g ∈ m := by
  induction maps with
  | nil => simp [recordsUnder]
  | cons m ms ih =>
    simp only [recordsUnder, List.filterMap_cons] at ih ⊢
    cases h : m.lookup g with
    | none =>
      have hm : g ∉ m := by rw [← AList.lookup_isSome, h]; simp
      simp [ih, hm]
    | some fr =>
      have hm : g ∈ m := by rw [← AList.lookup_isSome, h]; simp
      simp [hm]

/-- The sum of the encodings is the encoding of the sum. -/
theorem intCast_smul_add (B : P) (x y : Int) :
    ((x + y : Int) : S) • B = (x : S) • B + (y : S) • B := by
  rw [Int.cast_add, add_smul]

/-- C5, amended: for every tree of nodes, each holding a local map from
GroupingKey to FilteredResponse, in a round in which no send fails and every
node below the root builds a list of buckets that its parent reads back from
the bytes as it was built, under the roster key `sk·B` and whatever the order
in which the maps are ranged over, the phase at the root returns, after every
node below it has sent its lengths and its bytes to its parent, the map
`collectiveAggregation` of the tree, which has a bucket under `g` exactly when
some node has one, and whose `AggregatingAttributes` under `g` decrypt to the
column-wise sum of the plaintext points of all the nodes' records under `g`;
so when those records encode the integer vectors `vals`, whose column-wise
sums lie in the decryptable range, they decrypt to the column-wise sum of
`vals`. -/
theorem collectiveAggregation_correct [DecidableEq P] (env : Env S P) (proofs : Bool) (sk : S)
    (t : AggTree S P) (g : GroupingKey)
    (hkey : env.Aggregate = sk • env.Base)
    (hrange : ∀ m, (env.rangeGrouped m).Perm m.entries)
    (hlen : env.sendLengthErr = none) (hdata : env.sendDataErr = none)
    (hwire : wireFaithful env proofs t = true) :
    (∃ r : PhaseResult S P, treePhase env proofs t true = some r
        ∧ r.result = .ok (collectiveAggregation env proofs t) ∧ r.sent = [])
    ∧ (g ∈ collectiveAggregation env proofs t ↔ ∃ m ∈ t.nodes, g ∈ m)
    ∧ ((collectiveAggregation env proofs t).lookup g).map (decryptVector sk)
        = columnSum (recordsUnder sk g t.nodes)
    ∧ (∀ (bound : Nat) (vals : List (List Int)),
        recordsUnder sk g t.nodes
          = vals.map (List.map (fun a : Int => (a : S) • env.Base)) →
        (∀ m : Nat, m < bound → ∀ n : Nat, n < bound →
          ((m : Int) : S) • env.Base = ((n : Int) : S) • env.Base → m = n) →
        (∀ v, columnSum vals = some v → ∀ x ∈ v, 0 ≤ x ∧ x < (bound : Int)) →
        ((collectiveAggregation env proofs t).lookup g).map
            (fun fr => DecryptIntVector env.Base bound sk fr.AggregatingAttributes)
          = (columnSum vals).map (List.map some)) := by
  have hdec := collectiveAggregation_decrypt env proofs sk hkey hrange g t
  obtain ⟨r, hr, hres, hsent, _⟩ :=
    treePhase_faithful env proofs hlen hdata t true hwire (fun h => by simp at h)
  refine ⟨⟨r, hr, hres, hsent rfl⟩, ?_, hdec, ?_⟩
  · rw [← recordsUnder_ne_nil sk, ← columnSum_isSome, ← hdec, ← AList.lookup_isSome]
    simp
  · intro bound vals hvals hinj hbound
    rw [hvals, columnSum_map _ (intCast_smul_add env.Base)] at hdec
    cases hl : (collectiveAggregation env proofs t).lookup g with
    | none =>
      rw [hl] at hdec
      cases hv : columnSum vals with
      | none => rfl
      | some v => rw [hv] at hdec; simp at hdec
    | some fr =>
      rw [hl] at hdec
      cases hv : columnSum vals with
      | none => rw [hv] at hdec; simp at hdec
      | some v =>
        rw [hv] at hdec
        simp only [Option.map_some', Option.some.injEq, decryptVector] at hdec
        simp only [Option.map_some', Option.some.injEq, DecryptIntVector]
        have hmap : fr.AggregatingAttributes.map (DecryptInt env.Base bound sk)
            = (fr.AggregatingAttributes.map (decryptPoint sk)).map
                (discreteLog S env.Base bound) := by
          simp [DecryptInt, Function.comp_def]
        rw [hmap, hdec, List.map_map]
        apply List.map_congr_left
        intro x hx
        exact discreteLog_encode env.Base bound hinj x (hbound v hv x hx).1 (hbound v hv x hx).2

/-- Counterexample to C5 as stated: in the tree of a root holding `[4]` under
the key `b` and one child holding `[1, 2]` under `a` and `[3]` under `b`, over
the two-bytes-per-ciphertext wire format, the child sends eight bytes with the
lengths of its first bucket (five bytes), the root reads one bucket back, and
its bucket under `b` decrypts to `[4]`, where the records under `b` sum to
`[7]`. -/
theorem collectiveAggregation_loses_bucket :
    (treePhase exampleEnv false exampleUnevenTree true).map
        (fun r =>
          match r.result with
          | .ok m => some ((m.lookup "b").map (decryptVector (3 : ZMod 11)))
          | .error _ => none)
      = some (some (some [4]))
    ∧ columnSum (recordsUnder (3 : ZMod 11) "b" exampleUnevenTree.nodes) = some [7] := by
  decide

/-- Witness of C5: the ten-node example tree, five nodes of which contribute a
`1` under the empty key; every node below the root sends its bucket in two
bytes that its parent reads back, the phase at the root returns the merged
map, and the records under the empty key sum to `[5]`. -/
theorem collectiveAggregation_correct_witness :
    exampleEnv.Aggregate = (3 : ZMod 11) • exampleEnv.Base
    ∧ (∀ m, (exampleEnv.rangeGrouped m).Perm m.entries)
    ∧ exampleEnv.sendLengthErr = none ∧ exampleEnv.sendDataErr = none
    ∧ wireFaithful exampleEnv false exampleTree = true
    ∧ (∃ r : PhaseResult (ZMod 11) (ZMod 11), treePhase exampleEnv false exampleTree true = some r
        ∧ r.result = .ok (collectiveAggregation exampleEnv false exampleTree) ∧ r.sent = [])
    ∧ ((collectiveAggregation exampleEnv false exampleTree).lookup "").map
          (decryptVector (3 : ZMod 11))
        = columnSum (recordsUnder (3 : ZMod 11) "" exampleTree.nodes)
    ∧ columnSum (recordsUnder (3 : ZMod 11) "" exampleTree.nodes) = some [5] :=
  have h := collectiveAggregation_correct exampleEnv false (3 : ZMod 11) exampleTree ""
    (by decide) (fun _ => List.Perm.refl _) rfl rfl (by decide)
  ⟨by decide, fun _ => List.Perm.refl _, rfl, rfl, by decide, h.1, h.2.2.1, by decide⟩

/-! ### The padding, position by position -/

/-- The padding appends the encryptions of zero to the shorter vector, as
many as the lengths differ by. -/
theorem padAttributes_eq (B aggregate : P) (rnd : Nat → S) (a b : CipherVector P) :
    padAttributes B aggregate rnd a b
      = if b.length < a.length then
          (a, b ++ encZeros B aggregate rnd (a.length - b.length))
        else
          (a ++ encZeros B aggregate rnd (b.length - a.length), b) := by
  unfold padAttributes
  by_cases hne : a.length ≠ b.length
  · rw [if_pos hne]
    by_cases hgt : a.length > b.length
    · have h1 : Int.natAbs ((a.length : Int) - (b.length : Int)) = a.length - b.length := by
        omega
      simp only [if_pos hgt, h1]
    · have h1 : Int.natAbs ((a.length : Int) - (b.length : Int)) = b.length - a.length := by
        omega
      simp only [if_neg hgt, h1]
  · have heq : a.length = b.length := by simpa using hne
    rw [if_neg hne, if_neg (by omega), heq]
    simp [encZeros]

theorem getElem?_encZeros (B aggregate : P) (rnd : Nat → S) (n i : Nat) (hi : i < n) :
    (encZeros B aggregate rnd n)[i]? = some (EncryptInt B aggregate (rnd i) 0) := by
  simp [encZeros, List.getElem?_range hi]

theorem CipherText_Add_comm (x y : CipherText P) : CipherText.Add x y = CipherText.Add y x := by
  simp [CipherText.Add, add_comm]

/-- C6: in the merge step of `ascendingAggregationPhase`, for a GroupingKey
present in the local map (`AggregatingAttributes` `a`, of length `m`) and in
the child's contribution (`AggregatingAttributes` `b`, of length `n`), the
merged bucket's `AggregatingAttributes` is the sum of the two padded vectors
and has length `max m n`; at a position where both vectors have an element it
is their ciphertext sum; at a position `i ≥ min m n` it is the longer
vector's element plus an encryption of zero under the roster's aggregate key,
and decrypts to what the longer vector's element decrypts to; the padding
appends `|m − n|` encryptions of zero to the shorter vector and nothing to the
longer one. -/
theorem mergeAggr_padding (B aggregate : P) (proofs : Bool)
    (fmt : FilteredResponseDet P → CvMap P → CvMap P) (st : AggrState S P)
    (aggr : FilteredResponseDet P) (localAggr : FilteredResponse P)
    (hfound : st.GroupedData.lookup aggr.DetTagGroupBy = some localAggr) :
    ∃ merged : FilteredResponse P,
      (mergeAggr B aggregate proofs fmt st aggr).GroupedData.lookup aggr.DetTagGroupBy
        = some merged
      ∧ merged.AggregatingAttributes
          = CipherVector.Add
              (padAttributes B aggregate st.rnd localAggr.AggregatingAttributes
                aggr.Fr.AggregatingAttributes).1
              (padAttributes B aggregate st.rnd localAggr.AggregatingAttributes
                aggr.Fr.AggregatingAttributes).2
      ∧ merged.AggregatingAttributes.length
          = max localAggr.AggregatingAttributes.length aggr.Fr.AggregatingAttributes.length
      ∧ (∀ (i : Nat) (x y : CipherText P),
          localAggr.AggregatingAttributes[i]? = some x →
          aggr.Fr.AggregatingAttributes[i]? = some y →
          merged.AggregatingAttributes[i]? = some (CipherText.Add x y))
      ∧ (∀ (i : Nat) (x : CipherText P),
          min localAggr.AggregatingAttributes.length aggr.Fr.AggregatingAttributes.length ≤ i →
          (if aggr.Fr.AggregatingAttributes.length < localAggr.AggregatingAttributes.length
            then localAggr.AggregatingAttributes
            else aggr.Fr.AggregatingAttributes)[i]? = some x →
          merged.AggregatingAttributes[i]?
              = some (CipherText.Add x
                  (EncryptInt B aggregate
                    (st.rnd (i - min localAggr.AggregatingAttributes.length
                      aggr.Fr.AggregatingAttributes.length)) 0))
            ∧ ∀ sk : S, aggregate = sk • B →
                (merged.AggregatingAttributes[i]?).map (decryptPoint sk)
                  = some (decryptPoint sk x))
      ∧ padAttributes B aggregate st.rnd localAggr.AggregatingAttributes
            aggr.Fr.AggregatingAttributes
          = (if aggr.Fr.AggregatingAttributes.length < localAggr.AggregatingAttributes.length
              then
                (localAggr.AggregatingAttributes,
                 aggr.Fr.AggregatingAttributes ++ encZeros B aggregate st.rnd
                    (localAggr.AggregatingAttributes.length
                      - aggr.Fr.AggregatingAttributes.length))
              else
                (localAggr.AggregatingAttributes ++ encZeros B aggregate st.rnd
                    (aggr.Fr.AggregatingAttributes.length
                      - localAggr.AggregatingAttributes.length),
                 aggr.Fr.AggregatingAttributes))
      ∧ (encZeros B aggregate st.rnd
            (Int.natAbs ((localAggr.AggregatingAttributes.length : Int)
              - (aggr.Fr.AggregatingAttributes.length : Int)))).length
          = Int.natAbs ((localAggr.AggregatingAttributes.length : Int)
              - (aggr.Fr.AggregatingAttributes.length : Int)) := by
  refine ⟨{ localAggr with
      AggregatingAttributes :=
        CipherVector.Add
          (padAttributes B aggregate st.rnd localAggr.AggregatingAttributes
            aggr.Fr.AggregatingAttributes).1
          (padAttributes B aggregate st.rnd localAggr.AggregatingAttributes
            aggr.Fr.AggregatingAttributes).2 },
    ?_, rfl, ?_, ?_, ?_, padAttributes_eq _ _ _ _ _, length_encZeros _ _ _ _⟩
  · rw [mergeAggr_lookup_self, hfound]
  · rw [padAttributes_eq]
    by_cases h : aggr.Fr.AggregatingAttributes.length < localAggr.AggregatingAttributes.length
    · simp only [if_pos h, CipherVector.Add, List.length_zipWith, List.length_append,
        length_encZeros]
      omega
    · simp only [if_neg h, CipherVector.Add, List.length_zipWith, List.length_append,
        length_encZeros]
      omega
  · intro i x y hx hy
    have hi1 : i < localAggr.AggregatingAttributes.length := (List.getElem?_eq_some.1 hx).1
    have hi2 : i < aggr.Fr.AggregatingAttributes.length := (List.getElem?_eq_some.1 hy).1
    rw [padAttributes_eq]
    by_cases h : aggr.Fr.AggregatingAttributes.length < localAggr.AggregatingAttributes.length
    · simp only [if_pos h, CipherVector.Add, List.getElem?_zipWith,
        List.getElem?_append_left hi2, hx, hy]
    · simp only [if_neg h, CipherVector.Add, List.getElem?_zipWith,
        List.getElem?_append_left hi1, hx, hy]
  · intro i x hmin hx
    rw [padAttributes_eq]
    by_cases h : aggr.Fr.AggregatingAttributes.length < localAggr.AggregatingAttributes.length
    · rw [if_pos h] at hx
      have hi1 : i < localAggr.AggregatingAttributes.length := (List.getElem?_eq_some.1 hx).1
      have hmin2 : min localAggr.AggregatingAttributes.length
          aggr.Fr.AggregatingAttributes.length = aggr.Fr.AggregatingAttributes.length := by
        omega
      rw [hmin2] at hmin ⊢
      have hget : (CipherVector.Add localAggr.AggregatingAttributes
          (aggr.Fr.AggregatingAttributes ++ encZeros B aggregate st.rnd
            (localAggr.AggregatingAttributes.length
              - aggr.Fr.AggregatingAttributes.length)))[i]?
          = some (CipherText.Add x (EncryptInt B aggregate
              (st.rnd (i - aggr.Fr.AggregatingAttributes.length)) 0)) := by
        simp only [CipherVector.Add, List.getElem?_zipWith, List.getElem?_append_right hmin, hx]
        rw [getElem?_encZeros _ _ _ _ _ (by omega)]
      simp only [if_pos h, hget, true_and]
      intro sk hsk
      rw [hsk, Option.map_some', decryptPoint_Add, decryptPoint_EncryptInt_zero, add_zero]
    · rw [if_neg h] at hx
      have hi2 : i < aggr.Fr.AggregatingAttributes.length := (List.getElem?_eq_some.1 hx).1
      have hmin2 : min localAggr.AggregatingAttributes.length
          aggr.Fr.AggregatingAttributes.length = localAggr.AggregatingAttributes.length := by
        omega
      rw [hmin2] at hmin ⊢
      have hget : (CipherVector.Add
          (localAggr.AggregatingAttributes ++ encZeros B aggregate st.rnd
            (aggr.Fr.AggregatingAttributes.length
              - localAggr.AggregatingAttributes.length))
          aggr.Fr.AggregatingAttributes)[i]?
          = some (CipherText.Add x (EncryptInt B aggregate
              (st.rnd (i - localAggr.AggregatingAttributes.length)) 0)) := by
        simp only [CipherVector.Add, List.getElem?_zipWith, List.getElem?_append_right hmin, hx]
        rw [getElem?_encZeros _ _ _ _ _ (by omega), CipherText_Add_comm]
      simp only [if_neg h, hget, true_and]
      intro sk hsk
      rw [hsk, Option.map_some', decryptPoint_Add, decryptPoint_EncryptInt_zero, add_zero]

/-- Witness of C6: a local bucket of three attributes and a child's bucket of
five under the same key; the merged bucket has five. -/
theorem mergeAggr_padding_witness :
    exampleState.GroupedData.lookup exampleAggr.DetTagGroupBy = some exampleLocal
    ∧ ∃ merged : FilteredResponse (ZMod 11),
        (mergeAggr exampleEnv.Base exampleEnv.Aggregate false exampleEnv.FormatAggregationProofs
            exampleState exampleAggr).GroupedData.lookup exampleAggr.DetTagGroupBy = some merged
        ∧ merged.AggregatingAttributes.length = 5 :=
  ⟨by decide,
    (mergeAggr_padding exampleEnv.Base exampleEnv.Aggregate false
        exampleEnv.FormatAggregationProofs exampleState exampleAggr exampleLocal
        (by decide)).elim
      (fun merged h => ⟨merged, h.1, h.2.2.1.trans (by decide)⟩)⟩

/-! ### The merge of a contribution: keys and frame -/

/-- The keys after the merge of a contribution. -/
theorem mergeChildData_mem (B aggregate : P) (proofs : Bool)
    (fmt : FilteredResponseDet P → CvMap P → CvMap P)
    (cd : List (FilteredResponseDet P)) (st : AggrState S P) (g : GroupingKey) :
    g ∈ (mergeChildData B aggregate proofs fmt st cd).GroupedData
      ↔ g ∈ st.GroupedData ∨ ∃ aggr ∈ cd, aggr.DetTagGroupBy = g := by
  induction cd generalizing st with
  | nil => simp [mergeChildData]
  | cons a cd ih =>
    have h := ih (mergeAggr B aggregate proofs fmt st a)
    simp only [mergeChildData, List.foldl_cons] at h ⊢
    rw [h, mergeAggr_mem]
    simp only [List.mem_cons, exists_eq_or_imp]
    constructor
    · rintro ((h1 | h1) | h1)
      · exact Or.inr (Or.inl h1.symm)
      · exact Or.inl h1
      · exact Or.inr (Or.inr h1)
    · rintro (h1 | h1 | h1)
      · exact Or.inl (Or.inr h1)
      · exact Or.inl (Or.inl h1.symm)
      · exact Or.inr h1

/-- The merge of a contribution leaves alone the buckets whose key the
contribution does not have. -/
theorem mergeChildData_lookup_of_not_mem (B aggregate : P) (proofs : Bool)
    (fmt : FilteredResponseDet P → CvMap P → CvMap P)
    (cd : List (FilteredResponseDet P)) (st : AggrState S P) (g : GroupingKey)
    (hg : ∀ aggr ∈ cd, aggr.DetTagGroupBy ≠ g) :
    (mergeChildData B aggregate proofs fmt st cd).GroupedData.lookup g
      = st.GroupedData.lookup g := by
  induction cd generalizing st with
  | nil => rfl
  | cons a cd ih =>
    have h := ih (mergeAggr B aggregate proofs fmt st a)
      (fun aggr haggr => hg aggr (List.mem_cons_of_mem a haggr))
    simp only [mergeChildData, List.foldl_cons] at h ⊢
    rw [h, mergeAggr_lookup_ne _ _ _ _ _ _ _ (fun hc => hg a (List.mem_cons_self a cd) hc.symm)]

/-- A bucket whose key only the child has is adopted as it is, when the
contribution lists every key once. -/
theorem mergeChildData_adopt (B aggregate : P) (proofs : Bool)
    (fmt : FilteredResponseDet P → CvMap P → CvMap P)
    (cd : List (FilteredResponseDet P)) (st : AggrState S P)
    (hnd : (cd.map (fun aggr => aggr.DetTagGroupBy)).Nodup)
    (aggr : FilteredResponseDet P) (haggr : aggr ∈ cd)
    (hnew : aggr.DetTagGroupBy ∉ st.GroupedData) :
    (mergeChildData B aggregate proofs fmt st cd).GroupedData.lookup aggr.DetTagGroupBy
      = some aggr.Fr := by
  induction cd generalizing st with
  | nil => simp at haggr
  | cons a cd ih =>
    rw [List.map_cons, List.nodup_cons] at hnd
    simp only [mergeChildData, List.foldl_cons]
    rcases List.mem_cons.1 haggr with rfl | htail
    · have hrest := mergeChildData_lookup_of_not_mem B aggregate proofs fmt cd
        (mergeAggr B aggregate proofs fmt st aggr) aggr.DetTagGroupBy
        (fun b hb hc => hnd.1 (List.mem_map.2 ⟨b, hb, hc⟩))
      simp only [mergeChildData] at hrest
      rw [hrest, mergeAggr_lookup_self]
      have hnone : st.GroupedData.lookup aggr.DetTagGroupBy = none := by
        rw [AList.lookup_eq_none]; exact hnew
      rw [hnone]
    · have hne : aggr.DetTagGroupBy ≠ a.DetTagGroupBy :=
        fun hc => hnd.1 (List.mem_map.2 ⟨aggr, htail, hc⟩)
      have h := ih (mergeAggr B aggregate proofs fmt st a) hnd.2 htail
        (by rw [mergeAggr_mem]; exact fun hc => hc.elim hne hnew)
      simpa only [mergeChildData] using h

/-- A bucket whose key the local map does not have is adopted as it is by one
iteration of the merge loop. -/
theorem mergeAggr_adopt (B aggregate : P) (proofs : Bool)
    (fmt : FilteredResponseDet P → CvMap P → CvMap P) (st : AggrState S P)
    (aggr : FilteredResponseDet P) (hnew : aggr.DetTagGroupBy ∉ st.GroupedData) :
    (mergeAggr B aggregate proofs fmt st aggr).GroupedData.lookup aggr.DetTagGroupBy
      = some aggr.Fr := by
  have hnone : st.GroupedData.lookup aggr.DetTagGroupBy = none := by
    rw [AList.lookup_eq_none]; exact hnew
  rw [mergeAggr_lookup_self, hnone]

/-- C7: after a node merges a child's contribution in
`ascendingAggregationPhase`, the keys of its GroupedData are its previous keys
together with the child's keys; a bucket whose key only the child has equals
the child's FilteredResponse unchanged; and every bucket whose key does not
occur in the contribution is left unchanged. This holds for each bucket
`aggr` that the loop merges (first part) and for the whole list `cd` of the
child's buckets (second part, where a list that names a key once is needed for
the child's bucket to be the one adopted). -/
theorem mergeChildData_frame (B aggregate : P) (proofs : Bool)
    (fmt : FilteredResponseDet P → CvMap P → CvMap P)
    (st : AggrState S P) (cd : List (FilteredResponseDet P)) :
    (∀ aggr : FilteredResponseDet P,
        (∀ g : GroupingKey,
          g ∈ (mergeAggr B aggregate proofs fmt st aggr).GroupedData
            ↔ g ∈ st.GroupedData ∨ g = aggr.DetTagGroupBy)
        ∧ (aggr.DetTagGroupBy ∉ st.GroupedData →
            (mergeAggr B aggregate proofs fmt st aggr).GroupedData.lookup aggr.DetTagGroupBy
              = some aggr.Fr)
        ∧ (∀ g : GroupingKey, g ≠ aggr.DetTagGroupBy →
            (mergeAggr B aggregate proofs fmt st aggr).GroupedData.lookup g
              = st.GroupedData.lookup g))
    ∧ (∀ g : GroupingKey,
        g ∈ (mergeChildData B aggregate proofs fmt st cd).GroupedData
          ↔ g ∈ st.GroupedData ∨ ∃ aggr ∈ cd, aggr.DetTagGroupBy = g)
    ∧ ((cd.map (fun aggr => aggr.DetTagGroupBy)).Nodup →
        ∀ aggr ∈ cd, aggr.DetTagGroupBy ∉ st.GroupedData →
          (mergeChildData B aggregate proofs fmt st cd).GroupedData.lookup aggr.DetTagGroupBy
            = some aggr.Fr)
    ∧ (∀ g : GroupingKey, (∀ aggr ∈ cd, aggr.DetTagGroupBy ≠ g) →
        (mergeChildData B aggregate proofs fmt st cd).GroupedData.lookup g
          = st.GroupedData.lookup g) :=
  ⟨fun aggr =>
    ⟨fun g => (mergeAggr_mem B aggregate proofs fmt st aggr g).trans Or.comm,
     fun hnew => mergeAggr_adopt B aggregate proofs fmt st aggr hnew,
     fun g hg => mergeAggr_lookup_ne B aggregate proofs fmt st aggr g hg⟩,
   fun g => mergeChildData_mem B aggregate proofs fmt cd st g,
   fun hnd aggr haggr hnew => mergeChildData_adopt B aggregate proofs fmt cd st hnd aggr haggr hnew,
   fun g hg => mergeChildData_lookup_of_not_mem B aggregate proofs fmt cd st g hg⟩

end AggregationTheorems

/-- The loop of lines 324-326 fills the slots after the first `pre.length`
ones with the elements of `simpleData`, in order. -/
theorem foldl_set_enumFrom {α : Type} (simpleData pre junk : List α)
    (hlen : junk.length = simpleData.length) :
    (simpleData.enumFrom pre.length).foldl (fun acc iv => acc.set iv.1 iv.2) (pre ++ junk)
      = pre ++ simpleData := by
  induction simpleData generalizing pre junk with
  | nil =>
    cases junk with
    | nil => rfl
    | cons j js => simp at hlen
  | cons x xs ih =>
    cases junk with
    | nil => simp at hlen
    | cons j js =>
      simp only [List.enumFrom_cons, List.foldl_cons]
      rw [List.set_append_right _ _ (Nat.le_refl _), Nat.sub_self, List.set_cons_zero]
      have h := ih (pre ++ [x]) js (by simpa using hlen)
      simp only [List.length_append, List.length_singleton, List.append_assoc,
        List.singleton_append] at h
      exact h

/-- The copy of lines 321-326 is `SimpleData` itself, in the same order. -/
theorem copySimpleData_eq {P : Type} (zero : CipherText P) (simpleData : List (CipherText P)) :
    copySimpleData zero simpleData = simpleData := by
  have h := foldl_set_enumFrom simpleData [] (List.replicate simpleData.length zero) (by simp)
  simpa [copySimpleData, List.enum] using h

section CheckDataTheorems

variable {P Pr : Type} [AddCommGroup P]

/-- C8: `checkData` returns an error exactly when GroupedData and SimpleData
are both nil ("no data reference is provided") or both non-nil ("two data
references are given in the struct"); when exactly one is supplied it returns
nil, after which GroupedData is non-nil and SimpleData is nil, and a supplied
GroupedData is left unchanged. -/
theorem checkData_spec (p : CollectiveAggregationProtocol P Pr) :
    ((∃ e, checkData p = .error e)
        ↔ (p.GroupedData = none ∧ p.SimpleData = none)
          ∨ (p.GroupedData ≠ none ∧ p.SimpleData ≠ none))
    ∧ (p.GroupedData = none → p.SimpleData = none →
        checkData p = .error "no data reference is provided")
    ∧ (p.GroupedData ≠ none → p.SimpleData ≠ none →
        checkData p = .error "two data references are given in the struct")
    ∧ ((p.GroupedData = none ↔ p.SimpleData ≠ none) →
        ∃ q, checkData p = .ok q ∧ q.GroupedData ≠ none ∧ q.SimpleData = none
          ∧ (∀ gd, p.GroupedData = some gd → q = p ∧ q.GroupedData = some gd)) := by
  rcases p with ⟨isRoot, isLeaf, gd, sd, proofs, pf⟩
  cases gd <;> cases sd <;> simp [checkData]

/-- C9: when only SimpleData is supplied and it is a non-empty list `L` of
ciphertexts, `checkData` sets GroupedData to (a pointer to) the map with
exactly one bucket, under the key EMPTYKEY (the empty string), whose
AggregatingAttributes is `L` in the same order and whose GroupByEnc is empty;
when `L` is empty, GroupedData becomes the empty map. In both cases SimpleData
becomes nil. -/
theorem checkData_simpleData (p : CollectiveAggregationProtocol P Pr) :
    (∀ (x : CipherText P) (xs : List (CipherText P)),
        checkData { p with GroupedData := none, SimpleData := some (x :: xs) }
          = .ok { p with
              GroupedData := some (some (AList.singleton EMPTYKEY
                ({ GroupByEnc := [], AggregatingAttributes := x :: xs } : FilteredResponse P)))
              SimpleData := none }
        ∧ (AList.singleton EMPTYKEY
              ({ GroupByEnc := [], AggregatingAttributes := x :: xs } : FilteredResponse P) :
              GroupedMap P).entries
            = [⟨"", { GroupByEnc := [], AggregatingAttributes := x :: xs }⟩])
    ∧ checkData { p with GroupedData := none, SimpleData := some [] }
        = .ok { p with GroupedData := some (some ∅), SimpleData := none } := by
  refine ⟨fun x xs => ⟨?_, rfl⟩, ?_⟩
  · simp only [checkData, copySimpleData_eq, List.length_cons, gt_iff_lt, Nat.zero_lt_succ,
      if_true, AList.insert_empty]
  · simp [checkData]

end CheckDataTheorems

section DispatchTheorems

variable {S P Pr : Type} [Field S] [AddCommGroup P] [Module S P]

/-- C10, as stated, fails when the Proofs flag is on: at a root without
children whose grouped map is empty, `Dispatch` with a nil ProofFunc ends in
the panic of calling a nil function and delivers nothing, where with a
ProofFunc supplied it completes and delivers the aggregated map. -/
theorem Dispatch_nil_ProofFunc_panics :
    (Dispatch exampleEnv (exampleInstance none)).outcome = .error Failure.panic
    ∧ (Dispatch exampleEnv (exampleInstance none)).feedback = none
    ∧ (Dispatch exampleEnv (exampleInstance (some (fun _ _ => ())))).outcome = .ok ()
    ∧ (Dispatch exampleEnv (exampleInstance (some (fun _ _ => ())))).feedback = some ∅ :=
  ⟨rfl, rfl, rfl, rfl⟩

/-- C10 (amended): with the Proofs flag off, the absence of the proof function
is a no-op: whatever the messages that the children deliver, `Dispatch` sends
the same messages, puts the same map on the feedback channel, returns no proof
and ends the same way (with the same error or the same panic, if any) whether
ProofFunc is nil or supplied. -/
theorem Dispatch_no_ProofFunc (env : Env S P) (p : CollectiveAggregationProtocol P Pr)
    (f : List (CipherVector P) → CipherVector P → Pr) :
    Dispatch env ({ p with Proofs := false, ProofFunc := none } :
        CollectiveAggregationProtocol P Pr)
      = Dispatch env { p with Proofs := false, ProofFunc := some f } := by
  rcases p with ⟨isRoot, isLeaf, gd, sd, proofs, pf⟩
  cases gd <;> cases sd <;> simp [Dispatch, checkData]

/-- With the Proofs flag off `Dispatch` can still end in a panic, with or
without a proof function: at a root whose `GroupedData` points to the nil map
the store of line 258 panics on the bucket of a child; lengths that make a
negative element length make `FromBytes` call `make` with a negative count;
and a length message without its data message makes `datas[i]` read past the
end. The same message merged into an empty map is delivered. -/
theorem Dispatch_panics_with_Proofs_off :
    (Dispatch { exampleEnv with lengthMessages := [(0, 1, 1)], dataMessages := [[1, 2, 97]] }
        exampleNilMapRoot).outcome = .error Failure.panic
    ∧ (Dispatch { exampleEnv with lengthMessages := [(0, 1, 1)], dataMessages := [[1, 2, 97]] }
        exampleEmptyRoot).outcome = .ok ()
    ∧ ((Dispatch { exampleEnv with lengthMessages := [(0, 1, 1)], dataMessages := [[1, 2, 97]] }
        exampleEmptyRoot).feedback.map (fun m => m.entries))
        = some [⟨"a", exampleElementA.Fr⟩]
    ∧ (Dispatch
        { exampleEnv with lengthMessages := [(2 ^ 62, 2 ^ 62, -3)], dataMessages := [[1, 2, 97]] }
        exampleEmptyRoot).outcome = .error Failure.panic
    ∧ (Dispatch { exampleEnv with lengthMessages := [(0, 1, 1)], dataMessages := [] }
        exampleEmptyRoot).outcome = .error Failure.panic :=
  ⟨rfl, rfl, rfl, rfl, rfl⟩

end DispatchTheorems


section TagOrderTheorems

variable {S P : Type} [Field S] [AddCommGroup P] [Module S P]

/-- The chain only depends on how many nodes there are and on the sum of their
keys. -/
theorem tagChain_eq_of_length_sum (keys keys' : List S) (s : S) (ct : CipherText P)
    (hlen : keys.length = keys'.length) (hsum : keys.sum = keys'.sum) :
    tagChain keys s ct = tagChain keys' s ct := by
  obtain ⟨K, C⟩ := ct
  rw [tagChain_closed, tagChain_closed, hlen, hsum]

/-- C20, as stated, fails: over the integers modulo 11, with session secret
`3`, the two nodes with keys `2` and `5` give the ciphertext `(4, 9)` the same
final tag point whether the node with key `2` or the one with key `5` goes
first. -/
theorem tagChain_swapped_order_same_tag :
    ([2, 5] : List (ZMod 11)) ≠ [5, 2]
    ∧ (tagChain ([2, 5] : List (ZMod 11)) (3 : ZMod 11) (CipherText.mk (4 : ZMod 11) 9)).C
        = (tagChain ([5, 2] : List (ZMod 11)) (3 : ZMod 11) (CipherText.mk (4 : ZMod 11) 9)).C := by
  decide

/-- C20 (amended): the order of the nodes does not change the tag: applying
the nodes' `DeterministicTag` steps, all with the same session secret, in any
other order yields the same final ciphertext, hence the same tag point. -/
theorem tagChain_perm (keys keys' : List S) (s : S) (ct : CipherText P)
    (hperm : keys.Perm keys') :
    tagChain keys s ct = tagChain keys' s ct
    ∧ (tagChain keys s ct).C = (tagChain keys' s ct).C := by
  have h := tagChain_eq_of_length_sum keys keys' s ct hperm.length_eq hperm.sum_eq
  exact ⟨h, by rw [h]⟩

/-- Witness of C20 (amended): three nodes in the agreed order and in another
order. -/
theorem tagChain_perm_witness :
    ([2, 5, 7] : List (ZMod 11)).Perm [7, 2, 5]
    ∧ tagChain ([2, 5, 7] : List (ZMod 11)) (3 : ZMod 11) (CipherText.mk (4 : ZMod 11) 9)
        = tagChain ([7, 2, 5] : List (ZMod 11)) (3 : ZMod 11) (CipherText.mk (4 : ZMod 11) 9) :=
  ⟨by decide,
    (tagChain_perm ([2, 5, 7] : List (ZMod 11)) [7, 2, 5] (3 : ZMod 11)
      (CipherText.mk (4 : ZMod 11) 9) (by decide)).1⟩

end TagOrderTheorems

section ShuffleTheorems

variable {S P : Type} [Field S] [AddCommGroup P] [Module S P]

/-- The conjunction of a list of results, from any start. -/
theorem foldl_and_eq_true (rs : List Bool) (b : Bool) :
    rs.foldl (fun finalResult v => finalResult && v) b = true
      ↔ b = true ∧ ∀ r ∈ rs, r = true := by
  induction rs generalizing b with
  | nil => simp
  | cons r rs ih => simp [ih, and_assoc]

/-- The verifications all ran and all returned true. -/
theorem collectResults_all_true (os : List (Option Bool)) :
    (collectResults os).map (fun rs => rs.foldl (fun finalResult v => finalResult && v) true)
        = some true
      ↔ ∀ o ∈ os, o = some true := by
  induction os with
  | nil => simp [collectResults]
  | cons o os ih =>
    cases o with
    | none => simp [collectResults]
    | some b =>
      cases hc : collectResults os with
      | none =>
        rw [hc] at ih
        simp only [collectResults, hc, Option.map_none', List.mem_cons, forall_eq_or_imp]
        constructor
        · intro h
          simp at h
        · intro h
          exact ih.2 h.2
      | some bs =>
        rw [hc] at ih
        simp only [Option.map_some', Option.some.injEq] at ih
        simp only [collectResults, hc, Option.map_some', Option.some.injEq, List.foldl_cons,
          Bool.true_and, List.mem_cons, forall_eq_or_imp]
        rw [foldl_and_eq_true, ← ih, foldl_and_eq_true]
        simp

theorem bitLength_le (fuel n : Nat) (hn : n ≠ 0) (hfuel : n ≤ fuel) :
    2 ^ (bitLength fuel n - 1) ≤ n := by
  induction fuel generalizing n with
  | zero => omega
  | succ fuel ih =>
    rw [bitLength, if_neg hn]
    by_cases h2 : n / 2 = 0
    · cases fuel with
      | zero => simp [bitLength]; omega
      | succ fuel => simp [bitLength, h2]; omega
    · have := ih (n / 2) h2 (by omega)
      have hb : bitLength fuel (n / 2) ≠ 0 := by
        cases fuel with
        | zero => omega
        | succ fuel => simp [bitLength, h2]
      have hpow : 2 ^ (bitLength fuel (n / 2) + 1 - 1) = 2 * 2 ^ (bitLength fuel (n / 2) - 1) := by
        rw [Nat.add_sub_cancel, ← pow_succ']
        congr 1
        omega
      rw [hpow]
      omega

theorem roundHalfEven_le (num den K : Nat) (hden : 0 < den) (h : num ≤ K * den) :
    roundHalfEven num den ≤ K := by
  have hf : num / den ≤ K := Nat.div_le_of_le_mul (by rwa [Nat.mul_comm] at h)
  unfold roundHalfEven
  rcases Nat.lt_or_eq_of_le hf with hlt | heq
  · simp only
    split_ifs <;> omega
  · have hnum : num = K * den := by
      have h1 : den * (num / den) ≤ num := Nat.mul_div_le num den
      rw [heq, Nat.mul_comm] at h1
      omega
    have hr : num % den = 0 := by rw [hnum]; exact Nat.mul_mod_left K den
    simp only [hr, Nat.mul_zero, hden, if_true, heq]
    exact le_refl K

theorem roundHalfEven_exact (K den : Nat) (hden : 0 < den) :
    roundHalfEven (K * den) den = K := by
  unfold roundHalfEven
  simp [Nat.mul_mod_left, Nat.mul_div_cancel _ hden, hden]


/-- The rounding to `float64` of a number between 0 and a natural number below
`2^53` stays between them, and a natural number below `2^53` is rounded to
itself. -/
theorem Float64_round_le (m e : Int) (N : Nat) (hm : 0 ≤ m) (hN : N < 2 ^ 53)
    (hv : (m : ℚ) * (2 : ℚ) ^ e ≤ (N : ℚ)) :
    0 ≤ (Float64.round m e).toRat ∧ (Float64.round m e).toRat ≤ (N : ℚ)
      ∧ ((m : ℚ) * (2 : ℚ) ^ e = (N : ℚ) → (Float64.round m e).toRat = (N : ℚ)) := by
  have h2pos : ∀ k : Int, (0 : ℚ) < (2 : ℚ) ^ k := fun k => zpow_pos (by norm_num) k
  have hmq : (0 : ℚ) ≤ (m : ℚ) := by exact_mod_cast hm
  unfold Float64.round
  simp only
  split_ifs with hz
  · exact ⟨mul_nonneg hmq (h2pos e).le, hv, fun h => h⟩
  · -- the number has digits below the last one kept
    obtain ⟨a, rfl⟩ := Int.eq_ofNat_of_zero_le hm
    simp only [Int.natAbs_ofNat] at hz ⊢
    rcases Nat.eq_zero_or_pos a with ha | ha
    · subst ha
      simp [Float64.toRat, roundHalfEven]
    · have hsign : (a : Int).sign = 1 := Int.sign_eq_one_of_pos (by exact_mod_cast ha)
      set z : Int := max (e + (bitLength a a : Int) - 53) (-1074) with hzdef
      have hez : e < z := not_le.mp hz
      -- the last digit kept is not above the units
      have hbits : (2 : ℚ) ^ ((bitLength a a : Int) - 1 + e) ≤ (N : ℚ) := by
        have h1 : ((2 ^ (bitLength a a - 1) : Nat) : ℚ) ≤ (a : ℚ) := by
          exact_mod_cast bitLength_le a a (by omega) (le_refl a)
        have hb1 : 1 ≤ bitLength a a := by
          cases a with
          | zero => omega
          | succ a => simp [bitLength]
        have h3 : (2 : ℚ) ^ ((bitLength a a : Int) - 1 + e)
            = ((2 ^ (bitLength a a - 1) : Nat) : ℚ) * (2 : ℚ) ^ e := by
          rw [zpow_add₀ (by norm_num : (2 : ℚ) ≠ 0)]
          congr 1
          rw [Nat.cast_pow, ← zpow_natCast]
          congr 1
          omega
        rw [h3]
        calc ((2 ^ (bitLength a a - 1) : Nat) : ℚ) * (2 : ℚ) ^ e
            ≤ (a : ℚ) * (2 : ℚ) ^ e := mul_le_mul_of_nonneg_right h1 (h2pos e).le
          _ ≤ (N : ℚ) := by exact_mod_cast hv
      have hlt53 : (bitLength a a : Int) - 1 + e < 53 := by
        by_contra hcon
        have h53 : (53 : Int) ≤ (bitLength a a : Int) - 1 + e := not_lt.mp hcon
        have : (2 : ℚ) ^ (53 : Int) ≤ (2 : ℚ) ^ ((bitLength a a : Int) - 1 + e) :=
          zpow_le_zpow_right₀ (by norm_num) h53
        have hN' : (N : ℚ) < (2 : ℚ) ^ (53 : Int) := by
          have h' : ((N : Nat) : ℚ) < ((2 ^ 53 : Nat) : ℚ) := by exact_mod_cast hN
          rw [Nat.cast_pow] at h'
          exact_mod_cast h'
        linarith
      have hz0 : z ≤ 0 := by
        rw [hzdef]
        exact max_le (by omega) (by norm_num)
      -- both exponents as natural numbers
      obtain ⟨s, hs⟩ : ∃ s : Nat, z - e = (s : Int) := ⟨(z - e).toNat, by omega⟩
      obtain ⟨t, ht⟩ : ∃ t : Nat, -z = (t : Int) := ⟨(-z).toNat, by omega⟩
      have hstoNat : (z - e).toNat = s := by omega
      have he : e = -((t + s : Nat) : Int) := by push_cast; omega
      have hzt : z = -(t : Int) := by omega
      have hden : 0 < 2 ^ s := Nat.pos_pow_of_pos s (by norm_num)
      have hKle : a ≤ (N * 2 ^ t) * 2 ^ s := by
        have h1 : (a : ℚ) * (2 : ℚ) ^ e ≤ (N : ℚ) := by exact_mod_cast hv
        rw [he, zpow_neg, zpow_natCast, ← div_eq_mul_inv,
          div_le_iff₀ (by positivity)] at h1
        have h2 : (a : ℚ) ≤ (((N * 2 ^ t) * 2 ^ s : Nat) : ℚ) := by
          push_cast
          rw [pow_add] at h1
          linarith
        exact_mod_cast h2
      have hround := roundHalfEven_le a (2 ^ s) (N * 2 ^ t) hden hKle
      simp only [Float64.toRat, hsign, one_mul, hstoNat]
      have hval : ∀ r : Nat, ((r : Int) : ℚ) * (2 : ℚ) ^ z = (r : ℚ) / (2 : ℚ) ^ t := by
        intro r
        rw [hzt, zpow_neg, zpow_natCast, div_eq_mul_inv]
        norm_cast
      rw [hval]
      refine ⟨by positivity, ?_, ?_⟩
      · rw [div_le_iff₀ (by positivity)]
        exact_mod_cast hround
      · intro heq
        have h1 : (a : ℚ) * (2 : ℚ) ^ e = (N : ℚ) := by exact_mod_cast heq
        rw [he, zpow_neg, zpow_natCast, ← div_eq_mul_inv,
          div_eq_iff (by positivity)] at h1
        have h2 : a = (N * 2 ^ t) * 2 ^ s := by
          have : (a : ℚ) = (((N * 2 ^ t) * 2 ^ s : Nat) : ℚ) := by
            push_cast
            rw [pow_add] at h1
            linarith
          exact_mod_cast this
        rw [h2, roundHalfEven_exact _ _ hden, div_eq_iff (by positivity)]
        push_cast
        ring

/-- The conversion `int(math.Ceil(x))` is the ceiling of the number `x`. -/
theorem Float64_ceil_eq (x : Float64) : Float64.ceil x = Int.ceil x.toRat := by
  unfold Float64.ceil Float64.toRat
  split_ifs with h
  · obtain ⟨k, hk⟩ := Int.eq_ofNat_of_zero_le h
    rw [hk, Int.toNat_ofNat, zpow_natCast]
    have : (x.mant : ℚ) * (2 : ℚ) ^ k = ((x.mant * 2 ^ k : Int) : ℚ) := by push_cast; ring
    rw [this, Int.ceil_intCast]
  · obtain ⟨k, hk⟩ : ∃ k : Nat, x.exp = -(k : Int) := ⟨(-x.exp).toNat, by omega⟩
    have hk' : (-x.exp).toNat = k := by omega
    rw [hk', hk, zpow_neg, zpow_natCast, ← div_eq_mul_inv]
    have hfloor : Int.floor (((-x.mant : Int) : ℚ) / ((2 ^ k : Nat) : ℚ))
        = (-x.mant) / ((2 ^ k : Nat) : Int) := Rat.floor_intCast_div_natCast _ _
    have hneg : (x.mant : ℚ) / (2 : ℚ) ^ k = -(((-x.mant : Int) : ℚ) / ((2 ^ k : Nat) : ℚ)) := by
      push_cast
      ring
    rw [hneg, Int.ceil_neg, hfloor]
    push_cast
    rfl

/-- The number of proofs to verify, for a fraction between 0 and 1 and a list
of fewer than `2^53` proofs: it lies between 0 and the number of proofs, and
for the fraction 1 it is the number of proofs. -/
theorem nbrProofsToVerify_bounds (n : Nat) (percent : Float64) (h0 : 0 ≤ percent.toRat)
    (h1 : percent.toRat ≤ 1) (hn : n < 2 ^ 53) :
    0 ≤ (Float64.mul percent (Float64.ofInt (n : Int))).toRat
    ∧ (Float64.mul percent (Float64.ofInt (n : Int))).toRat ≤ (n : ℚ)
    ∧ (percent.toRat = 1 → (Float64.mul percent (Float64.ofInt (n : Int))).toRat = (n : ℚ)) := by
  have h2pos : ∀ k : Int, (0 : ℚ) < (2 : ℚ) ^ k := fun k => zpow_pos (by norm_num) k
  have hof : Float64.ofInt (n : Int) = { mant := (n : Int), exp := 0 } := by
    have h := (Float64_round_le (n : Int) 0 n (Int.ofNat_nonneg n) hn (by simp)).2.2 (by simp)
    unfold Float64.ofInt Float64.round at h ⊢
    simp only at h ⊢
    split_ifs with hz
    · rfl
    · exfalso
      rw [if_neg hz] at h
      simp only [Int.natAbs_ofNat] at hz h
      rcases Nat.eq_zero_or_pos n with hn0 | hn0
      · subst hn0
        simp [bitLength] at hz
      · have hbits := bitLength_le n n (by omega) (le_refl n)
        have hlt : 2 ^ (bitLength n n - 1) < 2 ^ 53 := lt_of_le_of_lt hbits hn
        have := (Nat.pow_lt_pow_iff_right (by norm_num : 1 < 2)).mp hlt
        omega
  have hmant : 0 ≤ percent.mant := by
    by_contra hneg
    have hlt : (percent.mant : ℚ) < 0 := by exact_mod_cast not_le.mp hneg
    have : percent.toRat < 0 := mul_neg_of_neg_of_pos hlt (h2pos _)
    linarith
  have hprod : ((percent.mant * (n : Int) : Int) : ℚ) * (2 : ℚ) ^ (percent.exp + 0)
      = percent.toRat * (n : ℚ) := by
    simp only [Float64.toRat, add_zero]
    push_cast
    ring
  have hle : ((percent.mant * (n : Int) : Int) : ℚ) * (2 : ℚ) ^ (percent.exp + 0) ≤ (n : ℚ) := by
    rw [hprod]
    calc percent.toRat * (n : ℚ) ≤ 1 * (n : ℚ) :=
          mul_le_mul_of_nonneg_right h1 (Nat.cast_nonneg n)
      _ = (n : ℚ) := one_mul _
  have h := Float64_round_le (percent.mant * (n : Int)) (percent.exp + 0) n
    (mul_nonneg hmant (Int.ofNat_nonneg n)) hn hle
  unfold Float64.mul
  rw [hof]
  refine ⟨h.1, h.2.1, fun hone => h.2.2 ?_⟩
  rw [hprod, hone, one_mul]

/-- C11 (amended): for every list of `n < 2^53` shuffle proofs and every
`float64` fraction `percent` with `0 ≤ percent ≤ 1`,
`ShuffleListProofVerification` runs `ShuffleProofVerification` on exactly the
first `k` proofs of the list, where `k` is the ceiling of the `float64` product
of `percent` and `n` and is not above `n`, and returns true if and only if it
returns true for every one of them; with `percent = 1` it returns true if and
only if every proof of the list verifies. -/
theorem ShuffleListProofVerification_spec (env : ShuffleEnv S P)
    (listProofs : PublishedShufflingListProof P) (seed : P) (percent : Float64)
    (h0 : 0 ≤ percent.toRat) (h1 : percent.toRat ≤ 1)
    (hn : listProofs.Pslp.length < 2 ^ 53) :
    Nat.ceil (Float64.mul percent (Float64.ofInt (listProofs.Pslp.length : Int))).toRat
        ≤ listProofs.Pslp.length
    ∧ ShuffleListProofVerification env listProofs seed percent
        = (collectResults
            ((listProofs.Pslp.take
                (Nat.ceil (Float64.mul percent
                  (Float64.ofInt (listProofs.Pslp.length : Int))).toRat)).map
              (fun v => ShuffleProofVerification env v seed))).map
            (fun rs => rs.foldl (fun finalResult v => finalResult && v) true)
    ∧ (ShuffleListProofVerification env listProofs seed percent = some true
        ↔ ∀ v ∈ listProofs.Pslp.take
              (Nat.ceil (Float64.mul percent
                (Float64.ofInt (listProofs.Pslp.length : Int))).toRat),
            ShuffleProofVerification env v seed = some true)
    ∧ (percent.toRat = 1 →
        (ShuffleListProofVerification env listProofs seed percent = some true
          ↔ ∀ v ∈ listProofs.Pslp, ShuffleProofVerification env v seed = some true)) := by
  obtain ⟨hb0, hbn, hb1⟩ := nbrProofsToVerify_bounds listProofs.Pslp.length percent h0 h1 hn
  have hceil0 : 0 ≤ Int.ceil
      (Float64.mul percent (Float64.ofInt (listProofs.Pslp.length : Int))).toRat :=
    Int.ceil_nonneg hb0
  have hceiln : Int.ceil
      (Float64.mul percent (Float64.ofInt (listProofs.Pslp.length : Int))).toRat
      ≤ (listProofs.Pslp.length : Int) := by
    rw [Int.ceil_le]
    exact_mod_cast hbn
  have hnat : (Int.ceil
      (Float64.mul percent (Float64.ofInt (listProofs.Pslp.length : Int))).toRat).toNat
      = Nat.ceil (Float64.mul percent (Float64.ofInt (listProofs.Pslp.length : Int))).toRat :=
    rfl
  have hk : Nat.ceil
      (Float64.mul percent (Float64.ofInt (listProofs.Pslp.length : Int))).toRat
      ≤ listProofs.Pslp.length := by
    rw [← hnat]
    omega
  have hgen : ShuffleListProofVerification env listProofs seed percent
      = (collectResults
          ((listProofs.Pslp.take
              (Nat.ceil (Float64.mul percent
                (Float64.ofInt (listProofs.Pslp.length : Int))).toRat)).map
            (fun v => ShuffleProofVerification env v seed))).map
          (fun rs => rs.foldl (fun finalResult v => finalResult && v) true) := by
    rw [← hnat]
    simp only [ShuffleListProofVerification, Float64_ceil_eq]
    rw [if_neg (by omega), if_neg (by omega)]
  have hiff : ShuffleListProofVerification env listProofs seed percent = some true
      ↔ ∀ v ∈ listProofs.Pslp.take
            (Nat.ceil (Float64.mul percent
              (Float64.ofInt (listProofs.Pslp.length : Int))).toRat),
          ShuffleProofVerification env v seed = some true := by
    rw [hgen, collectResults_all_true]
    constructor
    · intro h v hv
      exact h _ (List.mem_map_of_mem _ hv)
    · intro h o ho
      obtain ⟨v, hv, rfl⟩ := List.mem_map.1 ho
      exact h v hv
  refine ⟨hk, hgen, hiff, ?_⟩
  intro hone
  rw [hiff, hb1 hone, Nat.ceil_natCast, List.take_length]

/-- A compression of vectors that all have the length of the challenge vector
does not panic. -/
theorem compressListCipherVector_isSome (l : List (CipherVector P)) (e : List S)
    (hsize : ∀ cv ∈ l, cv.length = e.length) :
    ∃ xy, compressListCipherVector l e = some xy := by
  induction l with
  | nil => exact ⟨([], []), rfl⟩
  | cons v rest ih =>
    obtain ⟨⟨xK, xC⟩, hxy⟩ := ih (fun cv hcv => hsize cv (List.mem_cons_of_mem v hcv))
    have hv : e.length = v.length := (hsize v (List.mem_cons_self v rest)).symm
    cases hc : compressCipherVector v e with
    | none => simp [compressCipherVector, hv] at hc
    | some tmp => exact ⟨(tmp.K :: xK, tmp.C :: xC), by simp only [compressListCipherVector, hc, hxy]⟩

/-- C12, as stated, fails: a published proof whose original list is empty
makes `ShuffleProofVerification` panic on `psp.OriginalList[0]`, and one whose
vectors do not all have the length of the challenge vector makes it panic in
`compressCipherVector` ("e is not the right size!"), whatever the transcript:
no boolean is returned. -/
theorem ShuffleProofVerification_panics :
    ShuffleProofVerification exampleShuffleEnv exampleEmptyProof (3 : ZMod 11) = none
    ∧ ShuffleProofVerification exampleShuffleEnv exampleRaggedProof (3 : ZMod 11) = none := by
  decide

/-- C12 (amended): for every published shuffle proof whose original list is
not empty and whose vectors, original and shuffled, all have the length of the
challenge vector, and every seed, `ShuffleProofVerification` returns a boolean
and does not abort: the two compressions succeed and the result is false when
the check of the transcript HashProof against the compressed lists fails and
true exactly when that check succeeds. -/
theorem ShuffleProofVerification_spec (env : ShuffleEnv S P) (psp : PublishedShufflingProof P)
    (seed : P) (first : CipherVector P) (rest : List (CipherVector P))
    (horig : psp.OriginalList = first :: rest)
    (hsize : ∀ cv ∈ psp.OriginalList ++ psp.ShuffledList,
      cv.length = (env.CipherVectorTag first seed).length) :
    ∃ x y xbar ybar : List P,
      compressListCipherVector psp.OriginalList (env.CipherVectorTag first seed) = some (x, y)
      ∧ compressListCipherVector psp.ShuffledList (env.CipherVectorTag first seed)
          = some (xbar, ybar)
      ∧ ShuffleProofVerification env psp seed
          = some (env.HashVerify psp.G psp.H x y xbar ybar psp.HashProof)
      ∧ (ShuffleProofVerification env psp seed = some true
          ↔ env.HashVerify psp.G psp.H x y xbar ybar psp.HashProof = true)
      ∧ (ShuffleProofVerification env psp seed = some false
          ↔ env.HashVerify psp.G psp.H x y xbar ybar psp.HashProof = false) := by
  obtain ⟨⟨x, y⟩, hxy⟩ := compressListCipherVector_isSome psp.OriginalList
    (env.CipherVectorTag first seed) (fun cv hcv => hsize cv (List.mem_append_left _ hcv))
  obtain ⟨⟨xbar, ybar⟩, hbar⟩ := compressListCipherVector_isSome psp.ShuffledList
    (env.CipherVectorTag first seed) (fun cv hcv => hsize cv (List.mem_append_right _ hcv))
  have hres : ShuffleProofVerification env psp seed
      = some (env.HashVerify psp.G psp.H x y xbar ybar psp.HashProof) := by
    unfold ShuffleProofVerification
    rw [horig] at hxy ⊢
    simp only [hxy, hbar]
  refine ⟨x, y, xbar, ybar, hxy, hbar, hres, ?_, ?_⟩ <;> rw [hres] <;> simp

/-- Witness of C12 (amended): a published proof of two vectors of two
columns. -/
theorem ShuffleProofVerification_spec_witness :
    exampleProof.OriginalList
        = [CipherText.mk 1 2, CipherText.mk 3 4] :: [[CipherText.mk 5 6, CipherText.mk 7 8]]
    ∧ (∀ cv ∈ exampleProof.OriginalList ++ exampleProof.ShuffledList,
        cv.length
          = (exampleShuffleEnv.CipherVectorTag [CipherText.mk 1 2, CipherText.mk 3 4]
              (3 : ZMod 11)).length)
    ∧ ShuffleProofVerification exampleShuffleEnv exampleProof (3 : ZMod 11) = some true :=
  ⟨rfl, by decide,
    (ShuffleProofVerification_spec exampleShuffleEnv exampleProof (3 : ZMod 11)
      [CipherText.mk 1 2, CipherText.mk 3 4] [[CipherText.mk 5 6, CipherText.mk 7 8]]
      rfl (by decide)).elim
      (fun _ h => h.elim (fun _ h => h.elim (fun _ h => h.elim
        (fun _ h => h.2.2.1.trans (by rfl)))))⟩

/-- C11, as stated, fails where the `float64` product is rounded down to a
whole number: for `percent` the `float64` nearest to one tenth and a list of
ten proofs, `⌈percent·n⌉` is 2, but the product is rounded to 1 and only the
first proof is verified; the call returns true although the second proof of
the list does not verify. -/
theorem ShuffleListProofVerification_rounds_down :
    0 ≤ exampleTenth.toRat ∧ exampleTenth.toRat ≤ 1
    ∧ Nat.ceil (exampleTenth.toRat * ((10 : Nat) : ℚ)) = 2
    ∧ ShuffleListProofVerification exampleCheckingShuffleEnv
        { Pslp := [exampleProof, exampleRejectedProof, exampleProof, exampleProof,
            exampleProof, exampleProof, exampleProof, exampleProof, exampleProof,
            exampleProof] } (3 : ZMod 11) exampleTenth = some true
    ∧ ShuffleProofVerification exampleCheckingShuffleEnv exampleRejectedProof (3 : ZMod 11)
        = some false := by
  refine ⟨by norm_num [Float64.toRat, exampleTenth], by norm_num [Float64.toRat, exampleTenth],
    ?_, by decide, by decide⟩
  rw [Nat.ceil_eq_iff (by norm_num)]
  norm_num [Float64.toRat, exampleTenth]

/-- Witness of C11: three proofs and the `float64` nearest to two thirds; the
product is rounded to 2 and the first two proofs are verified. -/
theorem ShuffleListProofVerification_spec_witness :
    0 ≤ exampleTwoThirds.toRat ∧ exampleTwoThirds.toRat ≤ 1
    ∧ ([exampleProof, exampleProof, exampleEmptyProof] :
        List (PublishedShufflingProof (ZMod 11))).length < 2 ^ 53
    ∧ Float64.mul exampleTwoThirds (Float64.ofInt 3) = { mant := 9007199254740992, exp := -52 }
    ∧ (ShuffleListProofVerification exampleShuffleEnv
          { Pslp := [exampleProof, exampleProof, exampleEmptyProof] } (3 : ZMod 11)
          exampleTwoThirds = some true
        ↔ ∀ v ∈ ([exampleProof, exampleProof, exampleEmptyProof] :
              List (PublishedShufflingProof (ZMod 11))).take
              (Nat.ceil (Float64.mul exampleTwoThirds
                (Float64.ofInt (([exampleProof, exampleProof, exampleEmptyProof] :
                  List (PublishedShufflingProof (ZMod 11))).length : Int))).toRat),
            ShuffleProofVerification exampleShuffleEnv v (3 : ZMod 11) = some true) :=
  ⟨by norm_num [Float64.toRat, exampleTwoThirds], by norm_num [Float64.toRat, exampleTwoThirds],
    by norm_num, by decide,
    (ShuffleListProofVerification_spec exampleShuffleEnv
      { Pslp := [exampleProof, exampleProof, exampleEmptyProof] } (3 : ZMod 11) exampleTwoThirds
      (by norm_num [Float64.toRat, exampleTwoThirds])
      (by norm_num [Float64.toRat, exampleTwoThirds]) (by norm_num)).2.2.1⟩

end ShuffleTheorems


section WireTheorems

variable {P : Type}

/-- The slices of the concatenation of `n` blocks of `el` bytes are the
blocks. -/
theorem elementSlices_flatten (el : Nat) (bs : List Bytes) (hbs : ∀ b ∈ bs, b.length = el) :
    elementSlices bs.flatten el bs.length = bs := by
  induction bs with
  | nil => rfl
  | cons b rest ih =>
    have hb : b.length = el := hbs b (List.mem_cons_self b rest)
    have hrest := ih (fun c hc => hbs c (List.mem_cons_of_mem b hc))
    simp only [elementSlices] at hrest ⊢
    rw [List.length_cons, List.range_succ_eq_map, List.map_cons, List.map_map, List.flatten_cons]
    congr 1
    · simp only [Nat.zero_mul, List.drop_zero]
      exact List.take_left' hb
    · have hshift :
          List.map ((fun i => List.take el (List.drop (i * el) (b ++ rest.flatten))) ∘ Nat.succ)
              (List.range rest.length)
            = List.map (fun i => List.take el (List.drop (i * el) rest.flatten))
                (List.range rest.length) := by
        apply List.map_congr_left
        intro i _
        have hmul : Nat.succ i * el = b.length + i * el := by
          rw [Nat.succ_mul, hb, Nat.add_comm]
        simp only [Function.comp_apply]
        rw [hmul, List.drop_append]
      rw [hshift, hrest]

/-- The length of the concatenation of blocks of `el` bytes. -/
theorem length_flatten_blocks (el : Nat) (bs : List Bytes) (hbs : ∀ b ∈ bs, b.length = el) :
    bs.flatten.length = bs.length * el := by
  induction bs with
  | nil => simp
  | cons b rest ih =>
    rw [List.flatten_cons, List.length_append, hbs b (List.mem_cons_self b rest),
      ih (fun c hc => hbs c (List.mem_cons_of_mem b hc)), List.length_cons, Nat.succ_mul,
      Nat.add_comm]

/-- Bytes after the last whole element do not change the slices. -/
theorem elementSlices_append (data extra : Bytes) (el n : Nat) (hn : n * el ≤ data.length) :
    elementSlices (data ++ extra) el n = elementSlices data el n := by
  unfold elementSlices
  apply List.map_congr_left
  intro i hi
  have hi2 : i < n := List.mem_range.1 hi
  have h1 : (i + 1) * el ≤ n * el := Nat.mul_le_mul_right el hi2
  have h2 : i * el + el ≤ data.length := by rw [← Nat.succ_mul]; exact Nat.le_trans h1 hn
  rw [List.drop_append_of_le_length (by omega),
    List.take_append_of_le_length (by rw [List.length_drop]; omega)]

/-- Go's integer division on the byte count. -/
theorem tdiv_length (n r el : Nat) (hel : 0 < el) (hr : r < el) :
    Int.tdiv ((n * el + r : Nat) : Int) (el : Int) = (n : Int) := by
  rw [← Int.ofNat_tdiv]
  congr 1
  rw [Nat.add_comm, Nat.add_mul_div_right _ _ hel, Nat.div_eq_of_lt hr, Nat.zero_add]

/-- Within the range of Go's `int` the arithmetic is exact. -/
theorem goInt_of_fits (x : Int) (h0 : -2 ^ 63 ≤ x) (h1 : x < 2 ^ 63) : goInt x = x := by
  unfold goInt
  omega

/-- Go's integer division of a byte count by a negative element length whose
absolute value is above the count. -/
theorem tdiv_neg_small (len : Nat) (el : Int) (hel : el < 0) (h : (len : Int) < -el) :
    Int.tdiv (len : Int) el = 0 := by
  have h1 : Int.tdiv (len : Int) el = -(Int.tdiv (len : Int) (-el)) := by
    rw [Int.tdiv_neg]; simp
  rw [h1, Int.tdiv_eq_ediv (by omega) (by omega), Int.ediv_eq_zero_of_lt (by omega) h]
  rfl

/-- Go's integer division of a byte count by a negative element length whose
absolute value is not above the count. -/
theorem tdiv_neg_large (len : Nat) (el : Int) (hel : el < 0) (h : -el ≤ (len : Int)) :
    Int.tdiv (len : Int) el < 0 := by
  have h1 : Int.tdiv (len : Int) el = -(Int.tdiv (len : Int) (-el)) := by
    rw [Int.tdiv_neg]; simp
  rw [h1, Int.tdiv_eq_ediv (by omega) (by omega)]
  have h2 : (1 : Int) ≤ (len : Int) / (-el) :=
    Int.le_ediv_of_mul_le (by omega) (by omega)
  omega

/-- An error of the collected results is the error of one of the calls. -/
theorem collectErrors_error {α β : Type} (f : α → Except String β) (l : List α) (e : String)
    (h : collectErrors (l.map f) = .error e) : ∃ v, f v = .error e := by
  induction l with
  | nil => simp [collectErrors] at h
  | cons x rest ih =>
    cases hx : f x with
    | error e' =>
      simp only [List.map_cons, hx, collectErrors, Except.error.injEq] at h
      exact ⟨x, by rw [hx, h]⟩
    | ok y =>
      cases hrest : collectErrors (rest.map f) with
      | error e' =>
        simp only [List.map_cons, hx, collectErrors, hrest, Except.error.injEq] at h
        exact ih (by rw [hrest, h])
      | ok ys => simp [List.map_cons, hx, collectErrors, hrest] at h

/-- The conversions of the elements of a message whose elements all convert,
with the same three lengths, to bytes that convert back. -/
theorem childData_encodings (w : WireEnv P) (cd : List (FilteredResponseDet P))
    (g a d : Int)
    (henc : ∀ x ∈ cd, ∃ b : Bytes, w.ToBytes x = .ok (b, g, a, d)
      ∧ (b.length : Int) = g * w.CipherTextByteSize + a * w.CipherTextByteSize + d
      ∧ w.FromBytes b g a d = .ok x) :
    ∃ bb : List (Bytes × Int × Int × Int),
      collectErrors (cd.map w.ToBytes) = .ok bb
      ∧ bb.length = cd.length
      ∧ (∀ aux ∈ bb, aux.2 = (g, a, d))
      ∧ (∀ b ∈ bb.map (fun aux => aux.1),
          b.length = (g * w.CipherTextByteSize + a * w.CipherTextByteSize + d).toNat)
      ∧ collectErrors ((bb.map (fun aux => aux.1)).map (fun v => w.FromBytes v g a d))
          = .ok cd := by
  induction cd with
  | nil => exact ⟨[], rfl, rfl, by simp, by simp, rfl⟩
  | cons x rest ih =>
    obtain ⟨bb, h1, h2, h3, h4, h5⟩ := ih (fun y hy => henc y (List.mem_cons_of_mem x hy))
    obtain ⟨b, hb1, hb2, hb3⟩ := henc x (List.mem_cons_self x rest)
    refine ⟨(b, g, a, d) :: bb, ?_, ?_, ?_, ?_, ?_⟩
    · simp only [List.map_cons, collectErrors, hb1, h1]
    · simp [h2]
    · intro aux haux
      rcases List.mem_cons.1 haux with rfl | h
      · rfl
      · exact h3 aux h
    · intro c hc
      simp only [List.map_cons, List.mem_cons] at hc
      rcases hc with rfl | h
      · omega
      · exact h4 c h
    · simp only [List.map_cons, collectErrors, hb3, h5]

/-- C14, as stated, fails: over the example wire format, a message whose two
elements do not have the same number of attributes is not read back from its
own bytes and lengths (the lengths are those of one element only), whichever
element's lengths `ToBytes` returns; and a message whose only element has no
attribute and the empty key is read back as the empty message. -/
theorem ChildAggregatedDataMessage_roundtrip_fails :
    ChildAggregatedDataMessage.ToBytes exampleWire 0
        { ChildData := [exampleElementA, exampleElementB] }
      = .ok ([1, 2, 97, 3, 4, 5, 6, 98], 0, 1, 1)
    ∧ ChildAggregatedDataMessage.FromBytes exampleWire [1, 2, 97, 3, 4, 5, 6, 98] 0 1 1
      = .ok [exampleElementA,
          { DetTagGroupBy := "\x05"
            Fr := { GroupByEnc := [], AggregatingAttributes := [CipherText.mk 3 4] } }]
    ∧ ChildAggregatedDataMessage.ToBytes exampleWire 1
        { ChildData := [exampleElementA, exampleElementB] }
      = .ok ([1, 2, 97, 3, 4, 5, 6, 98], 0, 2, 1)
    ∧ ChildAggregatedDataMessage.FromBytes exampleWire [1, 2, 97, 3, 4, 5, 6, 98] 0 2 1
      = .ok [{ DetTagGroupBy := "\x04"
               Fr := { GroupByEnc := []
                       AggregatingAttributes := [CipherText.mk 1 2, CipherText.mk 9 3] } }]
    ∧ ChildAggregatedDataMessage.ToBytes exampleWire 0 { ChildData := [exampleElementEmpty] }
      = .ok ([], 0, 0, 0)
    ∧ ChildAggregatedDataMessage.FromBytes exampleWire [] 0 0 0 = .ok [] :=
  ⟨rfl, rfl, rfl, rfl, rfl, rfl⟩

/-- C14 (amended): for every ChildAggregatedDataMessage whose elements all
convert to bytes with the same three lengths `g`, `a`, `d`, each to
`g·cipherTextSize + a·cipherTextSize + d > 0` bytes (a byte count, which is
within the range of Go's `int`) that `FromBytes` of the element reads back,
calling `FromBytes` on an empty message with the bytes and the three lengths
returned by `ToBytes` reconstructs exactly `ChildData`: the same elements in
the same order. This is so whichever element's lengths `ToBytes` returns, and
for the message with no element. -/
theorem ChildAggregatedDataMessage_roundtrip (w : WireEnv P) (lastWriter : Nat)
    (sm : ChildAggregatedDataMessage P) (g a d : Int)
    (hel : 0 < g * w.CipherTextByteSize + a * w.CipherTextByteSize + d)
    (hint : g * w.CipherTextByteSize + a * w.CipherTextByteSize + d < 2 ^ 63)
    (henc : ∀ x ∈ sm.ChildData, ∃ b : Bytes, w.ToBytes x = .ok (b, g, a, d)
      ∧ (b.length : Int) = g * w.CipherTextByteSize + a * w.CipherTextByteSize + d
      ∧ w.FromBytes b g a d = .ok x) :
    ∃ (data : Bytes) (gacbLength aabLength dtbLength : Int),
      ChildAggregatedDataMessage.ToBytes w lastWriter sm
        = .ok (data, gacbLength, aabLength, dtbLength)
      ∧ ChildAggregatedDataMessage.FromBytes w data gacbLength aabLength dtbLength
        = .ok sm.ChildData := by
  obtain ⟨cd⟩ := sm
  obtain ⟨bb, h1, h2, h3, h4, h5⟩ := childData_encodings w cd g a d henc
  cases cd with
  | nil =>
    have hbb : bb = [] := List.length_eq_zero.1 h2
    subst hbb
    refine ⟨[], 0, 0, 0, ?_, ?_⟩
    · simp [ChildAggregatedDataMessage.ToBytes, collectErrors]
    · simp [ChildAggregatedDataMessage.FromBytes]
  | cons x rest =>
    have hlen : bb.length = rest.length + 1 := by simpa using h2
    have hidx : lastWriter % bb.length < bb.length := Nat.mod_lt _ (by omega)
    have hget : bb[lastWriter % bb.length]? = some (bb[lastWriter % bb.length]) :=
      List.getElem?_eq_getElem hidx
    have hmem : bb[lastWriter % bb.length] ∈ bb := List.getElem_mem hidx
    refine ⟨(bb.map (fun aux => aux.1)).flatten, g, a, d, ?_, ?_⟩
    · simp only [ChildAggregatedDataMessage.ToBytes, h1, hget, h3 _ hmem]
    · have hflat := length_flatten_blocks _ _ h4
      have hslices := elementSlices_flatten _ _ h4
      rw [List.length_map] at hflat hslices
      have helnat : ((g * w.CipherTextByteSize + a * w.CipherTextByteSize + d).toNat : Int)
          = g * w.CipherTextByteSize + a * w.CipherTextByteSize + d := Int.toNat_of_nonneg hel.le
      have helpos : 0 < (g * w.CipherTextByteSize + a * w.CipherTextByteSize + d).toNat := by
        omega
      have hdiv : Int.tdiv (((bb.map (fun aux => aux.1)).flatten.length : Nat) : Int)
          (g * w.CipherTextByteSize + a * w.CipherTextByteSize + d) = (bb.length : Int) := by
        rw [hflat, ← helnat]
        have := tdiv_length bb.length 0 _ helpos helpos
        simpa using this
      have hpos : (bb.map (fun aux => aux.1)).flatten.length > 0 := by
        rw [hflat, hlen]
        exact Nat.mul_pos (Nat.succ_pos _) helpos
      have hguard : (g * w.CipherTextByteSize + a * w.CipherTextByteSize + d ≠ 0
          ∧ (bb.map (fun aux => aux.1)).flatten.length > 0) := ⟨by omega, hpos⟩
      have hgo := goInt_of_fits (g * w.CipherTextByteSize + a * w.CipherTextByteSize + d)
        (by omega) hint
      simp only [ChildAggregatedDataMessage.FromBytes, hgo, if_pos hguard, hdiv]
      rw [if_neg (by omega), Int.toNat_ofNat, hslices, h5]

/-- What `FromBytes` reads from `n` whole elements followed by `r` more bytes,
fewer than one element: the `n` elements. -/
theorem FromBytes_of_length (w : WireEnv P) (data : Bytes) (g a d : Int) (n r : Nat)
    (hel : 0 < goInt (g * w.CipherTextByteSize + a * w.CipherTextByteSize + d))
    (hlen : data.length
      = n * (goInt (g * w.CipherTextByteSize + a * w.CipherTextByteSize + d)).toNat + r)
    (hr : r < (goInt (g * w.CipherTextByteSize + a * w.CipherTextByteSize + d)).toNat) :
    ChildAggregatedDataMessage.FromBytes w data g a d
      = match collectErrors
          ((elementSlices data (goInt (g * w.CipherTextByteSize + a * w.CipherTextByteSize + d)).toNat
            n).map (fun v => w.FromBytes v g a d)) with
        | .ok childData => .ok childData
        | .error e => .error (Failure.error e) := by
  have helnat : ((goInt (g * w.CipherTextByteSize + a * w.CipherTextByteSize + d)).toNat : Int)
      = goInt (g * w.CipherTextByteSize + a * w.CipherTextByteSize + d) := Int.toNat_of_nonneg hel.le
  have hdiv : Int.tdiv ((data.length : Nat) : Int)
      (goInt (g * w.CipherTextByteSize + a * w.CipherTextByteSize + d)) = (n : Int) := by
    rw [hlen]
    have h := tdiv_length n r _ (by omega) hr
    rw [helnat] at h
    exact h
  by_cases hpos : data.length > 0
  · have hguard : (goInt (g * w.CipherTextByteSize + a * w.CipherTextByteSize + d) ≠ 0
        ∧ data.length > 0) := ⟨by omega, hpos⟩
    simp only [ChildAggregatedDataMessage.FromBytes, if_pos hguard, hdiv]
    rw [if_neg (by omega), Int.toNat_ofNat]
  · have hzero : data.length = 0 := by omega
    have hn : n = 0 := by
      rcases Nat.eq_zero_or_pos n with h | h
      · exact h
      · have h1 : 1 * (goInt (g * w.CipherTextByteSize + a * w.CipherTextByteSize + d)).toNat
            ≤ n * (goInt (g * w.CipherTextByteSize + a * w.CipherTextByteSize + d)).toNat :=
          Nat.mul_le_mul_right _ h
        omega
    have hguard : ¬ (goInt (g * w.CipherTextByteSize + a * w.CipherTextByteSize + d) ≠ 0
        ∧ data.length > 0) := fun h => hpos h.2
    simp only [ChildAggregatedDataMessage.FromBytes, if_neg hguard, hn, elementSlices,
      List.range_zero, List.map_nil, collectErrors]

/-- C15, as stated, fails: over the example wire format, `FromBytes` on the
three bytes of an element followed by one more byte, four bytes where an
element takes three, returns no error: it reads the element and drops the
fourth byte. With lengths that make an element of zero bytes it returns no
error either and drops all the data. -/
theorem FromBytes_drops_trailing_byte :
    ¬ ((3 : Int) ∣ (([1, 2, 97, 0] : Bytes).length : Int))
    ∧ (0 : Int) * exampleWire.CipherTextByteSize + 1 * exampleWire.CipherTextByteSize + 1 = 3
    ∧ ChildAggregatedDataMessage.FromBytes exampleWire [1, 2, 97, 0] 0 1 1
      = .ok [exampleElementA]
    ∧ ChildAggregatedDataMessage.FromBytes exampleWire [1, 2, 97, 0] 0 0 0 = .ok [] :=
  ⟨by decide, rfl, rfl, rfl⟩

/-- C15 (amended): `ChildAggregatedDataMessage.FromBytes` does not check that
the byte length of data is a multiple of the element length
`gacbLength·cipherTextSize + aabLength·cipherTextSize + dtbLength`, which it
computes in Go's `int`: when that element length is positive it reads the
whole elements at the start of data and drops the trailing bytes that do not
make an element, returning what it returns without them, and it fails only
with the error of an element's `FromBytes`; when the element length is zero it
drops all the data and returns no error; and when the element length is
negative it drops data shorter than its absolute value without an error and
panics on longer data. -/
theorem FromBytes_ignores_trailing (w : WireEnv P) (data extra : Bytes) (g a d : Int) (n : Nat)
    (hel : 0 < goInt (g * w.CipherTextByteSize + a * w.CipherTextByteSize + d))
    (hdata : data.length
      = n * (goInt (g * w.CipherTextByteSize + a * w.CipherTextByteSize + d)).toNat)
    (hextra : extra.length
      < (goInt (g * w.CipherTextByteSize + a * w.CipherTextByteSize + d)).toNat) :
    ChildAggregatedDataMessage.FromBytes w (data ++ extra) g a d
        = ChildAggregatedDataMessage.FromBytes w data g a d
    ∧ (∀ f, ChildAggregatedDataMessage.FromBytes w (data ++ extra) g a d = .error f →
        ∃ (e : String) (v : Bytes), f = Failure.error e ∧ w.FromBytes v g a d = .error e)
    ∧ (∀ (data' : Bytes) (g' a' d' : Int),
        goInt (g' * w.CipherTextByteSize + a' * w.CipherTextByteSize + d') = 0 →
        ChildAggregatedDataMessage.FromBytes w data' g' a' d' = .ok [])
    ∧ (∀ (data' : Bytes) (g' a' d' : Int),
        goInt (g' * w.CipherTextByteSize + a' * w.CipherTextByteSize + d') < 0 →
        ChildAggregatedDataMessage.FromBytes w data' g' a' d'
          = if (data'.length : Int)
                < -goInt (g' * w.CipherTextByteSize + a' * w.CipherTextByteSize + d') then
              .ok []
            else
              .error Failure.panic) := by
  have h1 := FromBytes_of_length w (data ++ extra) g a d n extra.length hel
    (by rw [List.length_append, hdata]) hextra
  have h2 := FromBytes_of_length w data g a d n 0 hel (by rw [hdata, Nat.add_zero]) (by omega)
  rw [elementSlices_append data extra _ n (by rw [hdata])] at h1
  refine ⟨h1.trans h2.symm, ?_, ?_, ?_⟩
  · intro f hf
    rw [h1] at hf
    cases hc : collectErrors ((elementSlices data
        (goInt (g * w.CipherTextByteSize + a * w.CipherTextByteSize + d)).toNat n).map
        (fun v => w.FromBytes v g a d)) with
    | ok cd => rw [hc] at hf; simp at hf
    | error e =>
      rw [hc] at hf
      simp only [Except.error.injEq] at hf
      obtain ⟨v, hv⟩ := collectErrors_error (fun v => w.FromBytes v g a d) _ e hc
      exact ⟨e, v, hf.symm, hv⟩
  · intro data' g' a' d' hzero
    simp [ChildAggregatedDataMessage.FromBytes, hzero]
  · intro data' g' a' d' hneg
    by_cases hpos : data'.length > 0
    · have hguard : (goInt (g' * w.CipherTextByteSize + a' * w.CipherTextByteSize + d') ≠ 0
          ∧ data'.length > 0) := ⟨by omega, hpos⟩
      by_cases hsmall : (data'.length : Int)
          < -goInt (g' * w.CipherTextByteSize + a' * w.CipherTextByteSize + d')
      · have hdiv := tdiv_neg_small data'.length _ hneg hsmall
        simp only [ChildAggregatedDataMessage.FromBytes, if_pos hguard, hdiv, if_pos hsmall]
        simp [elementSlices, collectErrors]
      · have hdiv := tdiv_neg_large data'.length _ hneg (by omega)
        simp only [ChildAggregatedDataMessage.FromBytes, if_pos hguard, if_pos hdiv,
          if_neg hsmall]
    · have hguard : ¬ (goInt (g' * w.CipherTextByteSize + a' * w.CipherTextByteSize + d') ≠ 0
          ∧ data'.length > 0) := fun h => hpos h.2
      have hsmall : (data'.length : Int)
          < -goInt (g' * w.CipherTextByteSize + a' * w.CipherTextByteSize + d') := by omega
      simp only [ChildAggregatedDataMessage.FromBytes, if_neg hguard, if_pos hsmall]

/-- The element length wraps around: with `gacbLength = aabLength = 2^62`,
`dtbLength = 3` and ciphertexts of two bytes, the exact value is `2^64 + 3` and
the element length of `FromBytes` is 3, so that four bytes are cut into one
slice of three bytes, which the element's `FromBytes` of the example wire
format rejects for its length; and lengths whose exact value is `2^64 - 3` make
an element length of `-3`, with which three bytes make `FromBytes` panic. -/
theorem FromBytes_element_length_wraps :
    goInt ((2 : Int) ^ 62 * exampleWire.CipherTextByteSize
        + 2 ^ 62 * exampleWire.CipherTextByteSize + 3) = 3
    ∧ ChildAggregatedDataMessage.FromBytes exampleWire [1, 2, 97, 0] (2 ^ 62) (2 ^ 62) 3
      = .error (Failure.error "wrong length")
    ∧ goInt ((2 : Int) ^ 62 * exampleWire.CipherTextByteSize
        + 2 ^ 62 * exampleWire.CipherTextByteSize + -3) = -3
    ∧ ChildAggregatedDataMessage.FromBytes exampleWire [1, 2, 97] (2 ^ 62) (2 ^ 62) (-3)
      = .error Failure.panic
    ∧ ChildAggregatedDataMessage.FromBytes exampleWire [1, 2] (2 ^ 62) (2 ^ 62) (-3)
      = .ok [] :=
  ⟨rfl, rfl, rfl, rfl, rfl⟩

/-- Witness of C14 (amended): a message of two elements with one attribute
each and keys of one character, over the example wire format. -/
theorem ChildAggregatedDataMessage_roundtrip_witness :
    (0 : Int) < 0 * exampleWire.CipherTextByteSize + 1 * exampleWire.CipherTextByteSize + 1
    ∧ (0 : Int) * exampleWire.CipherTextByteSize + 1 * exampleWire.CipherTextByteSize + 1
        < 2 ^ 63
    ∧ (∀ x ∈ ({ ChildData := [exampleElementA, exampleElementC] } :
          ChildAggregatedDataMessage (ZMod 11)).ChildData,
        ∃ b : Bytes, exampleWire.ToBytes x = .ok (b, 0, 1, 1)
          ∧ (b.length : Int)
              = 0 * exampleWire.CipherTextByteSize + 1 * exampleWire.CipherTextByteSize + 1
          ∧ exampleWire.FromBytes b 0 1 1 = .ok x)
    ∧ ∃ (data : Bytes) (gacbLength aabLength dtbLength : Int),
        ChildAggregatedDataMessage.ToBytes exampleWire 1
            { ChildData := [exampleElementA, exampleElementC] }
          = .ok (data, gacbLength, aabLength, dtbLength)
        ∧ ChildAggregatedDataMessage.FromBytes exampleWire data gacbLength aabLength dtbLength
          = .ok [exampleElementA, exampleElementC] := by
  have henc : ∀ x ∈ ({ ChildData := [exampleElementA, exampleElementC] } :
        ChildAggregatedDataMessage (ZMod 11)).ChildData,
      ∃ b : Bytes, exampleWire.ToBytes x = .ok (b, 0, 1, 1)
        ∧ (b.length : Int)
            = 0 * exampleWire.CipherTextByteSize + 1 * exampleWire.CipherTextByteSize + 1
        ∧ exampleWire.FromBytes b 0 1 1 = .ok x := by
    intro x hx
    simp only [List.mem_cons, List.mem_singleton, List.not_mem_nil, or_false] at hx
    rcases hx with rfl | rfl
    · exact ⟨[1, 2, 97], rfl, rfl, rfl⟩
    · exact ⟨[7, 8, 99], rfl, rfl, rfl⟩
  exact ⟨by decide, by decide, henc,
    ChildAggregatedDataMessage_roundtrip exampleWire 1
      { ChildData := [exampleElementA, exampleElementC] } 0 1 1 (by decide) (by decide) henc⟩

/-- Witness of C15 (amended): two whole elements of three bytes followed by two
more bytes. -/
theorem FromBytes_ignores_trailing_witness :
    (0 : Int) < goInt (0 * exampleWire.CipherTextByteSize
        + 1 * exampleWire.CipherTextByteSize + 1)
    ∧ ([1, 2, 97, 7, 8, 99] : Bytes).length
        = 2 * (goInt (0 * exampleWire.CipherTextByteSize + 1 * exampleWire.CipherTextByteSize
            + 1)).toNat
    ∧ ([0, 0] : Bytes).length
        < (goInt (0 * exampleWire.CipherTextByteSize + 1 * exampleWire.CipherTextByteSize
            + 1)).toNat
    ∧ ChildAggregatedDataMessage.FromBytes exampleWire ([1, 2, 97, 7, 8, 99] ++ [0, 0]) 0 1 1
        = ChildAggregatedDataMessage.FromBytes exampleWire [1, 2, 97, 7, 8, 99] 0 1 1
    ∧ ChildAggregatedDataMessage.FromBytes exampleWire ([1, 2, 97, 7, 8, 99] ++ [0, 0]) 0 1 1
        = .ok [exampleElementA, exampleElementC] :=
  ⟨by decide, by decide, by decide,
    (FromBytes_ignores_trailing exampleWire [1, 2, 97, 7, 8, 99] [0, 0] 0 1 1 2
      (by decide) (by decide) (by decide)).1, rfl⟩

end WireTheorems


section RingTheorems

variable {S P : Type} [Field S] [AddCommGroup P] [Module S P]

/-- C16: in the Shuffling+DDT `Dispatch`, if the length header does not arrive
within TIMEOUT, or the header arrives but the payload does not arrive within
TIMEOUT, `Dispatch` returns an error whose message is the waiting node's server
identity followed by the name of the missing message, and the node performs no
shuffle, emits no result and forwards nothing. -/
theorem Dispatch_timeout (env : RingEnv S P) (p : ShufflingPlusDDTProtocol S P)
    (cvLengths : Bytes) :
    ShufflingPlusDDTProtocol.Dispatch { env with lengthMessage := none } p
      = { sent := [], feedback := none, shuffleKey := none
          outcome := some (.error (Failure.error (env.ServerIdentity
            ++ " didn't get the <shufflingPlusDDTBytesMessageLength> on time"))) }
    ∧ ShufflingPlusDDTProtocol.Dispatch
        { env with lengthMessage := some cvLengths, dataMessage := none } p
      = { sent := [], feedback := none, shuffleKey := none
          outcome := some (.error (Failure.error (env.ServerIdentity
            ++ " didn't get the <spDDTbs> on time"))) } :=
  ⟨rfl, rfl⟩

/-- C17: evaluation at a failing input. With the Proofs flag on and the proof
of step 3 (`DeterministicTagCrListProofCreation`) failing, step 3 stores the
error, but `Dispatch` returns nil all the same: the root puts a result on the
feedback channel (the data of step 2, not tagged) and a node that is not the
root forwards the data to the next node. A failing proof of step 2, on the
same input, makes `Dispatch` return the error, with no result and nothing
forwarded. -/
theorem Dispatch_swallows_tag_proof_error :
    (taggingStep (exampleRingEnv none (some "tag proof failed")) true (3 : ZMod 11)
        [[CipherText.mk 9 2, CipherText.mk 0 4]]).map (fun r => r.2)
      = some (some "tag proof failed")
    ∧ (ShufflingPlusDDTProtocol.Dispatch (exampleRingEnv none (some "tag proof failed"))
        (exampleRingInstance true)).outcome = some (.ok ())
    ∧ (ShufflingPlusDDTProtocol.Dispatch (exampleRingEnv none (some "tag proof failed"))
        (exampleRingInstance true)).feedback = some [[2, 4], [9, 0], [5, 7]]
    ∧ (ShufflingPlusDDTProtocol.Dispatch (exampleRingEnv none (some "tag proof failed"))
        (exampleRingInstance false)).outcome = some (.ok ())
    ∧ (ShufflingPlusDDTProtocol.Dispatch (exampleRingEnv none (some "tag proof failed"))
        (exampleRingInstance false)).sent
      = [RingMessage.ShufflingPlusDDTBytesLength [6],
         RingMessage.ShufflingPlusDDTBytesMessage [9, 2, 0, 4, 5, 9, 7, 0, 1, 5, 3, 7] [3]]
    ∧ ShufflingPlusDDTProtocol.Dispatch (exampleRingEnv (some "addition proof failed") none)
        (exampleRingInstance false)
      = { sent := [], feedback := none, shuffleKey := some 7
          outcome := some (.error (Failure.error "addition proof failed")) } :=
  ⟨rfl, rfl, rfl, rfl, rfl, rfl⟩

/-! ### The shuffling key along the ring -/

/-- After the shuffle the result records the key it ran under. -/
theorem afterShuffle_shuffleKey (env : RingEnv S P) (p : ShufflingPlusDDTProtocol S P)
    (shuffKey : P) (shuffledData : List (CipherVector P)) :
    (afterShuffle env p shuffKey shuffledData).shuffleKey = some shuffKey := by
  unfold afterShuffle
  cases p.SurveySecretKey with
  | none => rfl
  | some secret =>
    dsimp only
    cases additionStep env p.Proofs secret (secret • env.Base) shuffledData with
    | none => rfl
    | some r =>
      cases r with
      | error e => rfl
      | ok added =>
        dsimp only
        cases taggingStep env p.Proofs secret added with
        | none => rfl
        | some pr =>
          obtain ⟨tagged, err⟩ := pr
          dsimp only
          cases p.IsRoot with
          | true =>
            simp only [if_true]
            cases prepareResult p.TargetData tagged <;> rfl
          | false => rfl

/-- A payload sent by `forwardToNext` carries the bytes of the forwarded key. -/
theorem forwardToNext_sentData (env : RingEnv S P) (shuffKey : P)
    (shuffledData : List (CipherVector P)) (data keyBytes : Bytes)
    (h : sentData (forwardToNext env shuffKey shuffledData).1 = some (data, keyBytes)) :
    env.AbstractPointsToBytes [forwardKey shuffKey env.Public] = .ok keyBytes := by
  unfold forwardToNext at h
  revert h
  cases env.ArrayCipherVectorToBytes shuffledData with
  | error e => intro h; simp [sentData] at h
  | ok dl =>
    obtain ⟨d, cvBytesLengths⟩ := dl
    dsimp only
    cases env.AbstractPointsToBytes [forwardKey shuffKey env.Public] with
    | error e => intro h; simp [sentData] at h
    | ok kb =>
      dsimp only
      cases env.sendLengthErr with
      | some e => intro h; simp [sentData] at h
      | none =>
        dsimp only
        cases env.sendDataErr with
        | some e => intro h; simp [sentData] at h
        | none =>
          intro h
          simp only [sentData, List.findSome?_cons, Option.some.injEq, Prod.mk.injEq] at h
          rw [h.2]

/-- A payload sent after the shuffle carries the bytes of the forwarded key. -/
theorem afterShuffle_sentData (env : RingEnv S P) (p : ShufflingPlusDDTProtocol S P)
    (shuffKey : P) (shuffledData : List (CipherVector P)) (data keyBytes : Bytes)
    (h : sentData (afterShuffle env p shuffKey shuffledData).sent = some (data, keyBytes)) :
    env.AbstractPointsToBytes [forwardKey shuffKey env.Public] = .ok keyBytes := by
  unfold afterShuffle at h
  revert h
  cases p.SurveySecretKey with
  | none => intro h; simp [sentData] at h
  | some secret =>
    dsimp only
    cases additionStep env p.Proofs secret (secret • env.Base) shuffledData with
    | none => intro h; simp [sentData] at h
    | some r =>
      cases r with
      | error e => intro h; simp [sentData] at h
      | ok added =>
        dsimp only
        cases taggingStep env p.Proofs secret added with
        | none => intro h; simp [sentData] at h
        | some pr =>
          obtain ⟨tagged, err⟩ := pr
          dsimp only
          cases p.IsRoot with
          | true =>
            simp only [if_true]
            cases prepareResult p.TargetData tagged <;> (intro h; simp [sentData] at h)
          | false =>
            intro h
            exact forwardToNext_sentData env shuffKey tagged data keyBytes h

/-- The key read by `FromBytes` is the first point that the key bytes decode
to. -/
theorem FromBytes_key (env : RingEnv S P) (data shuffKey cvLengths : Bytes)
    (smData : List (CipherVector P)) (key : P)
    (h : ShufflingPlusDDTMessage.FromBytes env data shuffKey cvLengths = .ok (smData, key)) :
    ∃ rest, env.FromBytesToAbstractPoints shuffKey = .ok (key :: rest) := by
  unfold ShufflingPlusDDTMessage.FromBytes at h
  revert h
  cases env.FromBytesToArrayCipherVector data cvLengths with
  | error e => intro h; simp at h
  | ok d =>
    dsimp only
    cases env.FromBytesToAbstractPoints shuffKey with
    | error e => intro h; simp at h
    | ok dataP =>
      cases dataP with
      | nil => intro h; simp at h
      | cons k rest =>
        intro h
        simp only [Except.ok.injEq, Prod.mk.injEq] at h
        exact ⟨rest, by rw [h.2]⟩

/-- The key a node shuffles under is the key read from the payload it
received. -/
theorem Dispatch_shuffleKey (env : RingEnv S P) (p : ShufflingPlusDDTProtocol S P) (k : P)
    (h : (ShufflingPlusDDTProtocol.Dispatch env p).shuffleKey = some k) :
    ∃ (data keyBytes cvLengths : Bytes) (smData : List (CipherVector P)),
      env.lengthMessage = some cvLengths ∧ env.dataMessage = some (data, keyBytes)
      ∧ ShufflingPlusDDTMessage.FromBytes env data keyBytes cvLengths = .ok (smData, k) := by
  unfold ShufflingPlusDDTProtocol.Dispatch at h
  revert h
  cases hl : env.lengthMessage with
  | none => intro h; simp at h
  | some cvLengths =>
    dsimp only
    cases hd : env.dataMessage with
    | none => intro h; simp at h
    | some dk =>
      obtain ⟨data, keyBytes⟩ := dk
      dsimp only
      cases hf : ShufflingPlusDDTMessage.FromBytes env data keyBytes cvLengths with
      | error f => intro h; simp at h
      | ok sm =>
        obtain ⟨smData, smShuffKey⟩ := sm
        dsimp only
        intro h
        have hk : smShuffKey = k := by
          split at h
          · simpa using h
          · rw [afterShuffle_shuffleKey] at h
            simpa using h
        exact ⟨data, keyBytes, cvLengths, smData, rfl, rfl, by rw [← hk]; exact hf⟩

/-- A payload that a node sends carries the bytes of the key it shuffled under
minus its own public key. -/
theorem Dispatch_sentData (env : RingEnv S P) (p : ShufflingPlusDDTProtocol S P)
    (data keyBytes : Bytes)
    (h : sentData (ShufflingPlusDDTProtocol.Dispatch env p).sent = some (data, keyBytes)) :
    ∃ k, (ShufflingPlusDDTProtocol.Dispatch env p).shuffleKey = some k
      ∧ env.AbstractPointsToBytes [forwardKey k env.Public] = .ok keyBytes := by
  unfold ShufflingPlusDDTProtocol.Dispatch at h ⊢
  revert h
  cases env.lengthMessage with
  | none => intro h; simp [sentData] at h
  | some cvLengths =>
    dsimp only
    cases env.dataMessage with
    | none => intro h; simp [sentData] at h
    | some dk =>
      obtain ⟨d, kb⟩ := dk
      dsimp only
      cases ShufflingPlusDDTMessage.FromBytes env d kb cvLengths with
      | error f => intro h; simp [sentData] at h
      | ok sm =>
        obtain ⟨smData, smShuffKey⟩ := sm
        dsimp only
        split
        · intro h; simp [sentData] at h
        · intro h
          exact ⟨smShuffKey, afterShuffle_shuffleKey _ _ _ _,
            afterShuffle_sentData env p smShuffKey _ data keyBytes h⟩

/-- The payload that `Start` sends carries the bytes of the roster's aggregate
key. -/
theorem Start_sentData (env : RingEnv S P) (p : ShufflingPlusDDTProtocol S P)
    (data keyBytes : Bytes)
    (h : sentData (ShufflingPlusDDTProtocol.Start env p).1 = some (data, keyBytes)) :
    env.AbstractPointsToBytes [env.Aggregate] = .ok keyBytes := by
  unfold ShufflingPlusDDTProtocol.Start at h
  revert h
  cases p.TargetData with
  | none => intro h; simp [sentData] at h
  | some target =>
    dsimp only
    cases env.ArrayCipherVectorToBytes target with
    | error e => intro h; simp [sentData] at h
    | ok dl =>
      obtain ⟨d, cvLengthsByte⟩ := dl
      dsimp only
      cases env.AbstractPointsToBytes [env.Aggregate] with
      | error e => intro h; simp [sentData] at h
      | ok kb =>
        dsimp only
        cases env.sendLengthErr with
        | some e => intro h; simp [sentData] at h
        | none =>
          dsimp only
          cases env.sendDataErr with
          | some e => intro h; simp [sentData] at h
          | none =>
            intro h
            simp only [sentData, List.findSome?_cons, Option.some.injEq, Prod.mk.injEq] at h
            rw [h.2]

/-- A round has one result for each node. -/
theorem runRing_length (msgs : List RingMessage)
    (nodes : List (RingEnv S P × ShufflingPlusDDTProtocol S P)) :
    (runRing msgs nodes).length = nodes.length := by
  induction nodes generalizing msgs with
  | nil => rfl
  | cons node rest ih => simp only [runRing, List.length_cons, ih]

/-- Along a round of the ring whose nodes share the conversion of points to
bytes and back, every node that shuffles does so under the key of its place in
`ringKeys`. -/
theorem runRing_shuffleKey (toBytes : List P → Except String Bytes)
    (fromBytes : Bytes → Except String (List P))
    (hround : ∀ (pt : P) (kb : Bytes), toBytes [pt] = .ok kb → fromBytes kb = .ok [pt])
    (nodes : List (RingEnv S P × ShufflingPlusDDTProtocol S P))
    (hsame : ∀ n ∈ nodes,
      n.1.AbstractPointsToBytes = toBytes ∧ n.1.FromBytesToAbstractPoints = fromBytes)
    (msgs : List RingMessage) (seed : P)
    (hmsg : ∀ data kb, sentData msgs = some (data, kb) → toBytes [seed] = .ok kb)
    (i : Nat) (k : P)
    (hk : ((runRing msgs nodes)[i]?).bind (fun r => r.shuffleKey) = some k) :
    (ringKeys seed (nodes.map (fun n => n.1.Public)))[i]? = some k := by
  induction nodes generalizing msgs seed i with
  | nil => simp [runRing] at hk
  | cons node rest ih =>
    obtain ⟨hto, hfrom⟩ := hsame node (List.mem_cons_self node rest)
    have hfirst : ∀ k', (ShufflingPlusDDTProtocol.Dispatch (deliver node.1 msgs) node.2).shuffleKey
        = some k' → k' = seed := by
      intro k' hk'
      obtain ⟨data, kb, lens, smData, _, hdata, hf⟩ := Dispatch_shuffleKey _ _ _ hk'
      obtain ⟨tail, htail⟩ := FromBytes_key _ _ _ _ _ _ hf
      have hdec : fromBytes kb = .ok [seed] := hround seed kb (hmsg data kb hdata)
      have hfrom' : (deliver node.1 msgs).FromBytesToAbstractPoints = fromBytes := hfrom
      rw [hfrom', hdec] at htail
      simp only [Except.ok.injEq, List.cons.injEq] at htail
      exact htail.1.symm
    cases i with
    | zero =>
      simp only [runRing, List.getElem?_cons_zero, Option.some_bind] at hk
      rw [hfirst k hk]
      simp [ringKeys]
    | succ j =>
      simp only [runRing, List.getElem?_cons_succ] at hk
      simp only [List.map_cons, ringKeys, List.getElem?_cons_succ]
      refine ih (fun n hn => hsame n (List.mem_cons_of_mem node hn)) _ _ ?_ j hk
      intro data kb hsent
      obtain ⟨k', hk', henc⟩ := Dispatch_sentData _ _ _ _ hsent
      rw [hfirst k' hk'] at henc
      have hto' : (deliver node.1 msgs).AbstractPointsToBytes = toBytes := hto
      rw [hto'] at henc
      exact henc

/-- The key at each place of the ring is the seed minus the public keys of
the nodes before that place. -/
theorem ringKeys_getElem? (seed : P) (pubs : List P) (i : Nat) (hi : i ≤ pubs.length) :
    (ringKeys seed pubs)[i]? = some (seed - (pubs.take i).sum) := by
  induction pubs generalizing seed i with
  | nil =>
    have h0 : i = 0 := by simpa using hi
    subst h0
    simp [ringKeys]
  | cons pub rest ih =>
    cases i with
    | zero => simp [ringKeys]
    | succ j =>
      simp only [ringKeys, List.getElem?_cons_succ, List.take_succ_cons, List.sum_cons]
      rw [ih (forwardKey seed pub) j (by simpa using hi), forwardKey, sub_sub]

/-- C19: in the Shuffling+DDT ring, the root seeds the shuffling key with the
roster's aggregate public key and each node that forwards sends on the key it
received minus its own public key; hence, along a round whose nodes share the
conversion of points to bytes and back, the key under which the `i`-th node in
ring order shuffles equals the aggregate key minus the public keys of all
nodes that processed before it, and, when the aggregate key is the sum of all
nodes' public keys, the root (which processes last) shuffles under exactly its
own public key. -/
theorem ring_shuffle_keys (toBytes : List P → Except String Bytes)
    (fromBytes : Bytes → Except String (List P))
    (rootEnv : RingEnv S P) (rootInstance : ShufflingPlusDDTProtocol S P)
    (nodes : List (RingEnv S P × ShufflingPlusDDTProtocol S P))
    (hround : ∀ (pt : P) (kb : Bytes), toBytes [pt] = .ok kb → fromBytes kb = .ok [pt])
    (hroot : rootEnv.AbstractPointsToBytes = toBytes)
    (hsame : ∀ n ∈ nodes,
      n.1.AbstractPointsToBytes = toBytes ∧ n.1.FromBytesToAbstractPoints = fromBytes) :
    (∀ data kb,
        sentData (ShufflingPlusDDTProtocol.Start rootEnv rootInstance).1 = some (data, kb) →
        rootEnv.AbstractPointsToBytes [rootEnv.Aggregate] = .ok kb)
    ∧ (∀ (env : RingEnv S P) (p : ShufflingPlusDDTProtocol S P) (data kb : Bytes),
        sentData (ShufflingPlusDDTProtocol.Dispatch env p).sent = some (data, kb) →
        ∃ k, (ShufflingPlusDDTProtocol.Dispatch env p).shuffleKey = some k
          ∧ env.AbstractPointsToBytes [k - env.Public] = .ok kb)
    ∧ (∀ (i : Nat) (k : P),
        ((runRing (ShufflingPlusDDTProtocol.Start rootEnv rootInstance).1 nodes)[i]?).bind
            (fun r => r.shuffleKey) = some k →
        k = rootEnv.Aggregate - ((nodes.map (fun n => n.1.Public)).take i).sum)
    ∧ (∀ (others : List (RingEnv S P × ShufflingPlusDDTProtocol S P))
        (root : RingEnv S P × ShufflingPlusDDTProtocol S P) (k : P),
        nodes = others ++ [root] →
        rootEnv.Aggregate = (nodes.map (fun n => n.1.Public)).sum →
        ((runRing (ShufflingPlusDDTProtocol.Start rootEnv rootInstance).1
            nodes)[others.length]?).bind (fun r => r.shuffleKey) = some k →
        k = root.1.Public) := by
  have hkeys : ∀ (i : Nat) (k : P),
      ((runRing (ShufflingPlusDDTProtocol.Start rootEnv rootInstance).1 nodes)[i]?).bind
          (fun r => r.shuffleKey) = some k →
      k = rootEnv.Aggregate - ((nodes.map (fun n => n.1.Public)).take i).sum := by
    intro i k hk
    have hlen : (runRing (ShufflingPlusDDTProtocol.Start rootEnv rootInstance).1 nodes).length
        = nodes.length := runRing_length _ nodes
    have hi : i < nodes.length := by
      rcases Nat.lt_or_ge i nodes.length with h | h
      · exact h
      · rw [List.getElem?_eq_none (by rw [hlen]; exact h)] at hk
        simp at hk
    have h1 := runRing_shuffleKey toBytes fromBytes hround nodes hsame _ rootEnv.Aggregate
      (fun data kb hsent => by rw [← hroot]; exact Start_sentData _ _ data kb hsent) i k hk
    rw [ringKeys_getElem? _ _ i (by rw [List.length_map]; exact hi.le)] at h1
    simpa using h1.symm
  refine ⟨fun data kb h => Start_sentData _ _ data kb h, ?_, hkeys, ?_⟩
  · intro env p data kb h
    obtain ⟨k, hk, henc⟩ := Dispatch_sentData env p data kb h
    exact ⟨k, hk, henc⟩
  · intro others root k hnodes hagg hk
    have h := hkeys others.length k hk
    rw [hagg, hnodes] at h
    simp only [List.map_append, List.map_cons, List.map_nil, List.sum_append, List.sum_cons,
      List.sum_nil, add_zero] at h
    rw [← List.length_map others (fun n => n.1.Public), List.take_left] at h
    rw [h]
    abel

/-- Witness of C19: the example ring of three nodes; the root, last in the
circuit, shuffles under its own public key `1`. -/
theorem ring_shuffle_keys_witness :
    (∀ (pt : ZMod 11) (kb : Bytes),
        (exampleRingNode 1).AbstractPointsToBytes [pt] = .ok kb →
        (exampleRingNode 1).FromBytesToAbstractPoints kb = .ok [pt])
    ∧ (∀ n ∈ exampleRing,
        n.1.AbstractPointsToBytes = (exampleRingNode 1).AbstractPointsToBytes
        ∧ n.1.FromBytesToAbstractPoints = (exampleRingNode 1).FromBytesToAbstractPoints)
    ∧ (∀ (i : Nat) (k : ZMod 11),
        ((runRing (ShufflingPlusDDTProtocol.Start (exampleRingNode 1)
            (exampleRingInstance true)).1 exampleRing)[i]?).bind
            (fun r => r.shuffleKey) = some k →
        k = (exampleRingNode 1).Aggregate
              - ((exampleRing.map (fun n => n.1.Public)).take i).sum)
    ∧ (runRing (ShufflingPlusDDTProtocol.Start (exampleRingNode 1)
          (exampleRingInstance true)).1 exampleRing).map (fun r => r.shuffleKey)
        = [some 7, some 5, some 1] := by
  have hround : ∀ (pt : ZMod 11) (kb : Bytes),
      (exampleRingNode 1).AbstractPointsToBytes [pt] = .ok kb →
      (exampleRingNode 1).FromBytesToAbstractPoints kb = .ok [pt] := by
    intro pt kb h
    have hkb : kb = [UInt8.ofNat pt.val] := by
      simp only [exampleRingNode, exampleRingEnv, List.map_cons, List.map_nil,
        Except.ok.injEq] at h
      exact h.symm
    subst hkb
    clear h
    have hbyte : ∀ x : ZMod 11, ((UInt8.ofNat x.val).toNat : ZMod 11) = x := by decide
    simp only [exampleRingNode, exampleRingEnv, List.map_cons, List.map_nil, hbyte]
  have hsame : ∀ n ∈ exampleRing,
      n.1.AbstractPointsToBytes = (exampleRingNode 1).AbstractPointsToBytes
      ∧ n.1.FromBytesToAbstractPoints = (exampleRingNode 1).FromBytesToAbstractPoints := by
    intro n hn
    simp only [exampleRing, List.mem_cons, List.mem_singleton, List.not_mem_nil, or_false] at hn
    rcases hn with rfl | rfl | rfl <;> exact ⟨rfl, rfl⟩
  exact ⟨hround, hsame,
    (ring_shuffle_keys (exampleRingNode 1).AbstractPointsToBytes
      (exampleRingNode 1).FromBytesToAbstractPoints (exampleRingNode 1)
      (exampleRingInstance true) exampleRing hround rfl hsame).2.2.1,
    by rfl⟩

end RingTheorems

section ConfigurationTheorems

variable {S P Pr : Type} [Field S] [AddCommGroup P] [Module S P]

/-- C18, as stated, fails at the root: `Start` does not look at the data of the
instance, so at a root with children and no data reference at all it sends
the `DataReferenceMessage` to the children, while `Dispatch` at the same
instance fails on the configuration. -/
theorem Start_sends_before_checkData :
    exampleBadRoot.GroupedData = none ∧ exampleBadRoot.SimpleData = none
    ∧ (CollectiveAggregationProtocol.Start exampleEnv exampleBadRoot).1
        = [Message.DataReferenceToChildren]
    ∧ (Dispatch exampleEnv exampleBadRoot).outcome
        = .error (Failure.error "no data reference is provided") :=
  ⟨rfl, rfl, rfl, rfl⟩

/-- C18 (amended): a configuration error of the collective aggregation is
detected at the start of `Dispatch`, before any network traffic of `Dispatch`:
for a node whose GroupedData and SimpleData are both nil or both non-nil,
`Dispatch` at that node sends no message, delivers no result and returns the
configuration error. -/
theorem Dispatch_configuration_error (env : Env S P) (p : CollectiveAggregationProtocol P Pr)
    (gd : Option (GroupedMap P)) (sd : List (CipherText P)) :
    Dispatch env { p with GroupedData := none, SimpleData := none }
      = { sent := [], feedback := none, proof := none
          outcome := .error (Failure.error "no data reference is provided") }
    ∧ Dispatch env { p with GroupedData := some gd, SimpleData := some sd }
      = { sent := [], feedback := none, proof := none
          outcome := .error (Failure.error "two data references are given in the struct") } :=
  ⟨rfl, rfl⟩

end ConfigurationTheorems

section CompressionTheorems

variable {S P : Type} [Field S] [AddCommGroup P] [Module S P]

/-- The loop of `compressCipherVector` from any accumulator: the scaled
components are added to it column by column. -/
theorem compress_foldl (cv : CipherVector P) (e : List S) (acc : CipherText P) :
    (cv.zip e).foldl
        (fun ciphertext ce => CipherText.Add ciphertext (MulCipherTextbyScalar ce.1 ce.2)) acc
      = { K := acc.K + (List.zipWith (fun (s : S) (c : CipherText P) => s • c.K) e cv).sum
          C := acc.C + (List.zipWith (fun (s : S) (c : CipherText P) => s • c.C) e cv).sum } := by
  induction cv generalizing e acc with
  | nil => cases e <;> simp
  | cons c cv ih =>
    cases e with
    | nil => simp
    | cons s e =>
      simp only [List.zip_cons_cons, List.foldl_cons, List.zipWith_cons_cons, List.sum_cons]
      rw [ih]
      simp [CipherText.Add, MulCipherTextbyScalar, add_assoc]

/-- The value of `compressCipherVector` on vectors of the same length. -/
theorem compressCipherVector_eq (cv : CipherVector P) (e : List S)
    (h : e.length = cv.length) :
    compressCipherVector cv e = some
      { K := (List.zipWith (fun (s : S) (c : CipherText P) => s • c.K) e cv).sum
        C := (List.zipWith (fun (s : S) (c : CipherText P) => s • c.C) e cv).sum } := by
  unfold compressCipherVector
  rw [if_neg (by simpa using h), compress_foldl]
  simp [NewCipherText]

/-- C25: `compressCipherVector(cv, e)` on vectors of the same length `q` returns
the ciphertext with `K = Σ_i e[i]·cv[i].K` and `C = Σ_i e[i]·cv[i].C`, which is
the identity ciphertext for `q = 0`; for `len(e) ≠ len(cv)` it returns no value
(the panic "e is not the right size!"). -/
theorem compressCipherVector_spec (cv : CipherVector P) (e : List S) :
    (e.length = cv.length →
      compressCipherVector cv e = some
        { K := (List.zipWith (fun (s : S) (c : CipherText P) => s • c.K) e cv).sum
          C := (List.zipWith (fun (s : S) (c : CipherText P) => s • c.C) e cv).sum }) ∧
    (e.length ≠ cv.length → compressCipherVector cv e = none) ∧
    compressCipherVector ([] : CipherVector P) ([] : List S)
      = some ({ K := 0, C := 0 } : CipherText P) := by
  refine ⟨compressCipherVector_eq cv e, ?_, ?_⟩
  · intro h
    simp [compressCipherVector, h]
  · simp [compressCipherVector, NewCipherText]

/-- The entry of a row after `j` iterations, for a row and an `e` with at
least `j` elements: the sum of the first `j` products. -/
theorem compressBetaRow_eq (row e : List S) (j : Nat) (hr : j ≤ row.length)
    (he : j ≤ e.length) :
    compressBetaRow row e j
      = some ((List.zipWith (fun (b ej : S) => b * ej) (row.take j) (e.take j)).sum) := by
  induction j with
  | zero => simp [compressBetaRow]
  | succ j ih =>
    have hr' : j < row.length := hr
    have he' : j < e.length := he
    rw [compressBetaRow, ih (Nat.le_of_lt hr') (Nat.le_of_lt he'),
      List.getElem?_eq_getElem hr', List.getElem?_eq_getElem he']
    simp only [Option.some.injEq]
    rw [List.take_succ, List.take_succ, List.getElem?_eq_getElem hr',
      List.getElem?_eq_getElem he']
    simp only [Option.toList_some]
    rw [List.zipWith_append]
    · simp
    · simp [Nat.min_eq_left (Nat.le_of_lt hr'), Nat.min_eq_left (Nat.le_of_lt he')]

/-- The entries of the rows of a matrix whose rows all have `NQ` elements. -/
theorem compressBetaRows_eq (NQ : Nat) (e : List S) (he : e.length = NQ)
    (beta : List (List S)) (hb : ∀ row ∈ beta, row.length = NQ) :
    compressBetaRows NQ e beta
      = some (beta.map (fun row => (List.zipWith (fun (b ej : S) => b * ej) row e).sum)) := by
  induction beta with
  | nil => rfl
  | cons row rest ih =>
    have hrow : row.length = NQ := hb row (List.mem_cons_self _ _)
    rw [compressBetaRows, ih (fun r hr => hb r (List.mem_cons_of_mem _ hr)),
      compressBetaRow_eq row e NQ (by omega) (by omega)]
    simp only [List.map_cons]
    rw [← hrow, List.take_length, hrow, ← he, List.take_length]

/-- C28: compression commutes with rerandomization. For a challenge vector `e`,
a ciphertext vector `v` and a row `b = beta[i]` of blinding scalars, all of
length `q` (as every row of `beta`), and for the rerandomized vector `w` with
`w[j] = (v[j].K + b[j]·G, v[j].C + b[j]·H)`: `compressBeta(beta, e)` returns a
vector whose entry `i` is `β̂ = Σ_j b[j]·e[j]`, and `compressCipherVector(w, e)`
is `(X + β̂·G, Y + β̂·H)` for `(X, Y) = compressCipherVector(v, e)`. -/
theorem compress_rerandomize (q : Nat) (e : List S) (v : CipherVector P)
    (beta : List (List S)) (i : Nat) (b : List S) (G H : P)
    (he : e.length = q) (hv : v.length = q)
    (hbeta : ∀ row ∈ beta, row.length = q) (hb : beta[i]? = some b) :
    ∃ (X Y : P) (betaCompressed : List S),
      compressCipherVector v e = some { K := X, C := Y } ∧
      compressBeta beta e = some betaCompressed ∧
      betaCompressed[i]? = some ((List.zipWith (fun (bj ej : S) => bj * ej) b e).sum) ∧
      compressCipherVector
          (List.zipWith
            (fun (c : CipherText P) (bj : S) =>
              ({ K := c.K + bj • G, C := c.C + bj • H } : CipherText P)) v b) e
        = some { K := X + (List.zipWith (fun (bj ej : S) => bj * ej) b e).sum • G
                 C := Y + (List.zipWith (fun (bj ej : S) => bj * ej) b e).sum • H } := by
  have hbq : b.length = q := hbeta b (List.getElem?_mem hb)
  refine ⟨_, _, beta.map (fun row => (List.zipWith (fun (bj ej : S) => bj * ej) row e).sum),
    compressCipherVector_eq v e (by omega), ?_, ?_, ?_⟩
  · cases beta with
    | nil => simp at hb
    | cons first rest =>
      rw [compressBeta, hbeta first (List.mem_cons_self _ _)]
      exact compressBetaRows_eq q e he _ hbeta
  · rw [List.getElem?_map, hb]
    rfl
  · rw [compressCipherVector_eq _ e (by simp [he, hv, hbq])]
    simp only [Option.some.injEq, CipherText.mk.injEq]
    subst he
    clear hbeta hb
    constructor
    · induction e generalizing v b with
      | nil => simp
      | cons s e ih =>
        cases v with
        | nil => simp at hv
        | cons c v =>
          cases b with
          | nil => simp at hbq
          | cons bj b =>
            simp only [List.length_cons, Nat.add_right_cancel_iff] at hv hbq
            simp only [List.zipWith_cons_cons, List.sum_cons]
            rw [ih v b hv hbq]
            simp only [smul_add, add_smul, smul_smul]
            rw [mul_comm s bj]
            abel
    · induction e generalizing v b with
      | nil => simp
      | cons s e ih =>
        cases v with
        | nil => simp at hv
        | cons c v =>
          cases b with
          | nil => simp at hbq
          | cons bj b =>
            simp only [List.length_cons, Nat.add_right_cancel_iff] at hv hbq
            simp only [List.zipWith_cons_cons, List.sum_cons]
            rw [ih v b hv hbq]
            simp only [smul_add, add_smul, smul_smul]
            rw [mul_comm s bj]
            abel

/-- Witness of C28: the second row of a 2×3 matrix of blinding factors, with
`G = 1` and `H = 3` over the integers modulo 11. -/
theorem compress_rerandomize_witness :
    exampleChallenge.length = 3 ∧ exampleVector.length = 3
    ∧ (∀ row ∈ exampleBeta, row.length = 3) ∧ exampleBeta[1]? = some [4, 5, 6]
    ∧ ∃ (X Y : ZMod 11) (betaCompressed : List (ZMod 11)),
      compressCipherVector exampleVector exampleChallenge = some { K := X, C := Y } ∧
      compressBeta exampleBeta exampleChallenge = some betaCompressed ∧
      betaCompressed[1]?
        = some ((List.zipWith (fun (bj ej : ZMod 11) => bj * ej) [4, 5, 6]
            exampleChallenge).sum) ∧
      compressCipherVector
          (List.zipWith
            (fun (c : CipherText (ZMod 11)) (bj : ZMod 11) =>
              ({ K := c.K + bj • (1 : ZMod 11), C := c.C + bj • (3 : ZMod 11) } :
                CipherText (ZMod 11))) exampleVector [4, 5, 6]) exampleChallenge
        = some { K := X + (List.zipWith (fun (bj ej : ZMod 11) => bj * ej) [4, 5, 6]
                        exampleChallenge).sum • (1 : ZMod 11)
                 C := Y + (List.zipWith (fun (bj ej : ZMod 11) => bj * ej) [4, 5, 6]
                        exampleChallenge).sum • (3 : ZMod 11) } :=
  ⟨rfl, rfl, by decide, rfl,
    compress_rerandomize 3 exampleChallenge exampleVector exampleBeta 1 [4, 5, 6]
      (1 : ZMod 11) (3 : ZMod 11) rfl rfl (by decide) rfl⟩

end CompressionTheorems

section TagSequenceTheorems

variable {S P : Type} [Field S] [AddCommGroup P] [Module S P]

/-- One iteration of the inner loop of `DeterministicTagSequence` at the index
`k`, on a vector that holds the tags of the first `k` ciphertexts and fresh
ciphertexts after them: it then holds the tags of the first `k + 1`. -/
theorem tagSlot_step (cv : CipherVector P) (priv secretContrib : S) (k : Nat) :
    (match cv[k]? with
      | some ct =>
        ((cv.take k).map (fun c => DeterministicTag c priv secretContrib)
          ++ List.replicate (cv.length - k) NewCipherText).set k
            (DeterministicTag ct priv secretContrib)
      | none =>
        (cv.take k).map (fun c => DeterministicTag c priv secretContrib)
          ++ List.replicate (cv.length - k) NewCipherText)
      = (cv.take (k + 1)).map (fun c => DeterministicTag c priv secretContrib)
          ++ List.replicate (cv.length - (k + 1)) NewCipherText := by
  cases h : cv[k]? with
  | none =>
    have hk : cv.length ≤ k := List.getElem?_eq_none_iff.mp h
    simp only
    rw [List.take_of_length_le hk, List.take_of_length_le (Nat.le_succ_of_le hk),
      Nat.sub_eq_zero_of_le hk, Nat.sub_eq_zero_of_le (Nat.le_succ_of_le hk)]
  | some ct =>
    obtain ⟨hk, hct⟩ := List.getElem?_eq_some_iff.mp h
    simp only
    have hlen : ((cv.take k).map (fun c => DeterministicTag c priv secretContrib)).length = k := by
      simp [Nat.min_eq_left (Nat.le_of_lt hk)]
    have hrep : cv.length - k = (cv.length - (k + 1)) + 1 := by omega
    rw [List.set_append, if_neg (by omega), hlen, Nat.sub_self, hrep, List.replicate_succ,
      List.set_cons_zero, List.take_succ, h]
    simp

/-- The goroutine of the chunk that starts at `i`, on a vector that holds the
tags of the first `i` ciphertexts: it then holds the tags of the first
`i + vp`. -/
theorem tagChunk_eq (vp : Nat) (cv : CipherVector P) (priv secretContrib : S) (i : Nat) :
    tagChunk vp cv priv secretContrib i
        ((cv.take i).map (fun c => DeterministicTag c priv secretContrib)
          ++ List.replicate (cv.length - i) NewCipherText)
      = (cv.take (i + vp)).map (fun c => DeterministicTag c priv secretContrib)
          ++ List.replicate (cv.length - (i + vp)) NewCipherText := by
  induction vp with
  | zero => simp [tagChunk]
  | succ vp ih =>
    unfold tagChunk at ih ⊢
    rw [List.range_succ, List.foldl_append, ih]
    simp only [List.foldl_cons, List.foldl_nil]
    exact tagSlot_step cv priv secretContrib (i + vp)

/-- The loop over the chunks ends for a positive chunk size, and from the
chunk that starts at `i` on it completes the tags. -/
theorem chunks_complete (vp : Nat) (hvp : 0 < vp) (cv : CipherVector P)
    (priv secretContrib : S) (fuel i : Nat) (hfuel : cv.length - i < fuel) :
    ∃ starts, chunkStarts vp cv.length fuel i = some starts ∧
      starts.foldl (fun cvNew i => tagChunk vp cv priv secretContrib i cvNew)
          ((cv.take i).map (fun c => DeterministicTag c priv secretContrib)
            ++ List.replicate (cv.length - i) NewCipherText)
        = cv.map (fun c => DeterministicTag c priv secretContrib) := by
  induction fuel generalizing i with
  | zero => omega
  | succ fuel ih =>
    by_cases hi : i < cv.length
    · obtain ⟨rest, hrest, hfold⟩ := ih (i + vp) (by omega)
      refine ⟨i :: rest, ?_, ?_⟩
      · simp [chunkStarts, hi, hrest]
      · rw [List.foldl_cons, tagChunk_eq, hfold]
    · refine ⟨[], ?_, ?_⟩
      · simp [chunkStarts, hi]
      · have hle : cv.length ≤ i := Nat.le_of_not_lt hi
        simp [List.take_of_length_le hle, Nat.sub_eq_zero_of_le hle]

/-- The chunked loop computes the column-wise tags. -/
theorem DeterministicTagSequence_eq_map (vp : Nat) (hvp : 0 < vp) (cv : CipherVector P)
    (priv secretContrib : S) :
    DeterministicTagSequence vp cv priv secretContrib
      = some (cv.map (fun c => DeterministicTag c priv secretContrib)) := by
  obtain ⟨starts, hstarts, hfold⟩ :=
    chunks_complete vp hvp cv priv secretContrib (cv.length + 1) 0 (by omega)
  unfold DeterministicTagSequence
  rw [hstarts]
  simpa using hfold

/-- C26: for a positive chunk size, `DeterministicTagSequence(cv, private,
secretContrib)` returns a vector of the length of `cv` whose element `i` is
`DeterministicTag(cv[i], private, secretContrib)`, for every index `i`. -/
theorem DeterministicTagSequence_spec (vp : Nat) (hvp : 0 < vp) (cv : CipherVector P)
    (priv secretContrib : S) :
    ∃ cvNew : CipherVector P,
      DeterministicTagSequence vp cv priv secretContrib = some cvNew ∧
      cvNew.length = cv.length ∧
      ∀ i : Nat, cvNew[i]?
        = (cv[i]?).map (fun (ct : CipherText P) => DeterministicTag ct priv secretContrib) :=
  ⟨_, DeterministicTagSequence_eq_map vp hvp cv priv secretContrib, by simp,
    fun i => by simp⟩

/-- Witness of C26: three ciphertexts in chunks of two. -/
theorem DeterministicTagSequence_spec_witness :
    0 < 2
    ∧ ∃ cvNew : CipherVector (ZMod 11),
      DeterministicTagSequence 2 exampleVector (4 : ZMod 11) (3 : ZMod 11) = some cvNew ∧
      cvNew.length = exampleVector.length ∧
      ∀ i : Nat, cvNew[i]?
        = (exampleVector[i]?).map
            (fun (ct : CipherText (ZMod 11)) => DeterministicTag ct (4 : ZMod 11) (3 : ZMod 11)) :=
  ⟨by decide,
    DeterministicTagSequence_spec 2 (by decide) exampleVector (4 : ZMod 11) (3 : ZMod 11)⟩

end TagSequenceTheorems

section CircuitTheorems

variable {N : Type} [DecidableEq N]

/-- The loop that chooses the next node, entered at the index `k` not past the
index `i` of this node in a list without repetition: it stops at `i`. -/
theorem chooseNextNode_drop (nodeList : List N) (hnd : nodeList.Nodup) (i : Nat)
    (hi : i < nodeList.length) (d k : Nat) (hk : k + d = i) :
    chooseNextNode nodeList nodeList[i] k (nodeList.drop k)
      = nodeList[(i + 1) % nodeList.length]? := by
  induction d generalizing k with
  | zero =>
    have hki : k = i := by omega
    subst hki
    rw [List.drop_eq_getElem_cons hi, chooseNextNode, if_pos rfl]
  | succ d ih =>
    have hk' : k < nodeList.length := by omega
    rw [List.drop_eq_getElem_cons hk', chooseNextNode, if_neg, ih (k + 1) (by omega)]
    intro heq
    have := (hnd.getElem_inj_iff).mp heq
    omega

/-- The next node of the node at the index `i` of a list without repetition
is the node at the index `(i + 1) mod N`. -/
theorem nextNodeInCircuit_getElem (nodeList : List N) (hnd : nodeList.Nodup) (i : Nat)
    (hi : i < nodeList.length) :
    nextNodeInCircuit nodeList nodeList[i] = nodeList[(i + 1) % nodeList.length]? := by
  have h := chooseNextNode_drop nodeList hnd i hi i 0 (by omega)
  simpa [nextNodeInCircuit] using h

/-- After `k` hops from the node at the index `i` the data is at the node at
the index `(i + k) mod N`. -/
theorem circuit_getElem (nodeList : List N) (hnd : nodeList.Nodup) (i : Nat)
    (hi : i < nodeList.length) (k : Nat) :
    circuit nodeList nodeList[i] k = nodeList[(i + k) % nodeList.length]? := by
  induction k with
  | zero => simp [circuit, Nat.mod_eq_of_lt hi, List.getElem?_eq_getElem hi]
  | succ k ih =>
    have hpos : 0 < nodeList.length := by omega
    have hm : (i + k) % nodeList.length < nodeList.length := Nat.mod_lt _ hpos
    rw [circuit, ih, List.getElem?_eq_getElem hm, Option.some_bind,
      nextNodeInCircuit_getElem nodeList hnd _ hm]
    congr 1
    rw [Nat.add_mod, Nat.mod_mod, ← Nat.add_mod]
    rfl

/-- C27: in a node list of `N ≥ 1` pairwise distinct nodes the node at the
index `i` sends to the node at the index `(i + 1) mod N`, and the assignment
is a single cycle: the nodes that hold the data after `0, 1, …, N − 1` hops
from the root are the nodes of the list, each exactly once, and the hop `N`
is back at the root. -/
theorem circuit_single_cycle (nodeList : List N) (root : N) (hnd : nodeList.Nodup)
    (hroot : root ∈ nodeList) :
    (∀ (i : Nat) (hi : i < nodeList.length),
      nextNodeInCircuit nodeList nodeList[i] = nodeList[(i + 1) % nodeList.length]?) ∧
    (∃ visited : List N,
      (List.range nodeList.length).map (circuit nodeList root) = visited.map some ∧
      visited.Perm nodeList ∧ visited.Nodup) ∧
    circuit nodeList root nodeList.length = some root := by
  obtain ⟨i, hi, rfl⟩ := List.getElem_of_mem hroot
  refine ⟨fun j hj => nextNodeInCircuit_getElem nodeList hnd j hj,
    ⟨nodeList.rotate i, ?_, List.rotate_perm nodeList i,
      (List.nodup_rotate).mpr hnd⟩, ?_⟩
  · apply List.ext_getElem?
    intro k
    by_cases hk : k < nodeList.length
    · rw [List.getElem?_map, List.getElem?_map, List.getElem?_range hk,
        List.getElem?_rotate hk, Option.map_some', circuit_getElem nodeList hnd i hi,
        Nat.add_comm k i]
      have hm : (i + k) % nodeList.length < nodeList.length := Nat.mod_lt _ (by omega)
      rw [List.getElem?_eq_getElem hm]
      rfl
    · have hk' : nodeList.length ≤ k := Nat.le_of_not_lt hk
      rw [List.getElem?_eq_none (by simpa using hk'), List.getElem?_eq_none (by simpa using hk')]
  · rw [circuit_getElem nodeList hnd i hi, Nat.add_mod_right, Nat.mod_eq_of_lt hi,
      List.getElem?_eq_getElem hi]

/-- Witness of C27: a tree of four nodes. -/
theorem circuit_single_cycle_witness :
    exampleNodeList.Nodup ∧ "root" ∈ exampleNodeList
    ∧ (List.range 4).map (circuit exampleNodeList "root")
        = [some "root", some "node1", some "node2", some "node3"]
    ∧ circuit exampleNodeList "root" exampleNodeList.length = some "root" :=
  ⟨by decide, by decide, by decide,
    (circuit_single_cycle exampleNodeList "root" (by decide) (by decide)).2.2⟩

end CircuitTheorems

section RingStepTheorems

variable {S P : Type} [Field S] [AddCommGroup P] [Module S P]

/-- Step 2 then step 3 on one ciphertext: an encryption of `M` under the key
`H` becomes an encryption of `s·(M + s·B)` under the key `H − k·B`. -/
theorem tag_after_addition (B H M : P) (r k s : S) :
    DeterministicTag
        ({ encryptPoint B H r M with C := (encryptPoint B H r M).C + s • B } : CipherText P) k s
      = encryptPoint B (forwardKey H (k • B)) (s * r) (s • (M + s • B)) := by
  simp only [DeterministicTag, encryptPoint, forwardKey, CipherText.mk.injEq]
  refine ⟨by rw [smul_smul], ?_⟩
  simp only [smul_add, smul_sub, smul_smul]
  rw [mul_comm k r, ← mul_assoc]
  abel

/-- The chunks of a loop over a list, one after the other, are the list from
the start of the first chunk on. -/
theorem chunks_flatten {α : Type} (vp : Nat) (data : List α) (fuel i : Nat)
    (starts : List Nat) (h : chunkStarts vp data.length fuel i = some starts) :
    (starts.map (fun i => (data.drop i).take vp)).flatten = data.drop i := by
  induction fuel generalizing i starts with
  | zero => simp [chunkStarts] at h
  | succ fuel ih =>
    rw [chunkStarts] at h
    by_cases hi : i < data.length
    · rw [if_pos hi] at h
      cases hrest : chunkStarts vp data.length fuel (i + vp) with
      | none => simp [hrest] at h
      | some rest =>
        rw [hrest] at h
        simp only [Option.map_some', Option.some.injEq] at h
        subst h
        rw [List.map_cons, List.flatten_cons, ih (i + vp) rest hrest, ← List.drop_drop,
          List.take_append_drop]
    · rw [if_neg hi] at h
      simp only [Option.some.injEq] at h
      subst h
      simp [List.drop_eq_nil_of_le (Nat.le_of_not_lt hi)]

/-- The values collected from a list of results that are all successes. -/
theorem collectErrors_map_ok {α β : Type} (f : α → Except String β) (g : α → β)
    (l : List α) (r : List β) (h : collectErrors (l.map f) = .ok r)
    (hf : ∀ x ∈ l, ∀ y, f x = .ok y → y = g x) : r = l.map g := by
  induction l generalizing r with
  | nil =>
    simp only [List.map_nil, collectErrors, Except.ok.injEq] at h
    simp [← h]
  | cons x l ih =>
    rw [List.map_cons] at h
    cases hx : f x with
    | error e => simp [hx, collectErrors] at h
    | ok y =>
      cases hl : collectErrors (l.map f) with
      | error e => simp [hx, hl, collectErrors] at h
      | ok ys =>
        simp only [hx, hl, collectErrors, Except.ok.injEq] at h
        rw [← h, ih ys hl (fun x hx y hy => hf x (List.mem_cons_of_mem _ hx) y hy),
          hf x (List.mem_cons_self _ _) y hx]
        rfl

/-- Step 2 on one vector, when no proof fails: the point `toAdd` is added to
the `C` of every ciphertext. -/
theorem addSecretVector_ok (env : RingEnv S P) (proofs : Bool) (secret : S) (toAdd : P)
    (v v' : CipherVector P) (h : addSecretVector env proofs secret toAdd v = .ok v') :
    v' = v.map (fun ct => ({ ct with C := ct.C + toAdd } : CipherText P)) := by
  induction v generalizing v' with
  | nil =>
    simp only [addSecretVector, Except.ok.injEq] at h
    simp [← h]
  | cons ct rest ih =>
    rw [addSecretVector] at h
    revert h
    cases (if proofs then
        env.DeterministicTagAdditionProofCreation ct.C secret toAdd (ct.C + toAdd)
      else none) with
    | some e => intro h; simp at h
    | none =>
      cases hrest : addSecretVector env proofs secret toAdd rest with
      | error e => intro h; simp at h
      | ok rest' =>
        intro h
        simp only [Except.ok.injEq] at h
        rw [← h, ih rest' hrest]
        rfl

/-- Step 2 on the whole data, when it returns without an error: the point
`toAdd` is added to the `C` of every ciphertext of every vector. -/
theorem additionStep_ok (env : RingEnv S P) (proofs : Bool) (secret : S) (toAdd : P)
    (data added : List (CipherVector P))
    (h : additionStep env proofs secret toAdd data = some (.ok added)) :
    added = data.map
      (fun v => v.map (fun ct => ({ ct with C := ct.C + toAdd } : CipherText P))) := by
  unfold additionStep at h
  cases hs : chunkStarts env.VPARALLELIZE data.length (data.length + 1) 0 with
  | none => simp [hs] at h
  | some starts =>
    rw [hs] at h
    simp only [Option.map_some', Option.some.injEq] at h
    revert h
    cases hc : collectErrors
        (starts.map (fun i =>
          collectErrors (((data.drop i).take env.VPARALLELIZE).map
            (addSecretVector env proofs secret toAdd)))) with
    | error e => intro h; simp at h
    | ok chunks =>
      intro h
      simp only [Except.ok.injEq] at h
      have hchunks := collectErrors_map_ok _
        (fun i => ((data.drop i).take env.VPARALLELIZE).map
          (fun v => v.map (fun ct => ({ ct with C := ct.C + toAdd } : CipherText P))))
        starts chunks hc
        (fun i _ y hy => collectErrors_map_ok _ _ _ y hy
          (fun v _ v' hv => addSecretVector_ok env proofs secret toAdd v v' hv))
      have hflat := chunks_flatten env.VPARALLELIZE data (data.length + 1) 0 starts hs
      rw [← h, hchunks]
      rw [List.drop_zero] at hflat
      conv_rhs => rw [← hflat]
      rw [List.map_flatten, List.map_map]
      rfl

/-- A chunk size of zero ends the loop over the chunks only when there is
nothing to loop over. -/
theorem chunkStarts_zero (n fuel i : Nat) (hi : i < n) : chunkStarts 0 n fuel i = none := by
  induction fuel with
  | zero => rfl
  | succ fuel ih => simp [chunkStarts, hi, ih]

/-- Whenever the tag sequence returns, it returns the column-wise tags. -/
theorem DeterministicTagSequence_some (vp : Nat) (cv cvNew : CipherVector P)
    (priv secretContrib : S)
    (h : DeterministicTagSequence vp cv priv secretContrib = some cvNew) :
    cvNew = cv.map (fun c => DeterministicTag c priv secretContrib) := by
  rcases Nat.eq_zero_or_pos vp with hvp | hvp
  · subst hvp
    cases cv with
    | nil =>
      simp only [DeterministicTagSequence, List.length_nil, Nat.zero_add, chunkStarts,
        Nat.lt_irrefl, if_false, Option.map_some', List.foldl_nil, List.replicate_zero,
        Option.some.injEq] at h
      simp [← h]
    | cons c cv =>
      simp [DeterministicTagSequence, chunkStarts_zero] at h
  · rw [DeterministicTagSequence_eq_map vp hvp] at h
    exact (Option.some.inj h).symm

/-- The goroutine of one chunk in step 3, when it returns without an error:
every vector is replaced by its column-wise tags. -/
theorem tagChunkVectors_ok (env : RingEnv S P) (proofs : Bool) (secret : S)
    (chunk out : List (CipherVector P))
    (h : tagChunkVectors env proofs secret chunk = some (out, none)) :
    out = chunk.map (fun v => v.map (fun c => DeterministicTag c env.Private secret)) := by
  induction chunk generalizing out with
  | nil =>
    simp only [tagChunkVectors, Option.some.injEq, Prod.mk.injEq, and_true] at h
    simp [← h]
  | cons vBef rest ih =>
    rw [tagChunkVectors] at h
    revert h
    cases hseq : DeterministicTagSequence env.VPARALLELIZE vBef env.Private secret with
    | none => intro h; simp at h
    | some vAft =>
      have hAft := DeterministicTagSequence_some _ _ _ _ _ hseq
      dsimp only
      cases (if proofs then
          env.DeterministicTagCrListProofCreation vBef vAft env.Public secret env.Private
        else none) with
      | some e => intro h; simp at h
      | none =>
        dsimp only
        cases hrest : tagChunkVectors env proofs secret rest with
        | none => intro h; simp at h
        | some res =>
          obtain ⟨rest', err⟩ := res
          intro h
          simp only [Option.some.injEq, Prod.mk.injEq] at h
          obtain ⟨hout, herr⟩ := h
          subst herr
          rw [← hout, ih rest' hrest, hAft]
          simp [goCopy]

/-- The chunks of step 3, when no error is stored: every vector of every chunk
is replaced by its column-wise tags. -/
theorem tagChunks_ok (env : RingEnv S P) (proofs : Bool) (secret : S)
    (chunks : List (List (CipherVector P))) (out : List (CipherVector P))
    (h : tagChunks env proofs secret chunks = some (out, none)) :
    out = chunks.flatten.map
      (fun v => v.map (fun c => DeterministicTag c env.Private secret)) := by
  induction chunks generalizing out with
  | nil =>
    simp only [tagChunks, Option.some.injEq, Prod.mk.injEq, and_true] at h
    simp [← h]
  | cons chunk rest ih =>
    rw [tagChunks] at h
    revert h
    cases hchunk : tagChunkVectors env proofs secret chunk with
    | none => intro h; simp at h
    | some res =>
      obtain ⟨chunk', err⟩ := res
      cases hrest : tagChunks env proofs secret rest with
      | none => intro h; simp at h
      | some res' =>
        obtain ⟨rest', err'⟩ := res'
        intro h
        simp only [Option.some.injEq, Prod.mk.injEq] at h
        obtain ⟨hout, herr⟩ := h
        cases err' with
        | some e => simp at herr
        | none =>
          simp only at herr
          subst herr
          rw [← hout, tagChunkVectors_ok env proofs secret chunk chunk' hchunk,
            ih rest' hrest]
          simp

/-- Step 3 on the whole data, when it stores no error: every ciphertext is
replaced by its tag under the node's private key. -/
theorem taggingStep_ok (env : RingEnv S P) (proofs : Bool) (secret : S)
    (data tagged : List (CipherVector P))
    (h : taggingStep env proofs secret data = some (tagged, none)) :
    tagged = data.map (fun v => v.map (fun c => DeterministicTag c env.Private secret)) := by
  unfold taggingStep at h
  revert h
  cases hs : chunkStarts env.VPARALLELIZE data.length (data.length + 1) 0 with
  | none => intro h; simp at h
  | some starts =>
    intro h
    have hflat := chunks_flatten env.VPARALLELIZE data (data.length + 1) 0 starts hs
    rw [List.drop_zero] at hflat
    rw [tagChunks_ok env proofs secret _ tagged h, hflat]

/-- For a positive chunk size the loop over the chunks ends. -/
theorem chunkStarts_some (vp : Nat) (hvp : 0 < vp) (n fuel i : Nat) (hfuel : n - i < fuel) :
    ∃ starts, chunkStarts vp n fuel i = some starts := by
  induction fuel generalizing i with
  | zero => omega
  | succ fuel ih =>
    by_cases hi : i < n
    · obtain ⟨rest, hrest⟩ := ih (i + vp) (by omega)
      exact ⟨i :: rest, by simp [chunkStarts, hi, hrest]⟩
    · exact ⟨[], by simp [chunkStarts, hi]⟩

/-- The values collected from results that are all successes. -/
theorem collectErrors_map_total {α β : Type} (f : α → Except String β) (g : α → β)
    (l : List α) (hf : ∀ x ∈ l, f x = .ok (g x)) :
    collectErrors (l.map f) = .ok (l.map g) := by
  induction l with
  | nil => rfl
  | cons x l ih =>
    simp only [List.map_cons, collectErrors, hf x (List.mem_cons_self _ _),
      ih (fun y hy => hf y (List.mem_cons_of_mem _ hy))]

/-- Step 2 on one vector returns when no proof of an addition fails. -/
theorem addSecretVector_total (env : RingEnv S P) (proofs : Bool) (secret : S) (toAdd : P)
    (hadd : proofs = true → ∀ c r : P,
      env.DeterministicTagAdditionProofCreation c secret toAdd r = none)
    (v : CipherVector P) :
    addSecretVector env proofs secret toAdd v
      = .ok (v.map (fun ct => ({ ct with C := ct.C + toAdd } : CipherText P))) := by
  induction v with
  | nil => rfl
  | cons ct rest ih =>
    have hproof : (if proofs then
        env.DeterministicTagAdditionProofCreation ct.C secret toAdd (ct.C + toAdd)
      else none) = none := by
      cases proofs with
      | false => rfl
      | true => simpa using hadd rfl ct.C (ct.C + toAdd)
    rw [addSecretVector]
    simp only [hproof, ih, List.map_cons]

/-- Step 2 returns, without an error, for a positive chunk size when no proof
of an addition fails. -/
theorem additionStep_total (env : RingEnv S P) (proofs : Bool) (secret : S) (toAdd : P)
    (hvp : 0 < env.VPARALLELIZE)
    (hadd : proofs = true → ∀ c r : P,
      env.DeterministicTagAdditionProofCreation c secret toAdd r = none)
    (data : List (CipherVector P)) :
    ∃ added, additionStep env proofs secret toAdd data = some (.ok added) := by
  obtain ⟨starts, hs⟩ :=
    chunkStarts_some env.VPARALLELIZE hvp data.length (data.length + 1) 0 (by omega)
  have hc := collectErrors_map_total
    (fun i => collectErrors (((data.drop i).take env.VPARALLELIZE).map
      (addSecretVector env proofs secret toAdd)))
    (fun i => ((data.drop i).take env.VPARALLELIZE).map
      (fun v => v.map (fun ct => ({ ct with C := ct.C + toAdd } : CipherText P))))
    starts
    (fun i _ => collectErrors_map_total _ _ _
      (fun v _ => addSecretVector_total env proofs secret toAdd hadd v))
  refine ⟨((starts.map (fun i => ((data.drop i).take env.VPARALLELIZE).map
      (fun v => v.map (fun ct => ({ ct with C := ct.C + toAdd } : CipherText P)))))).flatten, ?_⟩
  unfold additionStep
  rw [hs]
  simp only [Option.map_some', hc]

/-- The goroutine of one chunk in step 3 returns, without an error, for a
positive chunk size when no proof of a tag fails. -/
theorem tagChunkVectors_total (env : RingEnv S P) (proofs : Bool) (secret : S)
    (hvp : 0 < env.VPARALLELIZE)
    (hcr : proofs = true → ∀ vBef vAft : CipherVector P,
      env.DeterministicTagCrListProofCreation vBef vAft env.Public secret env.Private = none)
    (chunk : List (CipherVector P)) :
    ∃ out, tagChunkVectors env proofs secret chunk = some (out, none) := by
  induction chunk with
  | nil => exact ⟨[], rfl⟩
  | cons vBef rest ih =>
    obtain ⟨rest', hrest⟩ := ih
    have hproof : ∀ vAft : CipherVector P, (if proofs then
        env.DeterministicTagCrListProofCreation vBef vAft env.Public secret env.Private
      else none) = none := by
      intro vAft
      cases proofs with
      | false => rfl
      | true => simpa using hcr rfl vBef vAft
    refine ⟨goCopy vBef (vBef.map (fun c => DeterministicTag c env.Private secret)) :: rest',
      ?_⟩
    rw [tagChunkVectors, DeterministicTagSequence_eq_map env.VPARALLELIZE hvp]
    simp only [hproof, hrest]

/-- The chunks of step 3 return, with no error stored, for a positive chunk
size when no proof of a tag fails. -/
theorem tagChunks_total (env : RingEnv S P) (proofs : Bool) (secret : S)
    (hvp : 0 < env.VPARALLELIZE)
    (hcr : proofs = true → ∀ vBef vAft : CipherVector P,
      env.DeterministicTagCrListProofCreation vBef vAft env.Public secret env.Private = none)
    (chunks : List (List (CipherVector P))) :
    ∃ out, tagChunks env proofs secret chunks = some (out, none) := by
  induction chunks with
  | nil => exact ⟨[], rfl⟩
  | cons chunk rest ih =>
    obtain ⟨rest', hrest⟩ := ih
    obtain ⟨chunk', hchunk⟩ := tagChunkVectors_total env proofs secret hvp hcr chunk
    refine ⟨chunk' ++ rest', ?_⟩
    rw [tagChunks]
    simp only [hchunk, hrest]

/-- Step 3 returns, with no error stored, for a positive chunk size when no
proof of a tag fails. -/
theorem taggingStep_total (env : RingEnv S P) (proofs : Bool) (secret : S)
    (hvp : 0 < env.VPARALLELIZE)
    (hcr : proofs = true → ∀ vBef vAft : CipherVector P,
      env.DeterministicTagCrListProofCreation vBef vAft env.Public secret env.Private = none)
    (data : List (CipherVector P)) :
    ∃ tagged, taggingStep env proofs secret data = some (tagged, none) := by
  obtain ⟨starts, hs⟩ :=
    chunkStarts_some env.VPARALLELIZE hvp data.length (data.length + 1) 0 (by omega)
  obtain ⟨out, hout⟩ := tagChunks_total env proofs secret hvp hcr
    (starts.map (fun i => (data.drop i).take env.VPARALLELIZE))
  refine ⟨out, ?_⟩
  unfold taggingStep
  rw [hs]
  exact hout

/-- C29: steps 2 and 3 of the Shuffling+DDT `Dispatch` keep every ciphertext a
valid encryption under the forwarded key. At a node with private key `k`,
public key `P = k·B`, survey secret `s` and a positive chunk size, with the
Proofs flag off or with no proof creation failing, step 2 (with `toAdd = s·B`)
returns data without an error, step 3 on that data returns with no error
stored, and the data it leaves has, in the place of every ciphertext
`(r·B, M + r·H)` of the data, the ciphertext `(r'·B, M' + r'·(H − P))` with
`r' = s·r` and `M' = s·(M + s·B)`: an encryption of a point that depends only on
`M` and `s`, under the key `H − P` that line 292 forwards. -/
theorem steps_keep_encryption (env : RingEnv S P) (proofs : Bool) (secret : S)
    (data : List (CipherVector P))
    (hvp : 0 < env.VPARALLELIZE)
    (hpub : env.Public = env.Private • env.Base)
    (hadd : proofs = true → ∀ c r : P,
      env.DeterministicTagAdditionProofCreation c secret (secret • env.Base) r = none)
    (hcr : proofs = true → ∀ vBef vAft : CipherVector P,
      env.DeterministicTagCrListProofCreation vBef vAft env.Public secret env.Private = none) :
    ∃ added tagged : List (CipherVector P),
      additionStep env proofs secret (secret • env.Base) data = some (.ok added) ∧
      taggingStep env proofs secret added = some (tagged, none) ∧
      tagged.length = data.length ∧
      ∀ (i j : Nat) (v : CipherVector P) (H M : P) (r : S),
        data[i]? = some v → v[j]? = some (encryptPoint env.Base H r M) →
        ∃ v' : CipherVector P, tagged[i]? = some v' ∧ v'.length = v.length ∧
          v'[j]? = some (encryptPoint env.Base (forwardKey H env.Public) (secret * r)
            (secret • (M + secret • env.Base))) := by
  obtain ⟨added, hadded⟩ :=
    additionStep_total env proofs secret (secret • env.Base) hvp hadd data
  obtain ⟨tagged, htagged⟩ := taggingStep_total env proofs secret hvp hcr added
  refine ⟨added, tagged, hadded, htagged, ?_⟩
  have h2 := additionStep_ok env proofs secret _ data added hadded
  have h3 := taggingStep_ok env proofs secret added tagged htagged
  subst h2
  subst h3
  refine ⟨by simp, ?_⟩
  intro i j v H M r hv hct
  refine ⟨(v.map (fun ct => ({ ct with C := ct.C + secret • env.Base } : CipherText P))).map
      (fun c => DeterministicTag c env.Private secret), by simp [hv], by simp, ?_⟩
  rw [List.getElem?_map, List.getElem?_map, hct, hpub]
  simp only [Option.map_some', Option.some.injEq]
  exact tag_after_addition env.Base H M r env.Private secret

/-- Witness of C29: the example node (private key `4`, survey secret `3`, chunks
of two, Proofs on and no proof failing) on two vectors of encryptions under
the key `7`; the first ciphertext of the first vector encrypts the point `5`
with the randomness `2`. -/
theorem steps_keep_encryption_witness :
    0 < (exampleRingEnv none none).VPARALLELIZE
    ∧ (exampleRingEnv none none).Public
      = (exampleRingEnv none none).Private • (exampleRingEnv none none).Base
    ∧ additionStep (exampleRingEnv none none) true (3 : ZMod 11)
        ((3 : ZMod 11) • (exampleRingEnv none none).Base) exampleEncrypted
        = some (.ok [[CipherText.mk 2 0, CipherText.mk 3 8], [CipherText.mk 9 0]])
    ∧ taggingStep (exampleRingEnv none none) true (3 : ZMod 11)
        [[CipherText.mk 2 0, CipherText.mk 3 8], [CipherText.mk 9 0]]
        = some ([[CipherText.mk 6 9, CipherText.mk 9 10], [CipherText.mk 5 2]], none)
    ∧ ∃ added tagged : List (CipherVector (ZMod 11)),
        additionStep (exampleRingEnv none none) true (3 : ZMod 11)
          ((3 : ZMod 11) • (exampleRingEnv none none).Base) exampleEncrypted
          = some (.ok added) ∧
        taggingStep (exampleRingEnv none none) true (3 : ZMod 11) added = some (tagged, none) ∧
        tagged.length = exampleEncrypted.length ∧
        ∃ v' : CipherVector (ZMod 11), tagged[0]? = some v' ∧
          v'[0]? = some (encryptPoint (1 : ZMod 11) (forwardKey (7 : ZMod 11) (4 : ZMod 11))
            ((3 : ZMod 11) * 2)
            ((3 : ZMod 11) • ((5 : ZMod 11) + (3 : ZMod 11) • (1 : ZMod 11)))) :=
  ⟨by decide, by decide, by rfl, by rfl,
    (steps_keep_encryption (exampleRingEnv none none) true (3 : ZMod 11) exampleEncrypted
      (by decide) (by decide) (fun _ _ _ => rfl) (fun _ _ _ => rfl)).imp
      (fun _ h => h.imp (fun _ h => ⟨h.1, h.2.1, h.2.2.1,
        (h.2.2.2 0 0
          [encryptPoint (1 : ZMod 11) (7 : ZMod 11) (2 : ZMod 11) (5 : ZMod 11),
           encryptPoint (1 : ZMod 11) (7 : ZMod 11) (3 : ZMod 11) (6 : ZMod 11)]
          (7 : ZMod 11) (5 : ZMod 11) (2 : ZMod 11) rfl rfl).imp
          (fun _ h => ⟨h.1, h.2.2⟩)⟩))⟩

end RingStepTheorems

section GroupsTheorems

/-- The loop of `AllPossibleGroups` over the values `is` of the loop variable,
when every recursive call appends the tuples that extend its group: the
slice `group` is as before and the tuples are appended value by value. -/
theorem groupsLoop_eq (call : List Int → List (List Int) → Option (List (List Int)))
    (tuples : List (List Int))
    (hcall : ∀ g G, call g G = some (G ++ tuples.map (fun tl => g ++ tl)))
    (is : List Nat) (group : List Int) (Groups : List (List Int)) :
    is.foldlM (groupsLoopBody call) (group, Groups)
      = some (group,
          Groups ++ is.flatMap (fun i => tuples.map (fun tl => group ++ (i : Int) :: tl))) := by
  induction is generalizing Groups with
  | nil => simp
  | cons i is ih =>
    rw [List.foldlM_cons, groupsLoopBody, hcall]
    simp only [List.dropLast_concat, Option.bind_eq_bind, Option.some_bind]
    rw [ih]
    simp [List.append_assoc]

/-- The call at the position `pos` with enough fuel appends the tuples over
the rest of `numType`, each behind the elements of `group`. -/
theorem AllPossibleGroups_eq (numType : List Int) (fuel : Nat) (group : List Int) (pos : Nat)
    (Groups : List (List Int)) (hpos : pos ≤ numType.length)
    (hfuel : numType.length - pos < fuel) :
    AllPossibleGroups numType fuel group pos Groups
      = some (Groups ++ (groupTuples (numType.drop pos)).map (fun tl => group ++ tl)) := by
  induction fuel generalizing group pos Groups with
  | zero => omega
  | succ fuel ih =>
    rw [AllPossibleGroups]
    by_cases hend : pos = numType.length
    · rw [if_pos hend, hend, List.drop_length]
      simp [groupTuples]
    · have hlt : pos < numType.length := by omega
      rw [if_neg hend, List.getElem?_eq_getElem hlt]
      simp only
      rw [groupsLoop_eq _ (groupTuples (numType.drop (pos + 1)))
        (fun g G => ih g (pos + 1) G hlt (by omega))]
      rw [List.drop_eq_getElem_cons hlt, groupTuples]
      simp [List.map_flatMap, Function.comp_def]

/-- The tuples are those that are below `numType` at every position. -/
theorem mem_groupTuples (numType g : List Int) :
    g ∈ groupTuples numType ↔ List.Forall₂ (fun (x t : Int) => 0 ≤ x ∧ x < t) g numType := by
  induction numType generalizing g with
  | nil => simp [groupTuples]
  | cons t rest ih =>
    simp only [groupTuples, List.mem_flatMap, List.mem_range, List.mem_map]
    constructor
    · rintro ⟨i, hi, tl, htl, rfl⟩
      refine List.Forall₂.cons ⟨Int.ofNat_nonneg i, ?_⟩ ((ih tl).mp htl)
      omega
    · intro h
      cases h with
      | cons hx htl =>
        rename_i x tl
        refine ⟨x.toNat, by omega, tl, (ih tl).mpr htl, ?_⟩
        rw [Int.toNat_of_nonneg hx.1]

/-- The tuples come in strictly increasing lexicographic order. -/
theorem groupTuples_sorted (numType : List Int) :
    (groupTuples numType).Pairwise (List.Lex (fun (x y : Int) => x < y)) := by
  induction numType with
  | nil => simp [groupTuples]
  | cons t rest ih =>
    rw [groupTuples, List.pairwise_flatMap]
    constructor
    · intro i _
      exact List.Pairwise.map _ (fun _ _ h => List.Lex.cons h) ih
    · refine (List.pairwise_lt_range t.toNat).imp ?_
      intro i j hij x hx y hy
      obtain ⟨_, _, rfl⟩ := List.mem_map.mp hx
      obtain ⟨_, _, rfl⟩ := List.mem_map.mp hy
      exact List.Lex.rel (by exact_mod_cast hij)

/-- No list of integers is below itself in the lexicographic order. -/
theorem lex_irrefl (a : List Int) : ¬ List.Lex (fun (x y : Int) => x < y) a a := by
  induction a with
  | nil => intro h; cases h
  | cons x a ih =>
    intro h
    cases h with
    | cons h => exact ih h
    | rel h => exact lt_irrefl x h

/-- The number of tuples is the product of the numbers of values. -/
theorem length_groupTuples (numType : List Int) :
    (groupTuples numType).length = (numType.map Int.toNat).prod := by
  induction numType with
  | nil => rfl
  | cons t rest ih =>
    rw [groupTuples, List.length_flatMap]
    simp [ih, Function.comp_def]

/-- The product of the values taken as natural numbers, for values that are
not negative. -/
theorem prod_toNat (numType : List Int) (hnn : ∀ t ∈ numType, 0 ≤ t) :
    (((numType.map Int.toNat).prod : Nat) : Int) = numType.prod := by
  induction numType with
  | nil => rfl
  | cons t rest ih =>
    rw [List.map_cons, List.prod_cons, List.prod_cons, Nat.cast_mul,
      ih (fun x hx => hnn x (List.mem_cons_of_mem _ hx)),
      Int.toNat_of_nonneg (hnn t (List.mem_cons_self _ _))]

/-- C22: for a list `numType` of non-negative integers,
`AllPossibleGroups(numType, [], 0)` returns (with any fuel above the length of
`numType`) and leaves `Groups` with its earlier entries followed by exactly
the tuples `(g_0, …, g_{n−1})` with `0 ≤ g_i < numType[i]`, each once and in
strictly increasing lexicographic order; their number is the product of the
entries of `numType`. -/
theorem AllPossibleGroups_spec (numType : List Int) (hnn : ∀ t ∈ numType, 0 ≤ t)
    (Groups : List (List Int)) :
    ∃ added : List (List Int),
      (∀ fuel, numType.length < fuel →
        AllPossibleGroups numType fuel [] 0 Groups = some (Groups ++ added)) ∧
      (∀ g, g ∈ added ↔ List.Forall₂ (fun (x t : Int) => 0 ≤ x ∧ x < t) g numType) ∧
      added.Pairwise (List.Lex (fun (x y : Int) => x < y)) ∧
      added.Nodup ∧
      (added.length : Int) = numType.prod := by
  refine ⟨groupTuples numType, ?_, mem_groupTuples numType, groupTuples_sorted numType, ?_, ?_⟩
  · intro fuel hfuel
    have h := AllPossibleGroups_eq numType fuel [] 0 Groups (Nat.zero_le _) (by omega)
    simpa using h
  · refine (groupTuples_sorted numType).imp ?_
    intro a b hab heq
    subst heq
    exact lex_irrefl a hab
  · rw [length_groupTuples, prod_toNat numType hnn]

/-- Witness of C22: the groups of the test, `numType = [2, 5]`, appended to
an entry that is there before. -/
theorem AllPossibleGroups_spec_witness :
    (∀ t ∈ ([2, 5] : List Int), 0 ≤ t)
    ∧ AllPossibleGroups [2, 5] 3 [] 0 [[7]]
        = some [[7], [0, 0], [0, 1], [0, 2], [0, 3], [0, 4],
                [1, 0], [1, 1], [1, 2], [1, 3], [1, 4]]
    ∧ AllPossibleGroups [1, 2] 3 [] 0 [] = some [[0, 0], [0, 1]]
    ∧ ∃ added : List (List Int),
        AllPossibleGroups [2, 5] 3 [] 0 [[7]] = some ([[7]] ++ added) ∧
        (added.length : Int) = ([2, 5] : List Int).prod :=
  ⟨by decide, by decide, by decide,
    (AllPossibleGroups_spec [2, 5] (by decide) [[7]]).imp
      (fun _ h => ⟨h.1 3 (by decide), h.2.2.2.2⟩)⟩

end GroupsTheorems

section CompareTheorems

/-- The inner loop sets `test` exactly when some element of `y` agrees. -/
theorem compareInner_eq_true (i : DpClearResponse) (y : List DpClearResponse) :
    compareInner i y = true ↔ ∃ j ∈ y, responsesAgree i j = true := by
  induction y with
  | nil => simp [compareInner]
  | cons j rest ih =>
    rw [compareInner]
    by_cases h : responsesAgree i j = true
    · simp [h]
    · simp [h, ih]

/-- The outer loop from any value of `test`: over no element it leaves
`test`, and over some elements it ends true exactly when each of them has an
element of `y` that agrees. -/
theorem compareOuter_eq_true (y : List DpClearResponse) (test : Bool)
    (x : List DpClearResponse) :
    compareOuter y test x = true
      ↔ (x = [] ∧ test = true) ∨ (x ≠ [] ∧ ∀ i ∈ x, compareInner i y = true) := by
  induction x generalizing test with
  | nil => simp [compareOuter]
  | cons i rest ih =>
    rw [compareOuter]
    by_cases h : compareInner i y = true
    · simp only [h, Bool.not_true, Bool.false_eq_true, if_false, ih]
      cases rest with
      | nil => simp [h]
      | cons i' rest' => simp [h]
    · simp [h]

/-- The agreement of two responses, map by map. -/
theorem responsesAgree_eq_true (i j : DpClearResponse) :
    responsesAgree i j = true ↔
      (DeepEqual i.GroupByClear j.GroupByClear = true
        ∨ (i.GroupByClear.len = 0 ∧ j.GroupByClear.len = 0))
      ∧ (DeepEqual i.GroupByEnc j.GroupByEnc = true
        ∨ (i.GroupByEnc.len = 0 ∧ j.GroupByEnc.len = 0))
      ∧ (DeepEqual i.WhereClear j.WhereClear = true
        ∨ (i.WhereClear.len = 0 ∧ j.WhereClear.len = 0))
      ∧ (DeepEqual i.WhereEnc j.WhereEnc = true
        ∨ (i.WhereEnc.len = 0 ∧ j.WhereEnc.len = 0))
      ∧ (DeepEqual i.AggregatingAttributesClear j.AggregatingAttributesClear = true
        ∨ (i.AggregatingAttributesClear.len = 0 ∧ j.AggregatingAttributesClear.len = 0))
      ∧ (DeepEqual i.AggregatingAttributesEnc j.AggregatingAttributesEnc = true
        ∨ (i.AggregatingAttributesEnc.len = 0 ∧ j.AggregatingAttributesEnc.len = 0)) := by
  simp only [responsesAgree, Bool.and_eq_true, Bool.or_eq_true, beq_iff_eq, and_assoc]

/-- C23: the code at two arrays that are the same and at two that are not.
On two empty arrays `CompareClearResponses` returns false, and on a
one-element array against a two-element array that starts with the same
element it returns true. -/
theorem CompareClearResponses_same_and_different :
    CompareClearResponses [] [] = false
    ∧ CompareClearResponses [exampleClearResponse 1]
        [exampleClearResponse 1, exampleClearResponse 2] = true
    ∧ [exampleClearResponse 1] ≠ [exampleClearResponse 1, exampleClearResponse 2] :=
  ⟨by decide, by decide, by simp⟩

/-- C30: `CompareClearResponses(x, y)` returns true if and only if `x` is not
empty and every element of `x` has some element of `y` that agrees with it on
each of the six attribute maps (deeply equal, or both of length 0). So it
returns false for an empty `x`, whatever `y` is, and it is not symmetric. -/
theorem CompareClearResponses_spec :
    (∀ x y : List DpClearResponse,
      CompareClearResponses x y = true ↔
        x ≠ [] ∧ ∀ i ∈ x, ∃ j ∈ y,
          (DeepEqual i.GroupByClear j.GroupByClear = true
            ∨ (i.GroupByClear.len = 0 ∧ j.GroupByClear.len = 0))
          ∧ (DeepEqual i.GroupByEnc j.GroupByEnc = true
            ∨ (i.GroupByEnc.len = 0 ∧ j.GroupByEnc.len = 0))
          ∧ (DeepEqual i.WhereClear j.WhereClear = true
            ∨ (i.WhereClear.len = 0 ∧ j.WhereClear.len = 0))
          ∧ (DeepEqual i.WhereEnc j.WhereEnc = true
            ∨ (i.WhereEnc.len = 0 ∧ j.WhereEnc.len = 0))
          ∧ (DeepEqual i.AggregatingAttributesClear j.AggregatingAttributesClear = true
            ∨ (i.AggregatingAttributesClear.len = 0
                ∧ j.AggregatingAttributesClear.len = 0))
          ∧ (DeepEqual i.AggregatingAttributesEnc j.AggregatingAttributesEnc = true
            ∨ (i.AggregatingAttributesEnc.len = 0
                ∧ j.AggregatingAttributesEnc.len = 0)))
    ∧ (∀ y : List DpClearResponse, CompareClearResponses [] y = false)
    ∧ ∃ x y : List DpClearResponse,
        CompareClearResponses x y = true ∧ CompareClearResponses y x = false := by
  refine ⟨?_, fun y => rfl,
    [exampleClearResponse 1], [exampleClearResponse 1, exampleClearResponse 2], ?_⟩
  · intro x y
    rw [CompareClearResponses, compareOuter_eq_true]
    simp only [Bool.false_eq_true, and_false, false_or, compareInner_eq_true,
      responsesAgree_eq_true]
  · decide

end CompareTheorems

section FilteredResponseWireTheorems

variable {P : Type}

/-- A ciphertext is read back from its bytes. -/
theorem CipherText_roundtrip (codec : PointCodec P)
    (hsize : ∀ p, (codec.marshal p).length = codec.pointSize)
    (hround : ∀ p, codec.unmarshal (codec.marshal p) = some p) (c : CipherText P) :
    CipherText.FromBytes codec (CipherText.ToBytes codec c) = some c := by
  have hK : (codec.marshal c.K ++ codec.marshal c.C).take codec.pointSize
      = codec.marshal c.K := by
    rw [List.take_append_of_le_length (by rw [hsize]), ← hsize c.K, List.take_length]
  have hC : ((codec.marshal c.K ++ codec.marshal c.C).drop codec.pointSize).take
      codec.pointSize = codec.marshal c.C := by
    rw [List.drop_append_of_le_length (by rw [hsize]), ← hsize c.K, List.drop_length,
      List.nil_append, hsize c.K, ← hsize c.C, List.take_length]
  simp only [CipherText.FromBytes, CipherText.ToBytes, hK, hC, hround]

/-- The bytes of a ciphertext have twice the size of a point. -/
theorem CipherText_ToBytes_length (codec : PointCodec P)
    (hsize : ∀ p, (codec.marshal p).length = codec.pointSize) (c : CipherText P) :
    (CipherText.ToBytes codec c).length = 2 * codec.pointSize := by
  simp [CipherText.ToBytes, hsize]
  omega

/-- The byte length of a vector is its element count times the size of a
ciphertext. -/
theorem CipherVector_ToBytes_length (codec : PointCodec P)
    (hsize : ∀ p, (codec.marshal p).length = codec.pointSize) (cv : CipherVector P) :
    (CipherVector.ToBytes codec cv).1.length = cv.length * (2 * codec.pointSize) := by
  induction cv with
  | nil => simp [CipherVector.ToBytes]
  | cons c cv ih =>
    simp only [CipherVector.ToBytes, List.map_cons, List.flatten_cons, List.length_append,
      List.length_cons] at ih ⊢
    rw [ih, CipherText_ToBytes_length codec hsize]
    ring

/-- A vector is read back from its bytes and its length, whatever bytes
follow. -/
theorem CipherVector_roundtrip (codec : PointCodec P)
    (hsize : ∀ p, (codec.marshal p).length = codec.pointSize)
    (hround : ∀ p, codec.unmarshal (codec.marshal p) = some p) (cv : CipherVector P) :
    CipherVector.FromBytes codec (CipherVector.ToBytes codec cv).1
        (CipherVector.ToBytes codec cv).2 = some cv := by
  induction cv with
  | nil => simp [CipherVector.ToBytes, CipherVector.FromBytes]
  | cons c cv ih =>
    have hlen := CipherText_ToBytes_length codec hsize c
    simp only [CipherVector.ToBytes, List.map_cons, List.flatten_cons, List.length_cons,
      CipherVector.FromBytes] at ih ⊢
    rw [List.take_append_of_le_length (by rw [hlen]), ← hlen, List.take_length,
      List.drop_append_of_le_length (by rfl), List.drop_length, List.nil_append,
      CipherText_roundtrip codec hsize hround c, ih]

/-- C21: for every `FilteredResponse` `fr`, `FromBytes` on an empty
`FilteredResponse`, with the bytes and the two lengths that `fr.ToBytes()`
returns, succeeds and restores `GroupByEnc` and `AggregatingAttributes`, which
therefore decrypt to the same integer vectors as those of `fr`. The encoding of
points is any one of fixed size that reads a point back from its bytes. -/
theorem FilteredResponse_roundtrip {S P : Type} [Field S] [AddCommGroup P] [Module S P]
    [DecidableEq P] (codec : PointCodec P)
    (hsize : ∀ p, (codec.marshal p).length = codec.pointSize)
    (hround : ∀ p, codec.unmarshal (codec.marshal p) = some p)
    (fr : FilteredResponse P) (B : P) (bound : Nat) (secKey : S) :
    ∃ newCr : FilteredResponse P,
      FilteredResponse.FromBytes codec (FilteredResponse.ToBytes codec fr).1
          (FilteredResponse.ToBytes codec fr).2.2 (FilteredResponse.ToBytes codec fr).2.1
        = some newCr ∧
      newCr.GroupByEnc = fr.GroupByEnc ∧
      newCr.AggregatingAttributes = fr.AggregatingAttributes ∧
      DecryptIntVector B bound secKey newCr.GroupByEnc
        = DecryptIntVector B bound secKey fr.GroupByEnc ∧
      DecryptIntVector B bound secKey newCr.AggregatingAttributes
        = DecryptIntVector B bound secKey fr.AggregatingAttributes := by
  refine ⟨fr, ?_, rfl, rfl, rfl, rfl⟩
  have haab := CipherVector_ToBytes_length codec hsize fr.AggregatingAttributes
  have hpg := CipherVector_ToBytes_length codec hsize fr.GroupByEnc
  have h1 := CipherVector_roundtrip codec hsize hround fr.AggregatingAttributes
  have h2 := CipherVector_roundtrip codec hsize hround fr.GroupByEnc
  have hl1 : (CipherVector.ToBytes codec fr.AggregatingAttributes).2
      = fr.AggregatingAttributes.length := rfl
  have hl2 : (CipherVector.ToBytes codec fr.GroupByEnc).2 = fr.GroupByEnc.length := rfl
  rw [hl1] at h1
  rw [hl2] at h2
  simp only [FilteredResponse.FromBytes, FilteredResponse.ToBytes, hl1, hl2]
  rw [List.take_append_of_le_length (by rw [haab]), ← haab, List.take_length,
    List.drop_append_of_le_length (by rfl), List.drop_length, List.nil_append, ← hpg,
    List.take_length, h1, h2]

/-- Witness of C21: the response of `TestFilteredResponseConverter` over the
integers modulo 11, with the secret key `3`. -/
theorem FilteredResponse_roundtrip_witness :
    (∀ p : ZMod 11, (exampleCodec.marshal p).length = exampleCodec.pointSize)
    ∧ (∀ p : ZMod 11, exampleCodec.unmarshal (exampleCodec.marshal p) = some p)
    ∧ ∃ newCr : FilteredResponse (ZMod 11),
      FilteredResponse.FromBytes exampleCodec
          (FilteredResponse.ToBytes exampleCodec exampleFilteredResponse).1
          (FilteredResponse.ToBytes exampleCodec exampleFilteredResponse).2.2
          (FilteredResponse.ToBytes exampleCodec exampleFilteredResponse).2.1
        = some newCr ∧
      DecryptIntVector (1 : ZMod 11) 11 (3 : ZMod 11) newCr.GroupByEnc = [some 1] ∧
      DecryptIntVector (1 : ZMod 11) 11 (3 : ZMod 11) newCr.AggregatingAttributes
        = [some 0, some 1, some 3, some 10, some 10] :=
  ⟨by decide, by decide,
    (FilteredResponse_roundtrip exampleCodec (by decide) (by decide) exampleFilteredResponse
      (1 : ZMod 11) 11 (3 : ZMod 11)).imp
      (fun _ h => ⟨h.1, h.2.2.2.1.trans (by decide), h.2.2.2.2.trans (by decide)⟩)⟩

end FilteredResponseWireTheorems

section DataFileTheorems

/-- C24: the round trip on the empty test data, as `GenerateData` makes it for
no data provider. `WriteDataToFile` writes no line, and `ReadDataFromFile`
returns a map with the id `""`, which the empty test data does not have. -/
theorem ReadDataFromFile_of_empty (env : DataEnv)
    (hrange : (env.rangeTestData ∅).Perm (∅ : TestData).entries) :
    WriteDataToFile env ∅ = []
    ∧ ReadDataFromFile env (WriteDataToFile env ∅) = some (AList.singleton "" [])
    ∧ (AList.singleton "" [] : TestData).lookup "" = some []
    ∧ (∅ : TestData).lookup "" = none := by
  have hnil : env.rangeTestData ∅ = [] := List.Perm.eq_nil hrange
  have hw : WriteDataToFile env ∅ = [] := by simp [WriteDataToFile, hnil]
  refine ⟨hw, ?_, by decide, by decide⟩
  rw [hw]
  rfl

/-- Witness of C24's theorem: the example functions of `lib`. -/
theorem ReadDataFromFile_of_empty_witness :
    (exampleDataEnv.rangeTestData ∅).Perm (∅ : TestData).entries
    ∧ ReadDataFromFile exampleDataEnv (WriteDataToFile exampleDataEnv ∅)
        = some (AList.singleton "" []) :=
  ⟨List.Perm.refl _, (ReadDataFromFile_of_empty exampleDataEnv (List.Perm.refl _)).2.1⟩

/-- No decimal digit is the character `#`. -/
theorem digitChar_ne_hash : ∀ n : Nat, n < 10 → Nat.digitChar n ≠ '#' := by
  decide

/-- The digits of a number do not hold the character `#`. -/
theorem toDigitsCore_ne_hash (fuel n : Nat) (ds : List Char) (hds : ∀ c ∈ ds, c ≠ '#') :
    ∀ c ∈ Nat.toDigitsCore 10 fuel n ds, c ≠ '#' := by
  induction fuel generalizing n ds with
  | zero => simpa [Nat.toDigitsCore] using hds
  | succ fuel ih =>
    have hcons : ∀ c ∈ Nat.digitChar (n % 10) :: ds, c ≠ '#' := by
      intro c hc
      rcases List.mem_cons.mp hc with rfl | hc
      · exact digitChar_ne_hash _ (Nat.mod_lt _ (by decide))
      · exact hds c hc
    rw [Nat.toDigitsCore]
    split_ifs
    · exact hcons
    · exact ih _ _ hcons

/-- An integer formatted with `%v` does not hold the character `#`. -/
theorem toString_int_ne_hash (g : Int) : ∀ c ∈ (toString g).data, c ≠ '#' := by
  have hnat : ∀ m : Nat, ∀ c ∈ (toString m).data, c ≠ '#' := fun m =>
    toDigitsCore_ne_hash (m + 1) m [] (by simp)
  cases g with
  | ofNat m => exact hnat m
  | negSucc m =>
    intro c hc
    have hc' : c ∈ '-' :: (toString (m + 1)).data := hc
    rcases List.mem_cons.mp hc' with rfl | hc'
    · decide
    · exact hnat _ c hc'

/-- The characters of the line that `flushInt64Data` writes, after the
characters written before. -/
theorem flush_foldl_data (slice : List Int) (acc : String) :
    (slice.foldl (fun line g => line ++ (toString g ++ " ")) acc).data
      = acc.data ++ slice.flatMap (fun g => (toString g).data ++ [' ']) := by
  induction slice generalizing acc with
  | nil => simp
  | cons g slice ih =>
    rw [List.foldl_cons, ih]
    simp [String.data_append]

/-- A line of values does not start with the character `#`. -/
theorem flushInt64Data_head (slice : List Int) :
    (flushInt64Data slice).data.head? ≠ some '#' := by
  rw [flushInt64Data, flush_foldl_data]
  cases slice with
  | nil => simp
  | cons g slice =>
    intro h
    have hmem : '#' ∈ (toString g).data ++ [' '] := by
      cases hd : (toString g).data with
      | nil => simp [hd] at h
      | cons c cs =>
        have hc : c = '#' := by simpa [hd] using h
        simp [hc]
    rcases List.mem_append.mp hmem with hm | hm
    · exact toString_int_ne_hash g '#' hm rfl
    · simp at hm

/-- The lines of a generated entry are the lines of its six slices. -/
theorem entryLines_generatedEntry (env : DataEnv) (r : GeneratedSlices)
    (h : slicesInvert env r) :
    entryLines env (generatedEntry env r)
      = [flushInt64Data r.grpClear, flushInt64Data r.grpEnc, flushInt64Data r.whereClear,
         flushInt64Data r.whereEnc, flushInt64Data r.aggrClear, flushInt64Data r.aggrEnc] := by
  obtain ⟨h1, h2, h3, h4, h5, h6⟩ := h
  simp only [entryLines, generatedEntry, h1.1, h1.2.1, h2.1, h3.1, h3.2.1, h4.1, h5.1,
    h5.2.1, h6.1]

/-- One iteration of the loop of `ReadDataFromFile` on the lines of a
generated entry: the entry is appended to the container. -/
theorem readLoop_entry (env : DataEnv) (r : GeneratedSlices) (h : slicesInvert env r)
    (fuel : Nat) (rest : List String) (st : ReadState) :
    readLoop env (fuel + 1) (entryLines env (generatedEntry env r) ++ rest) st
      = readLoop env fuel rest
          { st with container := st.container ++ [generatedEntry env r] } := by
  rw [entryLines_generatedEntry env r h]
  obtain ⟨h1, h2, h3, h4, h5, h6⟩ := h
  simp only [List.cons_append, List.nil_append]
  rw [readLoop, if_neg (flushInt64Data_head r.grpClear)]
  simp only [scanText, h1.2.2, h2.2.2, h3.2.2, h4.2.2, h5.2.2, h6.2.2, generatedEntry]

/-- The iterations on the lines of a list of generated entries. -/
theorem readLoop_entries (env : DataEnv) (v : List DpClearResponse)
    (hv : ∀ e ∈ v, ∃ r, e = generatedEntry env r ∧ slicesInvert env r)
    (fuel : Nat) (rest : List String) (st : ReadState)
    (hfuel : (v.flatMap (entryLines env) ++ rest).length < fuel) :
    ∃ fuel', rest.length < fuel' ∧
      readLoop env fuel (v.flatMap (entryLines env) ++ rest) st
        = readLoop env fuel' rest { st with container := st.container ++ v } := by
  induction v generalizing fuel st with
  | nil => exact ⟨fuel, by simpa using hfuel, by simp⟩
  | cons e v ih =>
    obtain ⟨r, rfl, hr⟩ := hv e (List.mem_cons_self _ _)
    cases fuel with
    | zero => omega
    | succ fuel =>
      rw [List.flatMap_cons, List.append_assoc, readLoop_entry env r hr]
      have hsix : (entryLines env (generatedEntry env r)).length = 6 := rfl
      have hlen : (v.flatMap (entryLines env) ++ rest).length < fuel := by
        simp only [List.flatMap_cons, List.length_append] at hfuel ⊢
        omega
      obtain ⟨fuel', hf', heq⟩ :=
        ih (fun e he => hv e (List.mem_cons_of_mem _ he)) fuel
          { st with container := st.container ++ [generatedEntry env r] } hlen
      refine ⟨fuel', hf', ?_⟩
      rw [heq]
      simp [List.append_assoc]

/-- The iterations on the lines of one id, seen after another id: the id
before is stored with its container, and the new id is pending with the
entries read. -/
theorem readLoop_block (env : DataEnv) (k : String) (v : List DpClearResponse)
    (hv : ∀ e ∈ v, ∃ r, e = generatedEntry env r ∧ slicesInvert env r)
    (fuel : Nat) (rest : List String) (st : ReadState) (hin : st.dataIn = true)
    (hfuel : ((("#" ++ k) :: v.flatMap (entryLines env)) ++ rest).length < fuel) :
    ∃ fuel', rest.length < fuel' ∧
      readLoop env fuel ((("#" ++ k) :: v.flatMap (entryLines env)) ++ rest) st
        = readLoop env fuel' rest
            { testData := st.testData.insert st.id st.container, id := k, dataIn := true
              container := v } := by
  cases fuel with
  | zero => omega
  | succ fuel =>
    have hhead : ("#" ++ k).data.head? = some '#' := by simp [String.data_append]
    have hid : String.mk (("#" ++ k).data.drop 1) = k := by simp [String.data_append]
    rw [List.cons_append, readLoop, if_pos hhead]
    simp only [hin, if_true, hid]
    obtain ⟨fuel', hf', heq⟩ := readLoop_entries env v hv fuel rest
      { testData := st.testData.insert st.id st.container, id := k, dataIn := true
        container := [] }
      (by simp only [List.cons_append, List.length_cons] at hfuel; omega)
    exact ⟨fuel', hf', by rw [heq]; simp⟩

/-- The iterations on the lines of the first id of a file. -/
theorem readLoop_first (env : DataEnv) (k : String) (v : List DpClearResponse)
    (hv : ∀ e ∈ v, ∃ r, e = generatedEntry env r ∧ slicesInvert env r)
    (fuel : Nat) (rest : List String)
    (hfuel : ((("#" ++ k) :: v.flatMap (entryLines env)) ++ rest).length < fuel) :
    ∃ fuel', rest.length < fuel' ∧
      readLoop env fuel ((("#" ++ k) :: v.flatMap (entryLines env)) ++ rest)
          { testData := ∅, id := "", dataIn := false, container := [] }
        = readLoop env fuel' rest
            { testData := ∅, id := k, dataIn := true, container := v } := by
  cases fuel with
  | zero => omega
  | succ fuel =>
    have hhead : ("#" ++ k).data.head? = some '#' := by simp [String.data_append]
    have hid : String.mk (("#" ++ k).data.drop 1) = k := by simp [String.data_append]
    rw [List.cons_append, readLoop, if_pos hhead]
    simp only [Bool.false_eq_true, if_false, hid]
    obtain ⟨fuel', hf', heq⟩ := readLoop_entries env v hv fuel rest
      { testData := ∅, id := k, dataIn := true, container := [] }
      (by simp only [List.cons_append, List.length_cons] at hfuel; omega)
    exact ⟨fuel', hf', by rw [heq]; simp⟩

/-- The loop on the lines of the ids that follow the first one: at the end
the map with the pending id stored holds every id read. -/
theorem readLoop_blocks (env : DataEnv)
    (ranged : List (Sigma (fun _ : String => List DpClearResponse)))
    (hgen : ∀ kv ∈ ranged, ∀ e ∈ kv.2, ∃ r, e = generatedEntry env r ∧ slicesInvert env r)
    (fuel : Nat) (st : ReadState) (hin : st.dataIn = true)
    (hfuel : (ranged.flatMap
      (fun kv => ("#" ++ kv.1) :: kv.2.flatMap (entryLines env))).length < fuel) :
    ∃ stf, readLoop env fuel
        (ranged.flatMap (fun kv => ("#" ++ kv.1) :: kv.2.flatMap (entryLines env))) st
        = some stf ∧
      stf.testData.insert stf.id stf.container
        = ranged.foldl (fun (m : TestData) kv => m.insert kv.1 kv.2)
            (st.testData.insert st.id st.container) := by
  induction ranged generalizing fuel st with
  | nil =>
    cases fuel with
    | zero => simp at hfuel
    | succ fuel => exact ⟨st, rfl, rfl⟩
  | cons kv ranged ih =>
    rw [List.flatMap_cons] at hfuel ⊢
    obtain ⟨fuel', hf', heq⟩ := readLoop_block env kv.1 kv.2
      (hgen kv (List.mem_cons_self _ _)) fuel _ st hin hfuel
    obtain ⟨stf, hstf, hmap⟩ := ih (fun kv' h => hgen kv' (List.mem_cons_of_mem _ h)) fuel'
      { testData := st.testData.insert st.id st.container, id := kv.1, dataIn := true
        container := kv.2 } rfl hf'
    exact ⟨stf, by rw [heq, hstf], by rw [hmap]; rfl⟩

/-- A map into which entries with distinct keys are stored one by one holds
each of them, and under the other keys what it held before. -/
theorem lookup_foldl_insert
    (ranged : List (Sigma (fun _ : String => List DpClearResponse)))
    (hnd : ranged.NodupKeys) (m : TestData) (k : String) :
    (ranged.foldl (fun (m : TestData) kv => m.insert kv.1 kv.2) m).lookup k
      = (List.dlookup k ranged).orElse (fun _ => m.lookup k) := by
  induction ranged generalizing m with
  | nil => simp
  | cons kv ranged ih =>
    obtain ⟨k', v'⟩ := kv
    rw [List.nodupKeys_cons] at hnd
    rw [List.foldl_cons, ih hnd.2]
    by_cases hk : k = k'
    · subst hk
      have hnone : List.dlookup k ranged = none := List.dlookup_eq_none.mpr hnd.1
      simp [hnone]
    · rw [List.dlookup_cons_ne ranged ⟨k', v'⟩ hk, AList.lookup_insert_ne hk]

/-- The round trip of the test data file on test data that is not empty, made
of generated entries on whose slices the functions of `lib` invert each
other: whatever the order of the `range`, `ReadDataFromFile` on the file that
`WriteDataToFile` wrote returns a map with the same ids and, under each id,
the same entries in the same order. -/
theorem ReadDataFromFile_WriteDataToFile (env : DataEnv) (d : TestData)
    (hrange : (env.rangeTestData d).Perm d.entries) (hne : d.entries ≠ [])
    (hgen : ∀ kv ∈ d.entries, ∀ e ∈ kv.2,
      ∃ r, e = generatedEntry env r ∧ slicesInvert env r) :
    ∃ result : TestData,
      ReadDataFromFile env (WriteDataToFile env d) = some result ∧
      ∀ k, result.lookup k = d.lookup k := by
  have hgen' : ∀ kv ∈ env.rangeTestData d, ∀ e ∈ kv.2,
      ∃ r, e = generatedEntry env r ∧ slicesInvert env r :=
    fun kv hkv => hgen kv (hrange.mem_iff.mp hkv)
  have hnd : (env.rangeTestData d).NodupKeys := (List.perm_nodupKeys hrange).mpr d.nodupKeys
  have hlook : ∀ k, List.dlookup k (env.rangeTestData d) = d.lookup k :=
    fun k => List.perm_dlookup k hnd d.nodupKeys hrange
  unfold ReadDataFromFile WriteDataToFile
  revert hgen' hnd hlook
  cases hr : env.rangeTestData d with
  | nil =>
    rw [hr] at hrange
    exact absurd (List.Perm.nil_eq hrange).symm hne
  | cons kv ranged =>
    intro hgen' hnd hlook
    rw [List.flatMap_cons]
    obtain ⟨fuel', hf', heq⟩ := readLoop_first env kv.1 kv.2
      (hgen' kv (List.mem_cons_self _ _))
      ((("#" ++ kv.1) :: kv.2.flatMap (entryLines env)
        ++ ranged.flatMap (fun kv => ("#" ++ kv.1) :: kv.2.flatMap (entryLines env))).length + 1)
      _ (Nat.lt_succ_self _)
    obtain ⟨stf, hstf, hmap⟩ := readLoop_blocks env ranged
      (fun kv' h => hgen' kv' (List.mem_cons_of_mem _ h)) fuel'
      { testData := ∅, id := kv.1, dataIn := true, container := kv.2 } rfl hf'
    refine ⟨_, by rw [heq, hstf]; rfl, ?_⟩
    intro k
    show (stf.testData.insert stf.id stf.container).lookup k = d.lookup k
    rw [hmap]
    have hfold : (ranged.foldl (fun (m : TestData) kv => m.insert kv.1 kv.2)
        ((∅ : TestData).insert kv.1 kv.2))
        = (kv :: ranged).foldl (fun (m : TestData) kv => m.insert kv.1 kv.2) ∅ := rfl
    rw [hfold, lookup_foldl_insert _ hnd, hlook]
    simp

/-- The round trip on the example test data of two data providers: the
hypotheses of the round trip hold for the example functions of `lib`. -/
theorem ReadDataFromFile_WriteDataToFile_example :
    (exampleDataEnv.rangeTestData exampleTestData).Perm exampleTestData.entries
    ∧ exampleTestData.entries ≠ []
    ∧ ∃ result : TestData,
      ReadDataFromFile exampleDataEnv (WriteDataToFile exampleDataEnv exampleTestData)
        = some result ∧
      ∀ k, result.lookup k = exampleTestData.lookup k := by
  have hentries : exampleTestData.entries
      = [⟨"0", [generatedEntry exampleDataEnv (exampleSlices 0),
                generatedEntry exampleDataEnv (exampleSlices 1)]⟩,
         ⟨"1", [generatedEntry exampleDataEnv (exampleSlices 4)]⟩] := by
    rfl
  have hinv : ∀ g ∈ ([0, 1, 4] : List Int), slicesInvert exampleDataEnv (exampleSlices g) := by
    unfold slicesInvert helpersInvert
    decide
  refine ⟨List.Perm.refl _, by rw [hentries]; simp, ?_⟩
  refine ReadDataFromFile_WriteDataToFile exampleDataEnv exampleTestData (List.Perm.refl _)
    (by rw [hentries]; simp) ?_
  intro kv hkv e he
  rw [hentries] at hkv
  simp only [List.mem_cons, List.mem_singleton, List.not_mem_nil, or_false] at hkv
  rcases hkv with rfl | rfl
  · simp only [List.mem_cons, List.mem_singleton, List.not_mem_nil, or_false] at he
    rcases he with rfl | rfl
    · exact ⟨exampleSlices 0, rfl, hinv 0 (by decide)⟩
    · exact ⟨exampleSlices 1, rfl, hinv 1 (by decide)⟩
  · simp only [List.mem_singleton] at he
    subst he
    exact ⟨exampleSlices 4, rfl, hinv 4 (by decide)⟩

end DataFileTheorems

end UnLynx
